import Mathlib

/-!
# Hex (`src/hex.cpp`): graph model, connectivity search, win checks and move selectors

The C++ `int` values are embedded as `Int` (the board sizes the program accepts are
between 3 and 21, far from overflow).  A `std::vector` is a `List`; reading it at an
index outside its bounds is undefined behaviour in the source and `none` here.  The game
loop `do_move`, which the source lets run on after such a read, takes what the read finds
as a parameter.
-/

namespace Hex

/-! ## Data model -/

/-- The cell values of `enum class node` (`'X'`, `'O'`, `'.'`). -/
inductive node where
  | red
  | blue
  | empty
  deriving DecidableEq, Repr

/-- The class `Graph<T>`: the side length `size` and the flat vector `nodes`. -/
structure Graph (T : Type) where
  size : Int
  nodes : List T

/-- Reading `v[k]` for an `int` index `k`; `none` when `k` is outside the vector. -/
def vec_get {A : Type} (v : List A) (k : Int) : Option A :=
  if 0 ≤ k then v[k.toNat]? else none

/-- Writing `v[k] = a` for an `int` index `k`; an index outside the vector leaves it as it is. -/
def vec_put {A : Type} (v : List A) (k : Int) (a : A) : List A :=
  if 0 ≤ k then v.set k.toNat a else v

section GraphOps

variable {T : Type} [DecidableEq T]

/-- The constructor `Graph(int size, T value)`: `size * size` copies of `value`. -/
def Graph.init (size : Int) (value : T) : Graph T :=
  { size := size, nodes := List.replicate (size * size).toNat value }

/-- The method `number_of_vertices()`, which returns `size`. -/
def Graph.number_of_vertices (g : Graph T) : Int := g.size

/-- The method `get_node_value(x, y)`, which reads `nodes[x * size + y]`. -/
def Graph.get_node_value (g : Graph T) (x y : Int) : Option T :=
  vec_get g.nodes (x * g.size + y)

/-- The method `set_node_value(x, y, v)`, which writes `nodes[x * size + y] = v`. -/
def Graph.set_node_value (g : Graph T) (x y : Int) (v : T) : Graph T :=
  { g with nodes := vec_put g.nodes (x * g.size + y) v }

/-- The method `is_valid_coordinate(x, y)`. -/
def Graph.is_valid_coordinate (g : Graph T) (x y : Int) : Bool :=
  decide (x ≥ 0) && decide (x < g.size) && decide (y ≥ 0) && decide (y < g.size)

/-- The table `offset[6][2]` of `Graph::neighbors`. -/
def offset : List (Int × Int) :=
  [(0, -1), (0, 1), (1, -1), (1, 0), (-1, 0), (-1, 1)]

/-- The method `neighbors(n, color)`: the loop over the six offsets, pushing
`x * size + y` at the back of the list for each valid coordinate that holds `color`.
C++ `/` and `%` truncate, hence `Int.tdiv` and `Int.tmod`. -/
def Graph.neighbors (g : Graph T) (n : Int) (color : T) : List Int :=
  offset.foldl
    (fun list o =>
      let x := n.tdiv g.size + o.1
      let y := n.tmod g.size + o.2
      if g.is_valid_coordinate x y then
        if g.get_node_value x y = some color then list ++ [x * g.size + y] else list
      else list)
    []

/-- The element `top()` of a `std::priority_queue<int, std::vector<int>, std::less<int>>`:
the largest stored value. -/
def pq_top (queue : List Int) : Option Int := queue.max?

/-- The body of the `for` loop of `is_connected`: the neighbours not yet marked visited
are pushed on the queue. -/
def push_unvisited (visited : List Bool) (queue : List Int) (vs : List Int) : List Int :=
  vs.foldl (fun q v => if vec_get visited v = some false then q ++ [v] else q) queue

/-- Number of stored queue entries that are already marked visited (termination measure). -/
def stale (visited : List Bool) (queue : List Int) : Nat :=
  (queue.filter (fun v => vec_get visited v = some true)).length

/-- The `while (!queue.empty())` loop of `is_connected`, on the state `visited`, `queue`.
A popped index outside `visited` cannot arise from an in-range source (the neighbours are
valid coordinates); the loop stops there. -/
def Graph.is_connected_loop (g : Graph T) (destination : Int) (color : T)
    (visited : List Bool) (queue : List Int) : Bool :=
  match h : pq_top queue with
  | none => false
  | some u =>
    if u = destination then true
    else if hu : 0 ≤ u ∧ u.toNat < visited.length then
      g.is_connected_loop destination color (visited.set u.toNat true)
        (push_unvisited (visited.set u.toNat true) (queue.erase u) (g.neighbors u color))
    else false
termination_by (visited.count false, stale visited queue)
decreasing_by
  have hpush : ∀ (vis : List Bool) (vs q : List Int),
      stale vis (push_unvisited vis q vs) = stale vis q := by
    intro vis vs
    unfold push_unvisited
    induction vs with
    | nil => intro q; rfl
    | cons v vs ih =>
      intro q
      simp only [List.foldl_cons]
      rw [ih]
      by_cases hv : vec_get vis v = some false
      · simp [stale, hv]
      · simp [hv]
  rw [hpush]
  have hmem : u ∈ queue := List.max?_mem (fun a b => by omega) h
  cases hvu : visited[u.toNat]
  · apply Prod.Lex.left
    have hpos : 0 < visited.count false := by
      rw [List.count_pos_iff, ← hvu]
      exact List.getElem_mem hu.2
    have hc : (visited.set u.toNat true).count false + 1 = visited.count false := by
      rw [List.count_set _ _ _ _ hu.2]
      simp [hvu]
      omega
    show (visited.set u.toNat true).count false < visited.count false
    omega
  · have hset : visited.set u.toNat true = visited := by
      apply List.ext_getElem?
      intro j
      rw [List.getElem?_set]
      split_ifs with h1 h2
      · subst h1
        rw [List.getElem?_eq_getElem hu.2, hvu]
      · omega
      · rfl
    rw [hset]
    apply Prod.Lex.right
    have hg : vec_get visited u = some true := by
      simp [vec_get, hu.1, hu.2, hvu]
    have hp := ((List.perm_cons_erase hmem).filter
      (fun v => decide (vec_get visited v = some true))).length_eq
    simp only [stale]
    rw [hp]
    simp [hg]

/-- The method `is_connected(source, destination, color)`: the pre-check on the value at
`source`, then the search from the one-element queue with nothing visited.  A `source`
whose cell lies outside the vector (undefined in the source) fails the pre-check here. -/
def Graph.is_connected (g : Graph T) (source destination : Int) (color : T) : Bool :=
  if g.get_node_value (source.tdiv g.size) (source.tmod g.size) ≠ some color then false
  else
    g.is_connected_loop destination color
      (List.replicate (g.size * g.size).toNat false) [source]

/-- The method `has_any(value)`. -/
def Graph.has_any (g : Graph T) (value : T) : Bool :=
  g.nodes.any (fun n => decide (n = value))

end GraphOps

/-! ## Players and the board -/

/-- The data of `struct Player`: a display name and the colour the player puts down. -/
structure Player where
  name : String
  value : node

/-- The class `HexBoard`: the graph, the active-player flag and the two registered
players (`_players[0]`, `_players[1]`). -/
structure HexBoard where
  graph : Graph node
  active_player : Bool
  players0 : Player
  players1 : Player

/-- The constructor `HexBoard(int size)` followed by `add_players(p1, p2)`, as `main` does:
an all-empty graph and the flag set to `true`. -/
def HexBoard.init (size : Int) (p1 p2 : Player) : HexBoard :=
  { graph := Graph.init size node.empty, active_player := true, players0 := p1, players1 := p2 }

/-- The entry `_players[b]` for a `bool` index. -/
def HexBoard.players (game : HexBoard) (b : Bool) : Player :=
  if b then game.players1 else game.players0

/-- The method `size()`. -/
def HexBoard.size (game : HexBoard) : Int := game.graph.number_of_vertices

/-- The counters `0, 1, ..., n - 1` of a loop `for (int i = 0; i < n; ++i)`. -/
def upto (n : Int) : List Int := List.map Int.ofNat (List.range n.toNat)

/-- The method `check_red()`: the double loop over sources `i` in row 0 and destinations
`size * size - size + j` in the last row, with the colour of `_players[0]`. -/
def HexBoard.check_red (game : HexBoard) : Bool :=
  (upto game.size).any (fun i =>
    (upto game.size).any (fun j =>
      game.graph.is_connected i (game.size * game.size - game.size + j) game.players0.value))

/-- The method `check_blue()`: the double loop over sources `i * size` in column 0 and
destinations `(j + 1) * size - 1` in the last column, with the colour of `_players[1]`. -/
def HexBoard.check_blue (game : HexBoard) : Bool :=
  (upto game.size).any (fun i =>
    (upto game.size).any (fun j =>
      game.graph.is_connected (i * game.size) ((j + 1) * game.size - 1) game.players1.value))

/-- The method `is_over()` without argument. -/
def HexBoard.is_over_any (game : HexBoard) : Bool := game.check_red || game.check_blue

/-- The method `is_over(node player)`. -/
def HexBoard.is_over (game : HexBoard) (player : node) : Bool :=
  if player = node.red then game.check_red
  else if player = node.blue then game.check_blue
  else false

/-- The method `is_valid_move(x, y)`.  The range test is the source's (`> size()`); the
read of the cell is `none` when it falls outside the vector. -/
def HexBoard.is_valid_move (game : HexBoard) (x y : Int) : Option Bool :=
  if x < 0 ∨ x > game.size ∨ y < 0 ∨ y > game.size then some false
  else
    match game.graph.get_node_value x y with
    | none => none
    | some v => if v ≠ node.empty then some false else some true

/-- The method `has_any()` of the board. -/
def HexBoard.has_any (game : HexBoard) : Bool := game.graph.has_any node.empty

/-- The method `set_node_value(x, y, value)` of the board. -/
def HexBoard.set_node_value (game : HexBoard) (x y : Int) (value : node) : HexBoard :=
  { game with graph := game.graph.set_node_value x y value }

/-- The method `next_player()`: the flag is negated and the player at the new flag is
returned. -/
def HexBoard.next_player (game : HexBoard) : HexBoard × Player :=
  ({ game with active_player := !game.active_player }, game.players (!game.active_player))

/-- The method `HexBoard::do_move()`: the loop asks the active player for a pair `(x, y)`
until `is_valid_move` accepts one; `moves` are the pairs that player supplies, in order.
The accepted pair is written with the player's colour and the flag is negated.

A pair that passes the range test of `is_valid_move` can index the vector past its end
(`x = size()`, or `(size() - 1, size())`).  The source has no bounds check and goes on with
what it finds there: `stray k` is the value the read of `nodes[k]` gives at an index `k`
outside the vector, and the pair is accepted when that value is Empty.  The write of a pair
accepted this way falls outside the vector too, so every cell of the board stays as it is
(`vec_put`), and the flag is negated all the same. -/
def HexBoard.do_move (game : HexBoard) (stray : Int → node) :
    List (Int × Int) → Option HexBoard
  | [] => none
  | xy :: rest =>
    match game.is_valid_move xy.1 xy.2 with
    | some true =>
      some { game.set_node_value xy.1 xy.2 (game.players game.active_player).value with
        active_player := !game.active_player }
    | some false => game.do_move stray rest
    | none =>
      if stray (xy.1 * game.size + xy.2) ≠ node.empty then game.do_move stray rest
      else
        some { game.set_node_value xy.1 xy.2 (game.players game.active_player).value with
          active_player := !game.active_player }

/-! ## Move selectors

`ranged_rand(0, size - 1)` takes its values from a process-wide generator.  Here the values
it returns are a list of draws, consumed front to back; a selector that needs more draws
than the list holds has no result. -/

/-- The loop `do { x = rand; y = rand; } while (!game.is_valid_move(x, y))`, shared by
`RandomComputerPlayer::make_move` and `fill_board`: the accepted pair and the unused draws. -/
def sample_valid (game : HexBoard) : List Int → Option ((Int × Int) × List Int)
  | x :: y :: rest =>
    match game.is_valid_move x y with
    | some true => some ((x, y), rest)
    | some false => sample_valid game rest
    | none => none
  | _ => none

/-- The method `RandomComputerPlayer::make_move(game, x, y)`: the board (passed `const`),
the new `x` and `y`, and the unused draws. -/
def RandomComputerPlayer.make_move (game : HexBoard) (_x _y : Int) (draws : List Int) :
    Option (HexBoard × (Int × Int) × List Int) :=
  match sample_valid game draws with
  | some (xy, rest) => some (game, xy, rest)
  | none => none

/-- The constant `TRIALS`. -/
def TRIALS : Nat := 1000

/-- The method `MonteCarloComputerPlayer::fill_board(game)`. -/
def MonteCarloComputerPlayer.fill_board (game : HexBoard) (draws : List Int) :
    Option (HexBoard × List Int) :=
  if game.has_any then
    match h : sample_valid game draws with
    | none => none
    | some (xy, rest) =>
      MonteCarloComputerPlayer.fill_board
        (game.next_player.1.set_node_value xy.1 xy.2 game.next_player.2.value) rest
  else some (game, draws)
termination_by draws.length
decreasing_by
  have hlen : ∀ (n : Nat) (ds : List Int) (r : (Int × Int) × List Int),
      ds.length ≤ n → sample_valid game ds = some r → r.2.length < ds.length := by
    intro n
    induction n with
    | zero =>
      intro ds r hn hr
      cases ds with
      | nil => simp [sample_valid] at hr
      | cons a t => simp at hn
    | succ n ih =>
      intro ds r hn hr
      rcases ds with _ | ⟨a, _ | ⟨b, rest⟩⟩
      · simp [sample_valid] at hr
      · simp [sample_valid] at hr
      · rw [sample_valid] at hr
        split at hr
        · cases hr
          simp
          omega
        · have := ih rest r (by simp at hn; omega) hr
          simp
          omega
        · cases hr
  exact hlen draws.length draws (xy, rest) (le_refl _) h

/-- The trial loop of `do_monte_carlo`: `k` trials still to run, `wins` counted so far. -/
def MonteCarloComputerPlayer.trials (value : node) (game : HexBoard) (x y : Int) :
    Nat → Nat → List Int → Option (Nat × List Int)
  | 0, wins, draws => some (wins, draws)
  | k + 1, wins, draws =>
    match MonteCarloComputerPlayer.fill_board (game.set_node_value x y value) draws with
    | none => none
    | some (copy, rest) =>
      MonteCarloComputerPlayer.trials value game x y k
        (if copy.is_over value then wins + 1 else wins) rest

/-- The method `do_monte_carlo(game, x, y)` of a player whose colour is `value`: the
quotient `wins / TRIALS`.  The source computes it in `double`; on the integers
`0 .. 1000` division by `1000.0` is strictly increasing, so comparisons between the
results agree with the comparisons of the exact quotients used here. -/
def MonteCarloComputerPlayer.do_monte_carlo (value : node) (game : HexBoard) (x y : Int)
    (draws : List Int) : Option (ℚ × List Int) :=
  match MonteCarloComputerPlayer.trials value game x y TRIALS 0 draws with
  | none => none
  | some (wins, rest) => some ((wins : ℚ) / (TRIALS : ℚ), rest)

/-- The inner loop (over `j`) of the first double loop of `make_move`. -/
def MonteCarloComputerPlayer.fill_row (value : node) (game : HexBoard) (i : Int) :
    List Int → List ℚ → List Int → Option (List ℚ × List Int)
  | [], probabilities, draws => some (probabilities, draws)
  | j :: js, probabilities, draws =>
    match game.is_valid_move i j with
    | none => none
    | some false => MonteCarloComputerPlayer.fill_row value game i js probabilities draws
    | some true =>
      match MonteCarloComputerPlayer.do_monte_carlo value game i j draws with
      | none => none
      | some (p, rest) =>
        MonteCarloComputerPlayer.fill_row value game i js
          (vec_put probabilities (i * game.size + j) p) rest

/-- The outer loop (over `i`) of the first double loop of `make_move`. -/
def MonteCarloComputerPlayer.fill_rows (value : node) (game : HexBoard) :
    List Int → List ℚ → List Int → Option (List ℚ × List Int)
  | [], probabilities, draws => some (probabilities, draws)
  | i :: is, probabilities, draws =>
    match MonteCarloComputerPlayer.fill_row value game i (upto game.size) probabilities draws with
    | none => none
    | some (probabilities1, rest) =>
      MonteCarloComputerPlayer.fill_rows value game is probabilities1 rest

/-- The vector `probabilities` after the first double loop of `make_move`. -/
def MonteCarloComputerPlayer.probabilities (value : node) (game : HexBoard)
    (draws : List Int) : Option (List ℚ × List Int) :=
  MonteCarloComputerPlayer.fill_rows value game (upto game.size)
    (List.replicate (game.size * game.size).toNat 0) draws

/-- One step of the selection scan of `make_move` at index `i`, on the state
`(win_probability, x, y)`. -/
def MonteCarloComputerPlayer.scan_step (size : Int) (probabilities : List ℚ)
    (st : ℚ × Int × Int) (i : Nat) : ℚ × Int × Int :=
  if probabilities.getD i 0 > st.1 then (probabilities.getD i 0, (i : Int) / size, (i : Int) % size)
  else st

/-- The selection scan of `make_move`: `win_probability` starts at 0 and the indices
`0 .. probabilities.size() - 1` are visited in order. -/
def MonteCarloComputerPlayer.scan (size : Int) (probabilities : List ℚ) (x y : Int) :
    ℚ × Int × Int :=
  (List.range probabilities.length).foldl
    (MonteCarloComputerPlayer.scan_step size probabilities) (0, x, y)

/-- The method `MonteCarloComputerPlayer::make_move(game, x, y)` of a player whose colour
is `value`: the new `x` and `y`, and the unused draws. -/
def MonteCarloComputerPlayer.make_move (value : node) (game : HexBoard) (x y : Int)
    (draws : List Int) : Option ((Int × Int) × List Int) :=
  match MonteCarloComputerPlayer.probabilities value game draws with
  | none => none
  | some (probabilities, rest) =>
    some ((MonteCarloComputerPlayer.scan game.size probabilities x y).2, rest)

/-! ## Variants used for comparison

The search with another frontier discipline, the loop of the source with an iteration
bound, and the clones of the Monte Carlo trials. -/

section Frontier

variable {T : Type} [DecidableEq T]

/-- The search loop of `is_connected` with the frontier kept as a plain sequence (new
entries are appended at the back) and `pick` choosing the position of the entry that the
next `top()`/`front()` and `pop()` take.  Everything else is the loop of the source. -/
def Graph.search_loop (g : Graph T) (pick : List Int → Nat) (destination : Int) (color : T)
    (visited : List Bool) (queue : List Int) : Bool :=
  if hq : pick queue < queue.length then
    if queue[pick queue] = destination then true
    else if hu : 0 ≤ queue[pick queue] ∧ (queue[pick queue]).toNat < visited.length then
      g.search_loop pick destination color (visited.set (queue[pick queue]).toNat true)
        (push_unvisited (visited.set (queue[pick queue]).toNat true)
          (queue.eraseIdx (pick queue)) (g.neighbors queue[pick queue] color))
    else false
  else false
termination_by (visited.count false, stale visited queue)
decreasing_by
  have hpush : ∀ (vis : List Bool) (vs q : List Int),
      stale vis (push_unvisited vis q vs) = stale vis q := by
    intro vis vs
    unfold push_unvisited
    induction vs with
    | nil => intro q; rfl
    | cons v vs ih =>
      intro q
      simp only [List.foldl_cons]
      rw [ih]
      by_cases hv : vec_get vis v = some false
      · simp [stale, hv]
      · simp [hv]
  rw [hpush]
  cases hvu : visited[(queue[pick queue]).toNat]
  · apply Prod.Lex.left
    have hpos : 0 < visited.count false := by
      rw [List.count_pos_iff, ← hvu]
      exact List.getElem_mem hu.2
    have hc : (visited.set (queue[pick queue]).toNat true).count false + 1
        = visited.count false := by
      rw [List.count_set _ _ _ _ hu.2]
      simp [hvu]
      omega
    show (visited.set (queue[pick queue]).toNat true).count false < visited.count false
    omega
  · have hset : visited.set (queue[pick queue]).toNat true = visited := by
      apply List.ext_getElem?
      intro j
      rw [List.getElem?_set]
      split_ifs with h1 h2
      · subst h1
        rw [List.getElem?_eq_getElem hu.2, hvu]
      · omega
      · rfl
    rw [hset]
    apply Prod.Lex.right
    have hg : vec_get visited (queue[pick queue]) = some true := by
      simp [vec_get, hu.1, hu.2, hvu]
    have hgen : ∀ (l : List Int) (i : Nat) (h : i < l.length),
        l.Perm (l[i] :: l.eraseIdx i) := by
      intro l
      induction l with
      | nil => intro i h; simp at h
      | cons a t ih =>
        intro i h
        cases i with
        | zero => simp
        | succ i =>
          simp only [List.getElem_cons_succ, List.eraseIdx_cons_succ]
          exact ((ih i (by simpa using h)).cons a).trans (List.Perm.swap _ _ _)
    have hperm := hgen queue (pick queue) hq
    have hp := (hperm.filter (fun v => decide (vec_get visited v = some true))).length_eq
    simp only [stale]
    rw [hp]
    simp [hg]

/-- The search with the discipline `pick`: the pre-check and the start state are those of
`is_connected`. -/
def Graph.is_connected_with (g : Graph T) (pick : List Int → Nat)
    (source destination : Int) (color : T) : Bool :=
  if g.get_node_value (source.tdiv g.size) (source.tmod g.size) ≠ some color then false
  else
    g.search_loop pick destination color
      (List.replicate (g.size * g.size).toNat false) [source]

/-- The search of `is_connected` run with a plain FIFO queue (`std::queue`): the entry
taken is the oldest one. -/
def Graph.is_connected_fifo (g : Graph T) (source destination : Int) (color : T) : Bool :=
  g.is_connected_with (fun _ => 0) source destination color

/-- The search of `is_connected` run with a LIFO stack (`std::stack`): the entry taken is
the newest one. -/
def Graph.is_connected_lifo (g : Graph T) (source destination : Int) (color : T) : Bool :=
  g.is_connected_with (fun queue => queue.length - 1) source destination color

/-- The `while` loop of `is_connected` as written, run for at most `fuel` iterations:
`none` when the iterations are used up before the loop ends. -/
def Graph.is_connected_loop_fuel (g : Graph T) (destination : Int) (color : T) :
    Nat → List Bool → List Int → Option Bool
  | 0, _, _ => none
  | fuel + 1, visited, queue =>
    match pq_top queue with
    | none => some false
    | some u =>
      if u = destination then some true
      else if 0 ≤ u ∧ u.toNat < visited.length then
        g.is_connected_loop_fuel destination color fuel (visited.set u.toNat true)
          (push_unvisited (visited.set u.toNat true) (queue.erase u) (g.neighbors u color))
      else some false

end Frontier

/-- The filled clones of the `k` trials of `do_monte_carlo(game, x, y)`, in the order of
the trials: each is a copy of `game` with `value` written at `(x, y)` and then completed
by `fill_board`. -/
def MonteCarloComputerPlayer.filled_clones (value : node) (game : HexBoard) (x y : Int) :
    Nat → List Int → Option (List HexBoard × List Int)
  | 0, draws => some ([], draws)
  | k + 1, draws =>
    match MonteCarloComputerPlayer.fill_board (game.set_node_value x y value) draws with
    | none => none
    | some (copy, rest) =>
      match MonteCarloComputerPlayer.filled_clones value game x y k rest with
      | none => none
      | some (clones, rest2) => some (copy :: clones, rest2)

/-! ## Specification-side notions -/

/-- A graph as the constructor builds it, of side at least 1: `size * size` cells. -/
def Graph.wf {T : Type} (g : Graph T) : Prop :=
  1 ≤ g.size ∧ g.nodes.length = (g.size * g.size).toNat

/-- A cell `(row, column)` of an `N x N` board. -/
def on_board (N : Int) (a : Int × Int) : Prop :=
  0 ≤ a.1 ∧ a.1 < N ∧ 0 ≤ a.2 ∧ a.2 < N

/-- The cell `b` differs from the cell `a` by one of the six hex offsets. -/
def hex_step (a b : Int × Int) : Prop :=
  (b.1 - a.1, b.2 - a.2) ∈ offset

/-- The cell `a` lies on the board and holds the value `c`. -/
def holds {T : Type} (g : Graph T) (c : T) (a : Int × Int) : Prop :=
  on_board g.size a ∧ g.get_node_value a.1 a.2 = some c

/-- A sequence of cells, all holding `c`, consecutive ones one hex offset apart. -/
def color_path {T : Type} (g : Graph T) (c : T) (p : List (Int × Int)) : Prop :=
  (∀ a ∈ p, holds g c a) ∧ List.Chain' hex_step p

/-- There is a sequence of cells from `a` to `b`, endpoints included, all holding `c`,
consecutive ones one hex offset apart. -/
def path_connected {T : Type} (g : Graph T) (c : T) (a b : Int × Int) : Prop :=
  ∃ p : List (Int × Int), p.head? = some a ∧ p.getLast? = some b ∧ color_path g c p

/-- The cell of a flat index. -/
def cell_of (N : Int) (n : Int) : Int × Int := (n / N, n % N)

/-! ## Notions used in the proofs -/

/-- A flat index of the board. -/
def in_range {T : Type} (g : Graph T) (n : Int) : Prop := 0 ≤ n ∧ n < g.size * g.size

/-- The edge relation the search follows: `b` is listed by `neighbors(a, c)`. -/
def edge {T : Type} [DecidableEq T] (g : Graph T) (c : T) (a b : Int) : Prop :=
  b ∈ g.neighbors a c

/-- The invariant of the `while` loop of `is_connected` started at `s` with destination `d`. -/
structure search_inv {T : Type} [DecidableEq T] (g : Graph T) (c : T) (s d : Int)
    (vis : List Bool) (q : List Int) : Prop where
  len : vis.length = (g.size * g.size).toNat
  queue_ok : ∀ v ∈ q, in_range g v ∧ Relation.ReflTransGen (edge g c) s v
  closed : ∀ u, vec_get vis u = some true →
    u ≠ d ∧ ∀ v ∈ g.neighbors u c, vec_get vis v = some true ∨ v ∈ q
  source : vec_get vis s = some true ∨ s ∈ q

/-- One step of a colour path: a hex offset into a cell that holds `c`. -/
def cstep {T : Type} (g : Graph T) (c : T) (a b : Int × Int) : Prop :=
  hex_step a b ∧ holds g c b

/-- The vector `probabilities` has one entry per cell and a nonzero entry only at an
Empty cell. -/
def probs_ok (game : HexBoard) (probs : List ℚ) : Prop :=
  probs.length = (game.size * game.size).toNat ∧
    ∀ k : Nat, probs.getD k 0 ≠ 0 → vec_get game.graph.nodes (k : Int) = some node.empty

/-- A board of side 2 given by its four cells in row-major order, Red registered as
`_players[0]` and Blue as `_players[1]`. -/
def board2 (c0 c1 c2 c3 : node) : HexBoard :=
  { graph := { size := 2, nodes := [c0, c1, c2, c3] }, active_player := true,
    players0 := ⟨"red", node.red⟩, players1 := ⟨"blue", node.blue⟩ }

/-- Indicator (mod 2) that an edge carries the labels 0 and 1. -/
def e01 (a b : Fin 3) : ZMod 2 := if (a = 0 ∧ b = 1) ∨ (a = 1 ∧ b = 0) then 1 else 0

/-- Indicator (mod 2) of the label `k`. -/
def is_lab (k a : Fin 3) : ZMod 2 := if a = k then 1 else 0

/-- The three labels are pairwise different. -/
def rainbow (a b c : Fin 3) : Prop := a ≠ b ∧ b ≠ c ∧ a ≠ c

instance (a b c : Fin 3) : Decidable (rainbow a b c) := by unfold rainbow; infer_instance

/-- Indicator (mod 2) of a proposition. -/
def ind (p : Prop) [Decidable p] : ZMod 2 := if p then 1 else 0

/-- Sum (mod 2) of a weight over the consecutive pairs of a walk. -/
def wsum (F : Int × Int → Int × Int → ZMod 2) : List (Int × Int) → ZMod 2
  | a :: b :: rest => F a b + wsum F (b :: rest)
  | _ => 0

/-- The step `a, b` joins column `v.2` to column `v.2 + 1` and its end in column `v.2` lies
in a row above `v`. -/
def hcross (v a b : Int × Int) : Prop :=
  (a.2 = v.2 ∧ b.2 = v.2 + 1 ∧ a.1 < v.1) ∨ (b.2 = v.2 ∧ a.2 = v.2 + 1 ∧ b.1 < v.1)

instance (v a b : Int × Int) : Decidable (hcross v a b) := by unfold hcross; infer_instance

/-- The cell `x` lies in the column of `v`, in a row above `v`. -/
def above (v x : Int × Int) : Prop := x.2 = v.2 ∧ x.1 < v.1

instance (v x : Int × Int) : Decidable (above v x) := by unfold above; infer_instance

/-- Crossing number (mod 2) of the walk `w` relative to the cell `v`. -/
def hnum (v : Int × Int) (w : List (Int × Int)) : ZMod 2 :=
  wsum (fun a b => ind (hcross v a b)) w

/-- A cell a blocking walk may use: its row is on the board and it is not marked. -/
def free_cell (N : Int) (mark : Int × Int → Prop) (x : Int × Int) : Prop :=
  0 ≤ x.1 ∧ x.1 < N ∧ ¬ mark x

/-- A step of a blocking walk. -/
def free_step (N : Int) (mark : Int × Int → Prop) (a b : Int × Int) : Prop :=
  hex_step a b ∧ free_cell N mark a ∧ free_cell N mark b

/-- The cell is Red and joined by Red cells to a Red cell of row 0. -/
def top_connected (g : Graph node) (x : Int × Int) : Prop :=
  ∃ t : Int × Int, t.1 = 0 ∧ holds g node.red t ∧ Relation.ReflTransGen (cstep g node.red) t x

/-- The cell is Blue and joined by Blue cells to a Blue cell of column 0. -/
def left_connected (g : Graph node) (x : Int × Int) : Prop :=
  ∃ t : Int × Int, t.2 = 0 ∧ holds g node.blue t ∧ Relation.ReflTransGen (cstep g node.blue) t x

/-- A labelling of the cells: 0 for joined to the top, 1 for joined to the left, 2 for
neither. -/
def labels_board (g : Graph node) (L : Int × Int → Fin 3) : Prop :=
  ∀ x, (L x = 0 ↔ top_connected g x) ∧ (L x = 1 ↔ left_connected g x)
    ∧ (L x = 2 ↔ ¬ top_connected g x ∧ ¬ left_connected g x)

/-! ## Index arithmetic -/

theorem flat_decompose {n N : Int} (hN : 0 < N) (h0 : 0 ≤ n) (h1 : n < N * N) :
    0 ≤ n / N ∧ n / N < N ∧ 0 ≤ n % N ∧ n % N < N ∧ n / N * N + n % N = n := by
  refine ⟨Int.ediv_nonneg h0 hN.le, Int.ediv_lt_of_lt_mul hN h1, Int.emod_nonneg _ hN.ne',
    Int.emod_lt_of_pos _ hN, ?_⟩
  have := Int.ediv_add_emod n N
  linarith [mul_comm N (n / N)]

theorem flat_compose {x y N : Int} (hx0 : 0 ≤ x) (hx : x < N) (hy0 : 0 ≤ y) (hy : y < N) :
    0 ≤ x * N + y ∧ x * N + y < N * N ∧ (x * N + y) / N = x ∧ (x * N + y) % N = y := by
  have hN : 0 < N := by omega
  refine ⟨by positivity, by nlinarith, ?_, ?_⟩
  · rw [add_comm, Int.add_mul_ediv_right _ _ hN.ne', Int.ediv_eq_zero_of_lt hy0 hy]
    simp
  · rw [add_comm, Int.add_mul_emod_self, Int.emod_eq_of_lt hy0 hy]

theorem flat_tdiv {x y N : Int} (hx0 : 0 ≤ x) (hx : x < N) (hy0 : 0 ≤ y) (hy : y < N) :
    (x * N + y).tdiv N = x ∧ (x * N + y).tmod N = y := by
  have h := flat_compose hx0 hx hy0 hy
  have hN : 0 ≤ N := by omega
  rw [Int.tdiv_eq_ediv h.1 hN, Int.tmod_eq_emod h.1 hN]
  exact ⟨h.2.2.1, h.2.2.2⟩

theorem flat_injective {x y x2 y2 N : Int} (hy0 : 0 ≤ y) (hy : y < N) (hy20 : 0 ≤ y2)
    (hy2 : y2 < N) (h : x * N + y = x2 * N + y2) : x = x2 ∧ y = y2 := by
  have hN : 0 < N := by omega
  have e1 : (x * N + y) / N = x := by
    rw [add_comm, Int.add_mul_ediv_right _ _ hN.ne', Int.ediv_eq_zero_of_lt hy0 hy]
    simp
  have e2 : (x2 * N + y2) / N = x2 := by
    rw [add_comm, Int.add_mul_ediv_right _ _ hN.ne', Int.ediv_eq_zero_of_lt hy20 hy2]
    simp
  have hx : x = x2 := by rw [← e1, ← e2, h]
  subst hx
  exact ⟨rfl, by linarith⟩

section GraphFacts

variable {T : Type} [DecidableEq T]

omit [DecidableEq T] in
theorem get_node_value_some {g : Graph T} (hwf : g.wf) {x y : Int}
    (hb : on_board g.size (x, y)) :
    ∃ v, g.get_node_value x y = some v ∧ v ∈ g.nodes := by
  have hx0 : 0 ≤ x := hb.1
  have hx : x < g.size := hb.2.1
  have hy0 : 0 ≤ y := hb.2.2.1
  have hy : y < g.size := hb.2.2.2
  have h := flat_compose hx0 hx hy0 hy
  have hlt : (x * g.size + y).toNat < g.nodes.length := by
    rw [hwf.2]
    omega
  refine ⟨g.nodes[(x * g.size + y).toNat], ?_, List.getElem_mem hlt⟩
  simp [Graph.get_node_value, vec_get, h.1, List.getElem?_eq_getElem hlt]

omit [DecidableEq T] in
theorem is_valid_coordinate_iff (g : Graph T) (x y : Int) :
    g.is_valid_coordinate x y = true ↔ on_board g.size (x, y) := by
  simp [Graph.is_valid_coordinate, on_board, and_assoc]

/-- The push loop of `neighbors` collects, in order, the images of the accepted offsets. -/
theorem foldl_push_filter {A B : Type} (p : A → Bool) (f : A → B) (l : List A)
    (init : List B) :
    l.foldl (fun acc a => if p a then acc ++ [f a] else acc) init
      = init ++ (l.filter p).map f := by
  induction l generalizing init with
  | nil => simp
  | cons a l ih =>
    simp only [List.foldl_cons]
    rw [ih]
    by_cases h : p a = true
    · simp [h]
    · simp [h]

theorem neighbors_eq_filter (g : Graph T) (n : Int) (c : T) :
    g.neighbors n c =
      (offset.filter (fun o =>
          g.is_valid_coordinate (n.tdiv g.size + o.1) (n.tmod g.size + o.2)
            && decide (g.get_node_value (n.tdiv g.size + o.1) (n.tmod g.size + o.2) = some c))).map
        (fun o => (n.tdiv g.size + o.1) * g.size + (n.tmod g.size + o.2)) := by
  have h := foldl_push_filter
    (fun o : Int × Int =>
      g.is_valid_coordinate (n.tdiv g.size + o.1) (n.tmod g.size + o.2)
        && decide (g.get_node_value (n.tdiv g.size + o.1) (n.tmod g.size + o.2) = some c))
    (fun o : Int × Int => (n.tdiv g.size + o.1) * g.size + (n.tmod g.size + o.2)) offset []
  rw [List.nil_append] at h
  rw [← h]
  unfold Graph.neighbors
  congr 1
  funext acc o
  by_cases h1 : g.is_valid_coordinate (n.tdiv g.size + o.1) (n.tmod g.size + o.2) = true
  · by_cases h2 : g.get_node_value (n.tdiv g.size + o.1) (n.tmod g.size + o.2) = some c
    · simp [h1, h2]
    · simp [h1, h2]
  · simp [h1]

theorem mem_neighbors_iff (g : Graph T) (c : T) {r q : Int}
    (hb : on_board g.size (r, q)) (v : Int) :
    v ∈ g.neighbors (r * g.size + q) c ↔
      ∃ o ∈ offset, holds g c (r + o.1, q + o.2) ∧ v = (r + o.1) * g.size + (q + o.2) := by
  have ht := flat_tdiv (show 0 ≤ r from hb.1) (show r < g.size from hb.2.1)
    (show 0 ≤ q from hb.2.2.1) (show q < g.size from hb.2.2.2)
  rw [neighbors_eq_filter, ht.1, ht.2]
  simp only [List.mem_map, List.mem_filter, Bool.and_eq_true, decide_eq_true_eq,
    is_valid_coordinate_iff, holds]
  constructor
  · rintro ⟨o, ⟨ho, h1, h2⟩, rfl⟩
    exact ⟨o, ho, ⟨h1, h2⟩, rfl⟩
  · rintro ⟨o, ho, ⟨h1, h2⟩, rfl⟩
    exact ⟨o, ⟨ho, h1, h2⟩, rfl⟩

/-- C7: on a board of side `N >= 1`, `neighbors(r * N + q, c)` is the list of the flat
indices of the cells `(r + dr, q + dq)`, `(dr, dq)` running over the six offsets in table
order, that lie on the board and hold `c`; the list has no duplicates, does not contain
`r * N + q`, and has six entries at an interior cell of a board filled with `c`. -/
theorem neighbors_exact (g : Graph T) (c : T) (r q : Int) (hwf : g.wf)
    (hb : on_board g.size (r, q)) :
    g.neighbors (r * g.size + q) c
        = (offset.filter (fun o => decide (0 ≤ r + o.1 ∧ r + o.1 < g.size ∧ 0 ≤ q + o.2 ∧
            q + o.2 < g.size ∧ g.get_node_value (r + o.1) (q + o.2) = some c))).map
          (fun o => (r + o.1) * g.size + (q + o.2))
    ∧ (g.neighbors (r * g.size + q) c).Nodup
    ∧ r * g.size + q ∉ g.neighbors (r * g.size + q) c
    ∧ (1 ≤ r → r + 1 < g.size → 1 ≤ q → q + 1 < g.size → (∀ v ∈ g.nodes, v = c) →
        (g.neighbors (r * g.size + q) c).length = 6) := by
  have hq0 : 0 ≤ q := hb.2.2.1
  have hq : q < g.size := hb.2.2.2
  have ht := flat_tdiv (show 0 ≤ r from hb.1) (show r < g.size from hb.2.1) hq0 hq
  have heq : g.neighbors (r * g.size + q) c
        = (offset.filter (fun o => decide (0 ≤ r + o.1 ∧ r + o.1 < g.size ∧ 0 ≤ q + o.2 ∧
            q + o.2 < g.size ∧ g.get_node_value (r + o.1) (q + o.2) = some c))).map
          (fun o => (r + o.1) * g.size + (q + o.2)) := by
    rw [neighbors_eq_filter, ht.1, ht.2]
    congr 1
    apply List.filter_congr
    intro o _
    simp [Graph.is_valid_coordinate, Bool.and_assoc]
  refine ⟨heq, ?_, ?_, ?_⟩
  · rw [heq]
    apply List.Nodup.map_on
    · intro o ho o2 ho2 h
      simp only [List.mem_filter, decide_eq_true_eq] at ho ho2
      have := flat_injective ho.2.2.2.1 ho.2.2.2.2.1 ho2.2.2.2.1 ho2.2.2.2.2.1 h
      ext
      · linarith [this.1]
      · linarith [this.2]
    · exact List.Nodup.filter _ (by decide)
  · rw [heq]
    simp only [List.mem_map, List.mem_filter, decide_eq_true_eq, not_exists, not_and]
    intro o ho h
    have := flat_injective ho.2.2.2.1 ho.2.2.2.2.1 hq0 hq h
    have h1 : o.1 = 0 := by linarith [this.1]
    have h2 : o.2 = 0 := by linarith [this.2]
    have ho1 := ho.1
    have : o = (0, 0) := Prod.ext h1 h2
    rw [this] at ho1
    revert ho1
    decide
  · intro h1 h2 h3 h4 hall
    rw [heq]
    have hfil : offset.filter (fun o => decide (0 ≤ r + o.1 ∧ r + o.1 < g.size ∧ 0 ≤ q + o.2 ∧
            q + o.2 < g.size ∧ g.get_node_value (r + o.1) (q + o.2) = some c)) = offset := by
      rw [List.filter_eq_self]
      intro o ho
      have hbo : on_board g.size (r + o.1, q + o.2) := by
        simp only [offset, List.mem_cons, List.mem_singleton, List.not_mem_nil, or_false] at ho
        rcases ho with rfl | rfl | rfl | rfl | rfl | rfl <;>
          simp only [on_board] <;> omega
      obtain ⟨v, hv, hmem⟩ := get_node_value_some hwf hbo
      rw [hall v hmem] at hv
      simp only [decide_eq_true_eq]
      exact ⟨hbo.1, hbo.2.1, hbo.2.2.1, hbo.2.2.2, hv⟩
    rw [hfil]
    rfl

theorem neighbors_exact_witness :
    (Graph.init 3 node.red).neighbors (1 * (Graph.init 3 node.red).size + 1) node.red
        = [3, 5, 6, 7, 1, 2]
    ∧ ((Graph.init 3 node.red).neighbors (1 * (Graph.init 3 node.red).size + 1) node.red).length
        = 6 := by
  have h := neighbors_exact (Graph.init 3 node.red) node.red 1 1
    ⟨by decide, by decide⟩ ⟨by decide, by decide, by decide, by decide⟩
  refine ⟨?_, h.2.2.2 (by decide) (by decide) (by decide) (by decide) (by decide)⟩
  rw [h.1]
  decide

/-! ## The search loop of `is_connected` -/

theorem loop_empty (g : Graph T) (d : Int) (c : T) (vis : List Bool) (q : List Int)
    (h : pq_top q = none) : g.is_connected_loop d c vis q = false := by
  rw [Graph.is_connected_loop]
  split
  · rfl
  · rename_i u hu
    rw [h] at hu
    cases hu

theorem loop_found (g : Graph T) (d : Int) (c : T) (vis : List Bool) (q : List Int)
    (h : pq_top q = some d) : g.is_connected_loop d c vis q = true := by
  rw [Graph.is_connected_loop]
  split
  · rename_i hu
    rw [h] at hu
    cases hu
  · rename_i u hu
    rw [h] at hu
    cases hu
    simp

theorem loop_step (g : Graph T) (d : Int) (c : T) (vis : List Bool) (q : List Int) (u : Int)
    (h : pq_top q = some u) (hne : u ≠ d) (hu : 0 ≤ u ∧ u.toNat < vis.length) :
    g.is_connected_loop d c vis q =
      g.is_connected_loop d c (vis.set u.toNat true)
        (push_unvisited (vis.set u.toNat true) (q.erase u) (g.neighbors u c)) := by
  rw [Graph.is_connected_loop]
  split
  · rename_i hu2
    rw [h] at hu2
    cases hu2
  · rename_i u2 hu2
    rw [h] at hu2
    cases hu2
    simp [hne, hu]

theorem mem_push_unvisited (vis : List Bool) (vs q : List Int) (v : Int) :
    v ∈ push_unvisited vis q vs ↔ v ∈ q ∨ (v ∈ vs ∧ vec_get vis v = some false) := by
  unfold push_unvisited
  induction vs generalizing q with
  | nil => simp
  | cons a vs ih =>
    simp only [List.foldl_cons]
    rw [ih]
    by_cases ha : vec_get vis a = some false
    · simp only [ha, if_true, List.mem_append, List.mem_cons, List.not_mem_nil, or_false]
      constructor
      · rintro ((h | rfl) | h)
        · exact Or.inl h
        · exact Or.inr ⟨Or.inl rfl, ha⟩
        · exact Or.inr ⟨Or.inr h.1, h.2⟩
      · rintro (h | ⟨rfl | h, h2⟩)
        · exact Or.inl (Or.inl h)
        · exact Or.inl (Or.inr rfl)
        · exact Or.inr ⟨h, h2⟩
    · simp only [ha, if_false, List.mem_cons]
      constructor
      · rintro (h | h)
        · exact Or.inl h
        · exact Or.inr ⟨Or.inr h.1, h.2⟩
      · rintro (h | ⟨rfl | h, h2⟩)
        · exact Or.inl h
        · exact absurd h2 ha
        · exact Or.inr ⟨h, h2⟩

theorem vec_get_mark (vis : List Bool) {u : Int} (hu : 0 ≤ u ∧ u.toNat < vis.length)
    (v : Int) :
    vec_get (vis.set u.toNat true) v = if v = u then some true else vec_get vis v := by
  unfold vec_get
  by_cases hv : 0 ≤ v
  · simp only [hv, if_true, List.getElem?_set]
    by_cases hvu : v = u
    · subst hvu
      simp [hu.2]
    · have : u.toNat ≠ v.toNat := by omega
      simp [this, hvu]
  · have : v ≠ u := by omega
    simp [hv, this]

theorem vec_get_in_bounds {vis : List Bool} {v : Int} (h0 : 0 ≤ v) (h1 : v.toNat < vis.length) :
    vec_get vis v = some true ∨ vec_get vis v = some false := by
  unfold vec_get
  rw [if_pos h0, List.getElem?_eq_getElem h1]
  cases vis[v.toNat] <;> simp

theorem neighbors_in_range (g : Graph T) (c : T) (a v : Int) (h : v ∈ g.neighbors a c) :
    in_range g v := by
  rw [neighbors_eq_filter] at h
  simp only [List.mem_map, List.mem_filter, Bool.and_eq_true, is_valid_coordinate_iff] at h
  obtain ⟨o, ⟨_, hb, _⟩, rfl⟩ := h
  have := flat_compose hb.1 hb.2.1 hb.2.2.1 hb.2.2.2
  exact ⟨this.1, this.2.1⟩

theorem search_inv_step {g : Graph T} {c : T} {s d : Int} {vis : List Bool} {q : List Int}
    (inv : search_inv g c s d vis q) {u : Int} (hmem : u ∈ q) (hne : u ≠ d)
    (hu : 0 ≤ u ∧ u.toNat < vis.length) :
    search_inv g c s d (vis.set u.toNat true)
      (push_unvisited (vis.set u.toNat true) (q.erase u) (g.neighbors u c)) := by
  have hkeep : ∀ v, v ∈ q → vec_get (vis.set u.toNat true) v = some true ∨
      v ∈ push_unvisited (vis.set u.toNat true) (q.erase u) (g.neighbors u c) := by
    intro v hv
    by_cases hvu : v = u
    · left
      rw [vec_get_mark vis hu, if_pos hvu]
    · right
      rw [mem_push_unvisited]
      exact Or.inl ((List.mem_erase_of_ne hvu).2 hv)
  have hmono : ∀ v, vec_get vis v = some true → vec_get (vis.set u.toNat true) v = some true := by
    intro v hv
    rw [vec_get_mark vis hu]
    split
    · rfl
    · exact hv
  constructor
  · rw [List.length_set]
    exact inv.len
  · intro v hv
    rw [mem_push_unvisited] at hv
    rcases hv with hv | ⟨hv, _⟩
    · exact inv.queue_ok v (List.mem_of_mem_erase hv)
    · exact ⟨neighbors_in_range g c u v hv, (inv.queue_ok u hmem).2.tail hv⟩
  · intro w hw
    rw [vec_get_mark vis hu] at hw
    by_cases hwu : w = u
    · subst hwu
      refine ⟨hne, ?_⟩
      intro v hv
      have hr := neighbors_in_range g c w v hv
      have hlen : v.toNat < (vis.set w.toNat true).length := by
        rw [List.length_set, inv.len]
        have h1 := hr.1
        have h2 := hr.2
        omega
      rcases vec_get_in_bounds hr.1 hlen with h | h
      · exact Or.inl h
      · right
        rw [mem_push_unvisited]
        exact Or.inr ⟨hv, h⟩
    · rw [if_neg hwu] at hw
      obtain ⟨h1, h2⟩ := inv.closed w hw
      refine ⟨h1, ?_⟩
      intro v hv
      rcases h2 v hv with h | h
      · exact Or.inl (hmono v h)
      · exact hkeep v h
  · rcases inv.source with h | h
    · exact Or.inl (hmono s h)
    · exact hkeep s h

/-- Under the invariant the loop answers whether `d` is reachable from `s` along edges. -/
theorem loop_correct (g : Graph T) (c : T) (s d : Int) (vis : List Bool) (q : List Int)
    (inv : search_inv g c s d vis q) :
    g.is_connected_loop d c vis q = true ↔ Relation.ReflTransGen (edge g c) s d := by
  induction vis, q using Graph.is_connected_loop.induct g d c with
  | case1 vis q h =>
    rw [loop_empty g d c vis q h]
    have hq : q = [] := by
      unfold pq_top at h
      exact List.max?_eq_none_iff.1 h
    subst hq
    have hs : vec_get vis s = some true := by
      rcases inv.source with h | h
      · exact h
      · cases h
    have hall : ∀ v, Relation.ReflTransGen (edge g c) s v → vec_get vis v = some true := by
      intro v hv
      induction hv with
      | refl => exact hs
      | tail _ hbc ih =>
        rcases (inv.closed _ ih).2 _ hbc with h | h
        · exact h
        · cases h
    constructor
    · intro h
      cases h
    · intro h
      exact absurd rfl (inv.closed d (hall d h)).1
  | case2 vis q h =>
    rw [loop_found g d c vis q h]
    have hmem : d ∈ q := List.max?_mem (fun a b => by omega) h
    simp [(inv.queue_ok d hmem).2]
  | case3 vis q u h hne hu ih =>
    rw [loop_step g d c vis q u h hne hu]
    have hmem : u ∈ q := List.max?_mem (fun a b => by omega) h
    exact ih (search_inv_step inv hmem hne hu)
  | case4 vis q u h hne hu =>
    exfalso
    have hmem : u ∈ q := List.max?_mem (fun a b => by omega) h
    have hr := (inv.queue_ok u hmem).1
    apply hu
    rw [inv.len]
    have h1 := hr.1
    have h2 := hr.2
    omega

theorem vec_get_replicate_false (n : Nat) (u : Int) :
    vec_get (List.replicate n false) u ≠ some true := by
  unfold vec_get
  split
  · rw [List.getElem?_replicate]
    split <;> simp
  · simp

theorem cell_of_flat {N : Int} {a : Int × Int} (ha : on_board N a) :
    cell_of N (a.1 * N + a.2) = a := by
  have := flat_compose ha.1 ha.2.1 ha.2.2.1 ha.2.2.2
  unfold cell_of
  rw [this.2.2.1, this.2.2.2]

theorem flat_cell_of {N n : Int} (hN : 0 < N) (h0 : 0 ≤ n) (h1 : n < N * N) :
    on_board N (cell_of N n) ∧ (cell_of N n).1 * N + (cell_of N n).2 = n := by
  have := flat_decompose hN h0 h1
  exact ⟨⟨this.1, this.2.1, this.2.2.1, this.2.2.2.1⟩, this.2.2.2.2⟩

/-- The result of `is_connected`, in terms of reachability along the edges the search
follows. -/
theorem is_connected_iff_reach (g : Graph T) (c : T) (s d : Int) (hwf : g.wf)
    (hs : in_range g s) :
    g.is_connected s d c = true ↔
      holds g c (cell_of g.size s) ∧ Relation.ReflTransGen (edge g c) s d := by
  have hN : 0 < g.size := by have := hwf.1; omega
  have hc := flat_cell_of hN hs.1 hs.2
  unfold Graph.is_connected
  rw [Int.tdiv_eq_ediv hs.1 hN.le, Int.tmod_eq_emod hs.1 hN.le]
  by_cases hv : g.get_node_value (s / g.size) (s % g.size) = some c
  · rw [if_neg (not_not.2 hv)]
    have inv : search_inv g c s d (List.replicate (g.size * g.size).toNat false) [s] := by
      constructor
      · simp
      · intro v hv
        rw [List.mem_singleton] at hv
        subst hv
        exact ⟨hs, Relation.ReflTransGen.refl⟩
      · intro u hu
        exact absurd hu (vec_get_replicate_false _ u)
      · exact Or.inr (List.mem_singleton.2 rfl)
    rw [loop_correct g c s d _ _ inv]
    constructor
    · intro h
      exact ⟨⟨hc.1, hv⟩, h⟩
    · intro h
      exact h.2
  · rw [if_pos hv]
    constructor
    · intro h
      cases h
    · intro h
      exact absurd h.1.2 hv

theorem edge_iff_cstep (g : Graph T) (c : T) (hN : 0 < g.size) {a : Int} (ha : in_range g a)
    (b : Int) :
    edge g c a b ↔ in_range g b ∧ cstep g c (cell_of g.size a) (cell_of g.size b) := by
  have hd := flat_decompose hN ha.1 ha.2
  have hba : on_board g.size (a / g.size, a % g.size) := ⟨hd.1, hd.2.1, hd.2.2.1, hd.2.2.2.1⟩
  have hm := mem_neighbors_iff g c hba b
  rw [hd.2.2.2.2] at hm
  unfold edge
  rw [hm]
  constructor
  · rintro ⟨o, ho, hh, rfl⟩
    have hb := flat_compose hh.1.1 hh.1.2.1 hh.1.2.2.1 hh.1.2.2.2
    have hcell : cell_of g.size ((a / g.size + o.1) * g.size + (a % g.size + o.2))
        = (a / g.size + o.1, a % g.size + o.2) := cell_of_flat hh.1
    refine ⟨⟨hb.1, hb.2.1⟩, ?_, ?_⟩
    · unfold hex_step
      rw [hcell]
      simpa [cell_of] using ho
    · rw [hcell]
      exact hh
  · rintro ⟨hb, hstep, hh⟩
    have hcb := flat_decompose hN hb.1 hb.2
    refine ⟨(b / g.size - a / g.size, b % g.size - a % g.size), hstep, ?_, ?_⟩
    · simpa [cell_of] using hh
    · simp only [add_sub_cancel]
      exact hcb.2.2.2.2.symm

theorem reach_to_cells (g : Graph T) (c : T) (hN : 0 < g.size) {s d : Int}
    (hs : in_range g s) (h : Relation.ReflTransGen (edge g c) s d) :
    in_range g d ∧ Relation.ReflTransGen (cstep g c) (cell_of g.size s) (cell_of g.size d) := by
  induction h with
  | refl => exact ⟨hs, Relation.ReflTransGen.refl⟩
  | tail _ hbc ih =>
    have := (edge_iff_cstep g c hN ih.1 _).1 hbc
    exact ⟨this.1, ih.2.tail this.2⟩

theorem cells_to_reach (g : Graph T) (c : T) (hN : 0 < g.size) {a b : Int × Int}
    (ha : on_board g.size a) (h : Relation.ReflTransGen (cstep g c) a b) :
    on_board g.size b ∧
      Relation.ReflTransGen (edge g c) (a.1 * g.size + a.2) (b.1 * g.size + b.2) := by
  induction h with
  | refl => exact ⟨ha, Relation.ReflTransGen.refl⟩
  | @tail x y _ hxy ih =>
    have hx := flat_compose ih.1.1 ih.1.2.1 ih.1.2.2.1 ih.1.2.2.2
    have hyb : on_board g.size y := hxy.2.1
    have hy := flat_compose hyb.1 hyb.2.1 hyb.2.2.1 hyb.2.2.2
    refine ⟨hyb, ih.2.tail ?_⟩
    rw [edge_iff_cstep g c hN ⟨hx.1, hx.2.1⟩]
    refine ⟨⟨hy.1, hy.2.1⟩, ?_⟩
    rw [cell_of_flat ih.1, cell_of_flat hyb]
    exact hxy

omit [DecidableEq T] in
theorem path_connected_iff (g : Graph T) (c : T) (a b : Int × Int) :
    path_connected g c a b ↔ holds g c a ∧ Relation.ReflTransGen (cstep g c) a b := by
  constructor
  · rintro ⟨p, hhead, hlast, hall, hchain⟩
    induction p generalizing a with
    | nil => simp at hhead
    | cons x p ih =>
      simp only [List.head?_cons, Option.some.injEq] at hhead
      subst hhead
      have hx : holds g c x := hall x (List.mem_cons_self _ _)
      cases p with
      | nil =>
        simp only [List.getLast?_singleton, Option.some.injEq] at hlast
        subst hlast
        exact ⟨hx, Relation.ReflTransGen.refl⟩
      | cons y rest =>
        rw [List.getLast?_cons_cons] at hlast
        rw [List.chain'_cons] at hchain
        have hy : holds g c y := hall y (by simp)
        have := ih y rfl hlast (fun z hz => hall z (List.mem_cons_of_mem _ hz)) hchain.2
        exact ⟨hx, Relation.ReflTransGen.head ⟨hchain.1, hy⟩ this.2⟩
  · rintro ⟨ha, h⟩
    induction h using Relation.ReflTransGen.head_induction_on with
    | refl =>
      exact ⟨[b], rfl, rfl, by simpa using ha, List.chain'_singleton _⟩
    | @head x y hxy _ ih =>
      obtain ⟨p, hhead, hlast, hall, hchain⟩ := ih hxy.2
      cases p with
      | nil => simp at hhead
      | cons z rest =>
        simp only [List.head?_cons, Option.some.injEq] at hhead
        subst hhead
        refine ⟨x :: z :: rest, rfl, ?_, ?_, ?_⟩
        · rw [List.getLast?_cons_cons]
          exact hlast
        · intro w hw
          rcases List.mem_cons.1 hw with rfl | hw
          · exact ha
          · exact hall w hw
        · rw [List.chain'_cons]
          exact ⟨hxy.1, hchain⟩

/-- The result of `is_connected` on in-range indices, as the existence of a colour path. -/
theorem connected_iff_path (g : Graph T) (c : T) (s d : Int) (hwf : g.wf)
    (hs : in_range g s) (hd : in_range g d) :
    g.is_connected s d c = true ↔
      path_connected g c (cell_of g.size s) (cell_of g.size d) := by
  have hN : 0 < g.size := by have := hwf.1; omega
  rw [is_connected_iff_reach g c s d hwf hs, path_connected_iff]
  have hcs := flat_cell_of hN hs.1 hs.2
  have hcd := flat_cell_of hN hd.1 hd.2
  exact ⟨fun h => ⟨h.1, (reach_to_cells g c hN hs h.2).2⟩, fun h => by
    have := (cells_to_reach g c hN hcs.1 h.2).2
    rw [hcs.2, hcd.2] at this
    exact ⟨h.1, this⟩⟩

/-- C1: on a board of side `N >= 1`, for in-range flat indices `source` and `destination`,
`is_connected(source, destination, c)` is true exactly when there is a sequence of cells
from the cell of `source` to the cell of `destination`, every one of them (endpoints
included) holding `c`, each consecutive pair one of the six hex offsets apart. -/
theorem is_connected_iff_path (g : Graph T) (c : T) (source destination : Int) (hwf : g.wf)
    (hs : 0 ≤ source ∧ source < g.size * g.size)
    (hd : 0 ≤ destination ∧ destination < g.size * g.size) :
    g.is_connected source destination c = true ↔
      path_connected g c (cell_of g.size source) (cell_of g.size destination) := by
  have hN : 0 < g.size := by have := hwf.1; omega
  rw [is_connected_iff_reach g c source destination hwf hs, path_connected_iff]
  have hcs := flat_cell_of hN hs.1 hs.2
  have hcd := flat_cell_of hN hd.1 hd.2
  constructor
  · rintro ⟨h1, h2⟩
    exact ⟨h1, (reach_to_cells g c hN hs h2).2⟩
  · rintro ⟨h1, h2⟩
    have := (cells_to_reach g c hN hcs.1 h2).2
    rw [hcs.2, hcd.2] at this
    exact ⟨h1, this⟩

theorem is_connected_iff_path_witness :
    (Graph.init 2 node.red).is_connected 0 3 node.red = true ↔
      path_connected (Graph.init 2 node.red) node.red (cell_of 2 0) (cell_of 2 3) :=
  is_connected_iff_path (Graph.init 2 node.red) node.red 0 3 ⟨by decide, by decide⟩
    ⟨by decide, by decide⟩ ⟨by decide, by decide⟩

theorem hex_step_symm {a b : Int × Int} (h : hex_step a b) : hex_step b a := by
  unfold hex_step at h ⊢
  simp only [offset, List.mem_cons, List.mem_singleton, List.not_mem_nil, or_false,
    Prod.mk.injEq] at h ⊢
  omega

omit [DecidableEq T] in
theorem path_connected_symm (g : Graph T) (c : T) {a b : Int × Int}
    (h : path_connected g c a b) : path_connected g c b a := by
  obtain ⟨p, hhead, hlast, hall, hchain⟩ := h
  refine ⟨p.reverse, ?_, ?_, ?_, ?_⟩
  · rw [List.head?_reverse]
    exact hlast
  · rw [List.getLast?_reverse]
    exact hhead
  · intro x hx
    exact hall x (List.mem_reverse.1 hx)
  · rw [List.chain'_reverse]
    exact hchain.imp (fun _ _ h => hex_step_symm h)

/-- C5: for in-range indices `a`, `b`, `is_connected(a, b, c)` equals
`is_connected(b, a, c)`. -/
theorem is_connected_symm (g : Graph T) (c : T) (a b : Int) (hwf : g.wf)
    (ha : 0 ≤ a ∧ a < g.size * g.size) (hb : 0 ≤ b ∧ b < g.size * g.size) :
    g.is_connected a b c = g.is_connected b a c := by
  rw [Bool.eq_iff_iff, connected_iff_path g c a b hwf ha hb,
    connected_iff_path g c b a hwf hb ha]
  exact ⟨path_connected_symm g c, path_connected_symm g c⟩

theorem is_connected_symm_witness :
    (Graph.init 2 node.red).is_connected 0 3 node.red
      = (Graph.init 2 node.red).is_connected 3 0 node.red :=
  is_connected_symm (Graph.init 2 node.red) node.red 0 3 ⟨by decide, by decide⟩
    ⟨by decide, by decide⟩ ⟨by decide, by decide⟩

omit [DecidableEq T] in
theorem get_node_value_cell (g : Graph T) {s : Int} (hN : 0 < g.size) (hs : in_range g s) :
    g.get_node_value (s / g.size) (s % g.size) = vec_get g.nodes s := by
  unfold Graph.get_node_value
  rw [(flat_decompose hN hs.1 hs.2).2.2.2.2]

/-- C6: when the value stored at an in-range `s` is not `c`, `is_connected(s, d, c)` is
false for every `d`, `d = s` included; and `is_connected(s, s, c)` is true exactly when
the cell at `s` holds `c`. -/
theorem is_connected_source_color (g : Graph T) (c : T) (s : Int) (hwf : g.wf)
    (hs : 0 ≤ s ∧ s < g.size * g.size) :
    (vec_get g.nodes s ≠ some c → ∀ d, g.is_connected s d c = false)
    ∧ (g.is_connected s s c = true ↔ vec_get g.nodes s = some c) := by
  have hN : 0 < g.size := by have := hwf.1; omega
  have hv := get_node_value_cell g hN hs
  constructor
  · intro hne d
    unfold Graph.is_connected
    rw [Int.tdiv_eq_ediv hs.1 hN.le, Int.tmod_eq_emod hs.1 hN.le, hv, if_pos hne]
  · rw [is_connected_iff_reach g c s s hwf hs]
    constructor
    · intro h
      rw [← hv]
      exact h.1.2
    · intro h
      refine ⟨⟨(flat_cell_of hN hs.1 hs.2).1, ?_⟩, Relation.ReflTransGen.refl⟩
      show g.get_node_value (s / g.size) (s % g.size) = some c
      rw [hv]
      exact h

theorem is_connected_source_color_witness :
    (vec_get (Graph.init 2 node.red).nodes 1 ≠ some node.blue →
      ∀ d, (Graph.init 2 node.red).is_connected 1 d node.blue = false)
    ∧ ((Graph.init 2 node.red).is_connected 1 1 node.blue = true ↔
      vec_get (Graph.init 2 node.red).nodes 1 = some node.blue) :=
  is_connected_source_color (Graph.init 2 node.red) node.blue 1 ⟨by decide, by decide⟩
    ⟨by decide, by decide⟩

end GraphFacts

/-! ## Win checks -/

theorem mem_upto (n i : Int) : i ∈ upto n ↔ 0 ≤ i ∧ i < n := by
  unfold upto
  simp only [List.mem_map, List.mem_range]
  constructor
  · rintro ⟨k, hk, rfl⟩
    simp only [Int.ofNat_eq_coe]
    omega
  · rintro ⟨h0, h1⟩
    exact ⟨i.toNat, by omega, by simp only [Int.ofNat_eq_coe]; omega⟩

theorem check_red_iff (game : HexBoard) (hwf : game.graph.wf) :
    game.check_red = true ↔
      ∃ i j : Int, (0 ≤ i ∧ i < game.size) ∧ (0 ≤ j ∧ j < game.size) ∧
        path_connected game.graph game.players0.value (0, i) (game.size - 1, j) := by
  have hN : 0 < game.graph.size := by have := hwf.1; omega
  unfold HexBoard.check_red
  simp only [List.any_eq_true, mem_upto]
  constructor
  · rintro ⟨i, hi, j, hj, h⟩
    refine ⟨i, j, hi, hj, ?_⟩
    have hi2 : 0 ≤ i ∧ i < game.graph.size := hi
    have hj2 : 0 ≤ j ∧ j < game.graph.size := hj
    have hsrc := flat_compose (le_refl 0) hN hi2.1 hi2.2
    have hdst := flat_compose (show 0 ≤ game.graph.size - 1 by omega)
      (show game.graph.size - 1 < game.graph.size by omega) hj2.1 hj2.2
    have e1 : (0 : Int) * game.graph.size + i = i := by ring
    have e2 : (game.graph.size - 1) * game.graph.size + j
        = game.size * game.size - game.size + j := by
      show _ = game.graph.size * game.graph.size - game.graph.size + j
      ring
    rw [e1] at hsrc
    rw [e2] at hdst
    rw [connected_iff_path _ _ _ _ hwf ⟨hsrc.1, hsrc.2.1⟩ ⟨hdst.1, hdst.2.1⟩] at h
    unfold cell_of at h
    rw [hsrc.2.2.1, hsrc.2.2.2, hdst.2.2.1, hdst.2.2.2] at h
    exact h
  · rintro ⟨i, j, hi, hj, h⟩
    refine ⟨i, hi, j, hj, ?_⟩
    have hi2 : 0 ≤ i ∧ i < game.graph.size := hi
    have hj2 : 0 ≤ j ∧ j < game.graph.size := hj
    have hsrc := flat_compose (le_refl 0) hN hi2.1 hi2.2
    have hdst := flat_compose (show 0 ≤ game.graph.size - 1 by omega)
      (show game.graph.size - 1 < game.graph.size by omega) hj2.1 hj2.2
    have e1 : (0 : Int) * game.graph.size + i = i := by ring
    have e2 : (game.graph.size - 1) * game.graph.size + j
        = game.size * game.size - game.size + j := by
      show _ = game.graph.size * game.graph.size - game.graph.size + j
      ring
    rw [e1] at hsrc
    rw [e2] at hdst
    rw [connected_iff_path _ _ _ _ hwf ⟨hsrc.1, hsrc.2.1⟩ ⟨hdst.1, hdst.2.1⟩]
    unfold cell_of
    rw [hsrc.2.2.1, hsrc.2.2.2, hdst.2.2.1, hdst.2.2.2]
    exact h

theorem check_blue_iff (game : HexBoard) (hwf : game.graph.wf) :
    game.check_blue = true ↔
      ∃ i j : Int, (0 ≤ i ∧ i < game.size) ∧ (0 ≤ j ∧ j < game.size) ∧
        path_connected game.graph game.players1.value (i, 0) (j, game.size - 1) := by
  have hN : 0 < game.graph.size := by have := hwf.1; omega
  unfold HexBoard.check_blue
  simp only [List.any_eq_true, mem_upto]
  constructor
  · rintro ⟨i, hi, j, hj, h⟩
    refine ⟨i, j, hi, hj, ?_⟩
    have hi2 : 0 ≤ i ∧ i < game.graph.size := hi
    have hj2 : 0 ≤ j ∧ j < game.graph.size := hj
    have hsrc := flat_compose hi2.1 hi2.2 (le_refl 0) hN
    have hdst := flat_compose hj2.1 hj2.2 (show 0 ≤ game.graph.size - 1 by omega)
      (show game.graph.size - 1 < game.graph.size by omega)
    have e1 : i * game.graph.size + 0 = i * game.size := by
      show _ = i * game.graph.size
      ring
    have e2 : j * game.graph.size + (game.graph.size - 1) = (j + 1) * game.size - 1 := by
      show _ = (j + 1) * game.graph.size - 1
      ring
    rw [e1] at hsrc
    rw [e2] at hdst
    rw [connected_iff_path _ _ _ _ hwf ⟨hsrc.1, hsrc.2.1⟩ ⟨hdst.1, hdst.2.1⟩] at h
    unfold cell_of at h
    rw [hsrc.2.2.1, hsrc.2.2.2, hdst.2.2.1, hdst.2.2.2] at h
    exact h
  · rintro ⟨i, j, hi, hj, h⟩
    refine ⟨i, hi, j, hj, ?_⟩
    have hi2 : 0 ≤ i ∧ i < game.graph.size := hi
    have hj2 : 0 ≤ j ∧ j < game.graph.size := hj
    have hsrc := flat_compose hi2.1 hi2.2 (le_refl 0) hN
    have hdst := flat_compose hj2.1 hj2.2 (show 0 ≤ game.graph.size - 1 by omega)
      (show game.graph.size - 1 < game.graph.size by omega)
    have e1 : i * game.graph.size + 0 = i * game.size := by
      show _ = i * game.graph.size
      ring
    have e2 : j * game.graph.size + (game.graph.size - 1) = (j + 1) * game.size - 1 := by
      show _ = (j + 1) * game.graph.size - 1
      ring
    rw [e1] at hsrc
    rw [e2] at hdst
    rw [connected_iff_path _ _ _ _ hwf ⟨hsrc.1, hsrc.2.1⟩ ⟨hdst.1, hdst.2.1⟩]
    unfold cell_of
    rw [hsrc.2.2.1, hsrc.2.2.2, hdst.2.2.1, hdst.2.2.2]
    exact h

/-- C2: with `_players[0]` Red and `_players[1]` Blue on a board of side `N >= 1`,
`is_over(red)` is `check_red` and is true exactly when some cell of row 0 is joined to
some cell of row `N - 1` by a path of Red cells; `is_over(blue)` is `check_blue` and is
true exactly when some cell of column 0 is joined to some cell of column `N - 1` by a
path of Blue cells; `is_over(empty)` is false. -/
theorem is_over_iff (game : HexBoard) (hwf : game.graph.wf)
    (hred : game.players0.value = node.red) (hblue : game.players1.value = node.blue) :
    (game.is_over node.red = game.check_red ∧
      (game.check_red = true ↔
        ∃ i j : Int, (0 ≤ i ∧ i < game.size) ∧ (0 ≤ j ∧ j < game.size) ∧
          path_connected game.graph node.red (0, i) (game.size - 1, j)))
    ∧ (game.is_over node.blue = game.check_blue ∧
      (game.check_blue = true ↔
        ∃ i j : Int, (0 ≤ i ∧ i < game.size) ∧ (0 ≤ j ∧ j < game.size) ∧
          path_connected game.graph node.blue (i, 0) (j, game.size - 1)))
    ∧ game.is_over node.empty = false := by
  refine ⟨⟨by simp [HexBoard.is_over], ?_⟩, ⟨by simp [HexBoard.is_over], ?_⟩,
    by simp [HexBoard.is_over]⟩
  · rw [check_red_iff game hwf, hred]
  · rw [check_blue_iff game hwf, hblue]

theorem is_over_iff_witness :
    ((board2 node.blue node.red node.blue node.red).is_over node.red
        = (board2 node.blue node.red node.blue node.red).check_red ∧
      ((board2 node.blue node.red node.blue node.red).check_red = true ↔
        ∃ i j : Int, (0 ≤ i ∧ i < (board2 node.blue node.red node.blue node.red).size)
          ∧ (0 ≤ j ∧ j < (board2 node.blue node.red node.blue node.red).size)
          ∧ path_connected (board2 node.blue node.red node.blue node.red).graph node.red (0, i)
              ((board2 node.blue node.red node.blue node.red).size - 1, j)))
    ∧ ((board2 node.blue node.red node.blue node.red).is_over node.blue
        = (board2 node.blue node.red node.blue node.red).check_blue ∧
      ((board2 node.blue node.red node.blue node.red).check_blue = true ↔
        ∃ i j : Int, (0 ≤ i ∧ i < (board2 node.blue node.red node.blue node.red).size)
          ∧ (0 ≤ j ∧ j < (board2 node.blue node.red node.blue node.red).size)
          ∧ path_connected (board2 node.blue node.red node.blue node.red).graph node.blue (i, 0)
              (j, (board2 node.blue node.red node.blue node.red).size - 1)))
    ∧ (board2 node.blue node.red node.blue node.red).is_over node.empty = false :=
  is_over_iff (board2 node.blue node.red node.blue node.red)
    ⟨by decide, by decide⟩ rfl rfl

/-! ## Move validation -/

theorem is_valid_move_on_board (game : HexBoard) (hwf : game.graph.wf) {x y : Int}
    (hb : on_board game.size (x, y)) :
    game.is_valid_move x y = some (decide (game.graph.get_node_value x y = some node.empty)) := by
  have hx0 : 0 ≤ x := hb.1
  have hx : x < game.size := hb.2.1
  have hy0 : 0 ≤ y := hb.2.2.1
  have hy : y < game.size := hb.2.2.2
  obtain ⟨v, hv, _⟩ := get_node_value_some hwf (show on_board game.graph.size (x, y) from hb)
  unfold HexBoard.is_valid_move
  rw [if_neg (by omega), hv]
  cases v <;> simp

/-- C4 (the code at the failing input): on the empty board of side 3 the pair `(0, 3)`,
whose column is outside `[0, 3)`, passes the range test `y > size()` and reads the cell
`(1, 0)`, so `is_valid_move(0, 3)` returns true. -/
theorem is_valid_move_accepts_column_past_end :
    (HexBoard.init 3 ⟨"red", node.red⟩ ⟨"blue", node.blue⟩).is_valid_move 0 3 = some true
    ∧ ¬ ((0 : Int) ≤ 3 ∧ (3 : Int) < (HexBoard.init 3 ⟨"red", node.red⟩ ⟨"blue", node.blue⟩).size) := by
  decide

/-! ## The random selector -/

theorem sample_valid_sound (game : HexBoard) (hwf : game.graph.wf) :
    ∀ (n : Nat) (draws : List Int), draws.length ≤ n →
      (∀ d ∈ draws, 0 ≤ d ∧ d ≤ game.size - 1) →
      ∀ (xy : Int × Int) (rest : List Int), sample_valid game draws = some (xy, rest) →
        on_board game.size xy ∧ game.graph.get_node_value xy.1 xy.2 = some node.empty := by
  intro n
  induction n with
  | zero =>
    intro draws hn _ xy rest h
    cases draws with
    | nil => simp [sample_valid] at h
    | cons a t => simp at hn
  | succ n ih =>
    intro draws hn hd xy rest h
    rcases draws with _ | ⟨a, _ | ⟨b, t⟩⟩
    · simp [sample_valid] at h
    · simp [sample_valid] at h
    · have ha := hd a (by simp)
      have hb := hd b (by simp)
      have hab : on_board game.size (a, b) := ⟨ha.1, by have := ha.2; omega, hb.1, by
        have := hb.2; omega⟩
      rw [sample_valid, is_valid_move_on_board game hwf hab] at h
      by_cases hv : game.graph.get_node_value a b = some node.empty
      · simp only [hv, decide_True] at h
        cases h
        exact ⟨hab, hv⟩
      · simp only [hv, decide_False] at h
        exact ih t (by simp at hn; omega) (fun d hdm => hd d (by simp [hdm])) xy rest h

/-- C10: on a board of side `N >= 1`, with every draw in `[0, N - 1]`, whenever
`RandomComputerPlayer::make_move` returns, the returned `(x, y)` is on the board and the
cell `(x, y)` is Empty on the given board, which is returned as it was. -/
theorem random_make_move_valid (game : HexBoard) (hwf : game.graph.wf) (x0 y0 : Int)
    (draws : List Int) (hdraws : ∀ d ∈ draws, 0 ≤ d ∧ d ≤ game.size - 1)
    (game1 : HexBoard) (x y : Int) (rest : List Int)
    (h : RandomComputerPlayer.make_move game x0 y0 draws = some (game1, (x, y), rest)) :
    (0 ≤ x ∧ x < game.size) ∧ (0 ≤ y ∧ y < game.size)
      ∧ game.graph.get_node_value x y = some node.empty ∧ game1 = game := by
  unfold RandomComputerPlayer.make_move at h
  cases hs : sample_valid game draws with
  | none => rw [hs] at h; cases h
  | some r =>
    obtain ⟨xy, rest1⟩ := r
    rw [hs] at h
    cases h
    have := sample_valid_sound game hwf draws.length draws (le_refl _) hdraws (x, y) rest hs
    exact ⟨⟨this.1.1, this.1.2.1⟩, ⟨this.1.2.2.1, this.1.2.2.2⟩, this.2, rfl⟩

theorem random_make_move_valid_witness :
    ((0 : Int) ≤ 1 ∧ (1 : Int) < (HexBoard.init 2 ⟨"red", node.red⟩ ⟨"blue", node.blue⟩).size)
      ∧ ((0 : Int) ≤ 0 ∧ (0 : Int) < (HexBoard.init 2 ⟨"red", node.red⟩ ⟨"blue", node.blue⟩).size)
      ∧ (HexBoard.init 2 ⟨"red", node.red⟩ ⟨"blue", node.blue⟩).graph.get_node_value 1 0
          = some node.empty
      ∧ HexBoard.init 2 ⟨"red", node.red⟩ ⟨"blue", node.blue⟩
          = HexBoard.init 2 ⟨"red", node.red⟩ ⟨"blue", node.blue⟩ :=
  random_make_move_valid (HexBoard.init 2 ⟨"red", node.red⟩ ⟨"blue", node.blue⟩)
    ⟨by decide, by decide⟩ 7 7 [1, 0, 1, 1] (by decide)
    (HexBoard.init 2 ⟨"red", node.red⟩ ⟨"blue", node.blue⟩) 1 0 [1, 1] rfl

/-! ## The Monte Carlo selector: the selection scan -/

/-- After the first `n` indices of the scan: either nothing positive was seen and the
state is the initial one, or the state records the first index that attains the largest
probability seen so far. -/
theorem scan_prefix (size : Int) (probs : List ℚ) (x y : Int) (n : Nat) :
    ((∀ j < n, probs.getD j 0 ≤ 0) ∧
        (List.range n).foldl (MonteCarloComputerPlayer.scan_step size probs) (0, x, y)
          = (0, x, y))
    ∨ (∃ i < n,
        (List.range n).foldl (MonteCarloComputerPlayer.scan_step size probs) (0, x, y)
          = (probs.getD i 0, (i : Int) / size, (i : Int) % size)
        ∧ 0 < probs.getD i 0
        ∧ (∀ j < n, probs.getD j 0 ≤ probs.getD i 0)
        ∧ (∀ j < i, probs.getD j 0 < probs.getD i 0)) := by
  induction n with
  | zero =>
    left
    exact ⟨fun j hj => absurd hj (Nat.not_lt_zero j), rfl⟩
  | succ n ih =>
    rw [List.range_succ, List.foldl_append, List.foldl_cons, List.foldl_nil]
    rcases ih with ⟨hall, hst⟩ | ⟨i, hi, hst, hpos, hmax, hfirst⟩
    · rw [hst]
      by_cases hp : probs.getD n 0 > 0
      · right
        refine ⟨n, Nat.lt_succ_self n, ?_, hp, ?_, ?_⟩
        · simp only [MonteCarloComputerPlayer.scan_step]
          rw [if_pos hp]
        · intro j hj
          rcases Nat.lt_succ_iff_lt_or_eq.1 hj with h | h
          · exact le_trans (hall j h) hp.le
          · rw [h]
        · intro j hj
          exact lt_of_le_of_lt (hall j hj) hp
      · left
        refine ⟨?_, ?_⟩
        · intro j hj
          rcases Nat.lt_succ_iff_lt_or_eq.1 hj with h | h
          · exact hall j h
          · rw [h]
            exact not_lt.1 hp
        · simp only [MonteCarloComputerPlayer.scan_step]
          rw [if_neg hp]
    · rw [hst]
      right
      by_cases hp : probs.getD n 0 > probs.getD i 0
      · refine ⟨n, Nat.lt_succ_self n, ?_, lt_trans hpos hp, ?_, ?_⟩
        · simp only [MonteCarloComputerPlayer.scan_step]
          rw [if_pos hp]
        · intro j hj
          rcases Nat.lt_succ_iff_lt_or_eq.1 hj with h | h
          · exact le_trans (hmax j h) hp.le
          · rw [h]
        · intro j hj
          exact lt_of_le_of_lt (hmax j hj) hp
      · refine ⟨i, Nat.lt_succ_of_lt hi, ?_, hpos, ?_, hfirst⟩
        · simp only [MonteCarloComputerPlayer.scan_step]
          rw [if_neg hp]
        · intro j hj
          rcases Nat.lt_succ_iff_lt_or_eq.1 hj with h | h
          · exact hmax j h
          · rw [h]
            exact not_lt.1 hp

theorem probs_ok_put (game : HexBoard) {probs : List ℚ}
    (hok : probs_ok game probs) {i j : Int} (hb : on_board game.size (i, j))
    (he : game.graph.get_node_value i j = some node.empty) (p : ℚ) :
    probs_ok game (vec_put probs (i * game.size + j) p) := by
  have hf := flat_compose (show 0 ≤ i from hb.1) (show i < game.size from hb.2.1)
    (show 0 ≤ j from hb.2.2.1) (show j < game.size from hb.2.2.2)
  unfold vec_put
  rw [if_pos hf.1]
  refine ⟨by rw [List.length_set]; exact hok.1, ?_⟩
  intro k hk
  rw [List.getD_eq_getElem?_getD, List.getElem?_set] at hk
  by_cases hki : (i * game.size + j).toNat = k
  · have : ((k : Nat) : Int) = i * game.size + j := by omega
    rw [this]
    exact he
  · rw [if_neg hki] at hk
    apply hok.2 k
    rw [List.getD_eq_getElem?_getD]
    exact hk

theorem fill_row_ok (value : node) (game : HexBoard) (hwf : game.graph.wf) (i : Int)
    (hi : 0 ≤ i ∧ i < game.size) :
    ∀ (js : List Int) (probs : List ℚ) (draws : List Int),
      (∀ j ∈ js, 0 ≤ j ∧ j < game.size) → probs_ok game probs →
      ∀ (probs1 : List ℚ) (rest : List Int),
        MonteCarloComputerPlayer.fill_row value game i js probs draws = some (probs1, rest) →
        probs_ok game probs1 := by
  intro js
  induction js with
  | nil =>
    intro probs draws _ hok probs1 rest h
    simp only [MonteCarloComputerPlayer.fill_row, Option.some.injEq, Prod.mk.injEq] at h
    rw [← h.1]
    exact hok
  | cons j js ih =>
    intro probs draws hjs hok probs1 rest h
    have hj := hjs j (List.mem_cons_self _ _)
    have hb : on_board game.size (i, j) := ⟨hi.1, hi.2, hj.1, hj.2⟩
    have hjs2 : ∀ j2 ∈ js, 0 ≤ j2 ∧ j2 < game.size :=
      fun j2 h2 => hjs j2 (List.mem_cons_of_mem _ h2)
    rw [MonteCarloComputerPlayer.fill_row, is_valid_move_on_board game hwf hb] at h
    by_cases he : game.graph.get_node_value i j = some node.empty
    · simp only [he, decide_True] at h
      cases hmc : MonteCarloComputerPlayer.do_monte_carlo value game i j draws with
      | none =>
        rw [hmc] at h
        cases h
      | some r =>
        obtain ⟨p, rest1⟩ := r
        rw [hmc] at h
        exact ih _ _ hjs2 (probs_ok_put game hok hb he p) probs1 rest h
    · simp only [he, decide_False] at h
      exact ih _ _ hjs2 hok probs1 rest h

theorem fill_rows_ok (value : node) (game : HexBoard) (hwf : game.graph.wf) :
    ∀ (rows : List Int) (probs : List ℚ) (draws : List Int),
      (∀ i ∈ rows, 0 ≤ i ∧ i < game.size) → probs_ok game probs →
      ∀ (probs1 : List ℚ) (rest : List Int),
        MonteCarloComputerPlayer.fill_rows value game rows probs draws = some (probs1, rest) →
        probs_ok game probs1 := by
  intro rows
  induction rows with
  | nil =>
    intro probs draws _ hok probs1 rest h
    simp only [MonteCarloComputerPlayer.fill_rows, Option.some.injEq, Prod.mk.injEq] at h
    rw [← h.1]
    exact hok
  | cons i rows ih =>
    intro probs draws hrows hok probs1 rest h
    rw [MonteCarloComputerPlayer.fill_rows] at h
    cases hrow : MonteCarloComputerPlayer.fill_row value game i (upto game.size) probs draws with
    | none =>
      rw [hrow] at h
      cases h
    | some r =>
      obtain ⟨probs2, rest2⟩ := r
      rw [hrow] at h
      have hok2 := fill_row_ok value game hwf i (hrows i (List.mem_cons_self _ _))
        (upto game.size) probs draws (fun j hj => (mem_upto _ _).1 hj) hok probs2 rest2 hrow
      exact ih probs2 rest2 (fun i2 h2 => hrows i2 (List.mem_cons_of_mem _ h2)) hok2
        probs1 rest h

theorem probabilities_ok (value : node) (game : HexBoard) (hwf : game.graph.wf)
    (draws : List Int) (probs : List ℚ) (rest : List Int)
    (h : MonteCarloComputerPlayer.probabilities value game draws = some (probs, rest)) :
    probs_ok game probs := by
  unfold MonteCarloComputerPlayer.probabilities at h
  refine fill_rows_ok value game hwf (upto game.size) _ draws
    (fun i hi => (mem_upto _ _).1 hi) ⟨by simp, ?_⟩ probs rest h
  intro k hk
  exfalso
  apply hk
  rw [List.getD_eq_getElem?_getD, List.getElem?_replicate]
  split <;> rfl

/-- C9: let `probabilities` be the vector that the first double loop of `make_move`
computes.  It has one entry per cell and the entry of every cell that is not Empty is 0.
If some entry is positive, the returned `(x, y)` is the cell of the first flat index (in
row-major order) whose entry equals the maximum, and that cell is Empty; if every entry is
0, `x` and `y` are returned as they were passed in. -/
theorem mc_make_move_selection (value : node) (game : HexBoard) (hwf : game.graph.wf)
    (x y : Int) (draws : List Int) (probs : List ℚ) (rest : List Int)
    (hp : MonteCarloComputerPlayer.probabilities value game draws = some (probs, rest)) :
    (probs.length = (game.size * game.size).toNat ∧
      ∀ k : Nat, vec_get game.graph.nodes (k : Int) ≠ some node.empty → probs.getD k 0 = 0)
    ∧ ∃ x1 y1 : Int,
      MonteCarloComputerPlayer.make_move value game x y draws = some ((x1, y1), rest)
      ∧ ((∃ p ∈ probs, 0 < p) →
          ∃ i : Nat, i < probs.length
            ∧ (∀ j < probs.length, probs.getD j 0 ≤ probs.getD i 0)
            ∧ (∀ j < i, probs.getD j 0 < probs.getD i 0)
            ∧ x1 = (i : Int) / game.size ∧ y1 = (i : Int) % game.size
            ∧ game.graph.get_node_value x1 y1 = some node.empty)
      ∧ ((∀ p ∈ probs, p = 0) → x1 = x ∧ y1 = y) := by
  have hok := probabilities_ok value game hwf draws probs rest hp
  have hN : 0 < game.graph.size := by have := hwf.1; omega
  refine ⟨⟨hok.1, fun k hk => by_contra fun h => hk (hok.2 k h)⟩, ?_⟩
  refine ⟨(MonteCarloComputerPlayer.scan game.size probs x y).2.1,
    (MonteCarloComputerPlayer.scan game.size probs x y).2.2, ?_, ?_, ?_⟩
  · unfold MonteCarloComputerPlayer.make_move
    rw [hp]
  · rintro ⟨p, hpm, hpos⟩
    obtain ⟨m, hm, hmp⟩ := List.getElem_of_mem hpm
    unfold MonteCarloComputerPlayer.scan
    rcases scan_prefix game.size probs x y probs.length with ⟨hall, _⟩ | ⟨i, hi, hst, hipos, hmax, hfirst⟩
    · exfalso
      have := hall m hm
      rw [List.getD_eq_getElem?_getD, List.getElem?_eq_getElem hm, Option.getD_some, hmp] at this
      exact absurd hpos (not_lt.2 this)
    · rw [hst]
      refine ⟨i, hi, hmax, hfirst, rfl, rfl, ?_⟩
      have hcell := hok.2 i hipos.ne'
      have hr : in_range game.graph (i : Int) := by
        refine ⟨by omega, ?_⟩
        have := hok.1
        have h2 : (0 : Int) ≤ game.size * game.size := by
          show (0 : Int) ≤ game.graph.size * game.graph.size
          positivity
        show (i : Int) < game.size * game.size
        omega
      show game.graph.get_node_value ((i : Int) / game.graph.size) ((i : Int) % game.graph.size) = _
      rw [get_node_value_cell game.graph hN hr]
      exact hcell
  · intro hzero
    unfold MonteCarloComputerPlayer.scan
    rcases scan_prefix game.size probs x y probs.length with ⟨_, hst⟩ | ⟨i, hi, _, hipos, _, _⟩
    · rw [hst]
      exact ⟨rfl, rfl⟩
    · exfalso
      rw [List.getD_eq_getElem?_getD, List.getElem?_eq_getElem hi, Option.getD_some] at hipos
      rw [hzero _ (List.getElem_mem hi)] at hipos
      exact lt_irrefl _ hipos

/-! ## The Monte Carlo selector on a board with one Empty cell -/

theorem fill_board_full (game : HexBoard) (draws : List Int) (h : game.has_any = false) :
    MonteCarloComputerPlayer.fill_board game draws = some (game, draws) := by
  rw [MonteCarloComputerPlayer.fill_board]
  simp [h]

theorem trials_full (value : node) (game : HexBoard) (x y : Int) (draws : List Int)
    (h : (game.set_node_value x y value).has_any = false) :
    ∀ (k wins : Nat),
      MonteCarloComputerPlayer.trials value game x y k wins draws
        = some (wins + (if (game.set_node_value x y value).is_over value then k else 0), draws) := by
  intro k
  induction k with
  | zero =>
    intro wins
    simp [MonteCarloComputerPlayer.trials]
  | succ k ih =>
    intro wins
    rw [MonteCarloComputerPlayer.trials, fill_board_full _ _ h]
    simp only
    rw [ih]
    by_cases ho : (game.set_node_value x y value).is_over value = true
    · simp only [ho, if_true]
      congr 2
      omega
    · simp only [ho]
      rfl

theorem do_monte_carlo_full (value : node) (game : HexBoard) (x y : Int) (draws : List Int)
    (h : (game.set_node_value x y value).has_any = false) :
    MonteCarloComputerPlayer.do_monte_carlo value game x y draws
      = some (if (game.set_node_value x y value).is_over value then 1 else 0, draws) := by
  unfold MonteCarloComputerPlayer.do_monte_carlo
  rw [trials_full value game x y draws h]
  by_cases ho : (game.set_node_value x y value).is_over value = true
  · simp [ho, TRIALS]
  · simp [ho]

theorem board2_wf (c0 c1 c2 c3 : node) : (board2 c0 c1 c2 c3).graph.wf := by
  constructor
  · show (1 : Int) ≤ 2
    decide
  · show 4 = ((2 : Int) * 2).toNat
    decide

/-- Red has no cell in row 0 of this full board, so `check_red` is false. -/
theorem check_red_blocked :
    (board2 node.blue node.blue node.red node.red).check_red = false := by
  rw [← Bool.not_eq_true, check_red_iff _ (board2_wf _ _ _ _)]
  rintro ⟨i, j, hi, _, hpath⟩
  have hh := ((path_connected_iff _ _ _ _).1 hpath).1.2
  have hi2 : 0 ≤ i ∧ i < 2 := hi
  have : i = 0 ∨ i = 1 := by omega
  rcases this with rfl | rfl
  · revert hh
    decide
  · revert hh
    decide

/-- Red holds `(0, 1)` and `(1, 1)` of this full board, so `check_red` is true. -/
theorem check_red_joined :
    (board2 node.blue node.red node.blue node.red).check_red = true := by
  rw [check_red_iff _ (board2_wf _ _ _ _)]
  refine ⟨1, 1, by decide, by decide, [(0, 1), (1, 1)], rfl, rfl, ?_, ?_⟩
  · intro a ha
    simp only [List.mem_cons, List.mem_singleton, List.not_mem_nil, or_false] at ha
    rcases ha with rfl | rfl
    · exact ⟨by unfold on_board; decide, by decide⟩
    · exact ⟨by unfold on_board; decide, by decide⟩
  · rw [List.chain'_cons]
    refine ⟨?_, List.chain'_singleton _⟩
    unfold hex_step
    decide

theorem probabilities_blocked (draws : List Int) :
    MonteCarloComputerPlayer.probabilities node.red
        (board2 node.blue node.blue node.red node.empty) draws
      = some ([0, 0, 0, 0], draws) := by
  have hmc := do_monte_carlo_full node.red (board2 node.blue node.blue node.red node.empty)
    1 1 draws (by decide)
  have hover : ((board2 node.blue node.blue node.red node.empty).set_node_value 1 1
      node.red).is_over node.red = false := by
    show (board2 node.blue node.blue node.red node.red).is_over node.red = false
    simp only [HexBoard.is_over, if_true]
    exact check_red_blocked
  rw [hover] at hmc
  have hu : upto (board2 node.blue node.blue node.red node.empty).size = [0, 1] := by decide
  have v00 : (board2 node.blue node.blue node.red node.empty).is_valid_move 0 0 = some false := by
    decide
  have v01 : (board2 node.blue node.blue node.red node.empty).is_valid_move 0 1 = some false := by
    decide
  have v10 : (board2 node.blue node.blue node.red node.empty).is_valid_move 1 0 = some false := by
    decide
  have v11 : (board2 node.blue node.blue node.red node.empty).is_valid_move 1 1 = some true := by
    decide
  unfold MonteCarloComputerPlayer.probabilities
  rw [hu]
  simp only [MonteCarloComputerPlayer.fill_rows, MonteCarloComputerPlayer.fill_row, hu, v00, v01,
    v10, v11, hmc, Int.ofNat_eq_coe, Nat.cast_zero, Nat.cast_one]
  rfl

/-- C8 (counterexample): on the board of side 2 with rows `O O` / `X .`, whose only Empty
cell is `(1, 1)` and on which Blue already holds row 0, the Monte Carlo selector playing Red
computes the probability 0 for that cell (Red cannot win) and, whatever the draws, returns
the `x`, `y` it was called with; called with `x = 0`, `y = 0` it returns `(0, 0)`, not
`(1, 1)`. -/
theorem mc_make_move_single_empty_zero :
    (∀ (x y : Int) (draws : List Int),
      MonteCarloComputerPlayer.make_move node.red
          (board2 node.blue node.blue node.red node.empty) x y draws
        = some ((x, y), draws))
    ∧ MonteCarloComputerPlayer.make_move node.red
          (board2 node.blue node.blue node.red node.empty) 0 0 []
        = some ((0, 0), [])
    ∧ (board2 node.blue node.blue node.red node.empty).graph.nodes.count node.empty = 1
    ∧ (board2 node.blue node.blue node.red node.empty).graph.get_node_value 1 1
        = some node.empty := by
  have hall : ∀ (x y : Int) (draws : List Int),
      MonteCarloComputerPlayer.make_move node.red
          (board2 node.blue node.blue node.red node.empty) x y draws
        = some ((x, y), draws) := by
    intro x y draws
    unfold MonteCarloComputerPlayer.make_move
    rw [probabilities_blocked]
    simp [MonteCarloComputerPlayer.scan, MonteCarloComputerPlayer.scan_step, List.range_succ]
  exact ⟨hall, hall 0 0 [], by decide, by decide⟩

theorem probabilities_joined :
    MonteCarloComputerPlayer.probabilities node.red
        (board2 node.blue node.red node.blue node.empty) []
      = some ([0, 0, 0, 1], []) := by
  have hmc := do_monte_carlo_full node.red (board2 node.blue node.red node.blue node.empty)
    1 1 [] (by decide)
  have hover : ((board2 node.blue node.red node.blue node.empty).set_node_value 1 1
      node.red).is_over node.red = true := by
    show (board2 node.blue node.red node.blue node.red).is_over node.red = true
    simp only [HexBoard.is_over, if_true]
    exact check_red_joined
  rw [hover] at hmc
  have hu : upto (board2 node.blue node.red node.blue node.empty).size = [0, 1] := by decide
  have v00 : (board2 node.blue node.red node.blue node.empty).is_valid_move 0 0 = some false := by
    decide
  have v01 : (board2 node.blue node.red node.blue node.empty).is_valid_move 0 1 = some false := by
    decide
  have v10 : (board2 node.blue node.red node.blue node.empty).is_valid_move 1 0 = some false := by
    decide
  have v11 : (board2 node.blue node.red node.blue node.empty).is_valid_move 1 1 = some true := by
    decide
  unfold MonteCarloComputerPlayer.probabilities
  rw [hu]
  simp only [MonteCarloComputerPlayer.fill_rows, MonteCarloComputerPlayer.fill_row, hu, v00, v01,
    v10, v11, hmc, Int.ofNat_eq_coe, Nat.cast_zero, Nat.cast_one]
  rfl

theorem mc_make_move_selection_witness :
    ∃ x1 y1 : Int,
      MonteCarloComputerPlayer.make_move node.red
          (board2 node.blue node.red node.blue node.empty) 5 5 [] = some ((x1, y1), [])
      ∧ ((∃ p ∈ [(0 : ℚ), 0, 0, 1], 0 < p) →
          ∃ i : Nat, i < [(0 : ℚ), 0, 0, 1].length
            ∧ (∀ j < [(0 : ℚ), 0, 0, 1].length,
                [(0 : ℚ), 0, 0, 1].getD j 0 ≤ [(0 : ℚ), 0, 0, 1].getD i 0)
            ∧ (∀ j < i, [(0 : ℚ), 0, 0, 1].getD j 0 < [(0 : ℚ), 0, 0, 1].getD i 0)
            ∧ x1 = (i : Int) / (board2 node.blue node.red node.blue node.empty).size
            ∧ y1 = (i : Int) % (board2 node.blue node.red node.blue node.empty).size
            ∧ (board2 node.blue node.red node.blue node.empty).graph.get_node_value x1 y1
                = some node.empty)
      ∧ ((∀ p ∈ [(0 : ℚ), 0, 0, 1], p = 0) → x1 = 5 ∧ y1 = 5) :=
  (mc_make_move_selection node.red (board2 node.blue node.red node.blue node.empty)
    (board2_wf _ _ _ _) 5 5 [] [0, 0, 0, 1] [] probabilities_joined).2

/-! ## No draw on a full board

The two halves of the Hex theorem for the adjacency of `neighbors`.  That some player has
a winning chain is a parity count over the triangles of the board (Sperner's lemma); that
not both have one is a crossing-parity count for two walks. -/

/-! ### Parity count over the triangles -/

theorem tri_even : ∀ a b c : Fin 3, ¬ rainbow a b c → e01 a b + e01 a c + e01 b c = 0 := by
  decide

theorem e01_of_no_12 : ∀ a b : Fin 3, ¬ ((a = 1 ∧ b = 2) ∨ (a = 2 ∧ b = 1)) →
    e01 a b = is_lab 1 a + is_lab 1 b := by
  decide

theorem e01_of_no_02 : ∀ a b : Fin 3, ¬ ((a = 0 ∧ b = 2) ∨ (a = 2 ∧ b = 0)) →
    e01 a b = is_lab 0 a + is_lab 0 b := by
  decide

theorem e01_of_ne_0 : ∀ a b : Fin 3, a ≠ 0 → b ≠ 0 → e01 a b = 0 := by decide

theorem e01_of_ne_1 : ∀ a b : Fin 3, a ≠ 1 → b ≠ 1 → e01 a b = 0 := by decide

theorem corner_odd : ∀ a : Fin 3, a ≠ 2 → is_lab 1 a + is_lab 0 a = 1 := by decide

theorem sum_telescope2 (f : ℕ → ZMod 2) (m : ℕ) :
    ∑ i in Finset.range m, (f i + f (i + 1)) = f 0 + f m := by
  induction m with
  | zero => simp [CharTwo.add_self_eq_zero]
  | succ m ih =>
    rw [Finset.sum_range_succ, ih]
    have := CharTwo.add_self_eq_zero (f m)
    linear_combination this

theorem sperner_grid (m : ℕ) (lab : ℕ → ℕ → Fin 3)
    (hup : ∀ r q, r < m → q < m → ¬ rainbow (lab r q) (lab r (q + 1)) (lab (r + 1) q))
    (hdown : ∀ r q, r < m → q < m →
      ¬ rainbow (lab r (q + 1)) (lab (r + 1) q) (lab (r + 1) (q + 1)))
    (htop : ∀ q, q < m → ¬ ((lab 0 q = 1 ∧ lab 0 (q + 1) = 2) ∨ (lab 0 q = 2 ∧ lab 0 (q + 1) = 1)))
    (hleft : ∀ r, r < m → ¬ ((lab r 0 = 0 ∧ lab (r + 1) 0 = 2) ∨ (lab r 0 = 2 ∧ lab (r + 1) 0 = 0)))
    (hbottom : ∀ q, q ≤ m → lab m q ≠ 0)
    (hright : ∀ r, r ≤ m → lab r m ≠ 1)
    (hcorner : lab 0 0 ≠ 2) : False := by
  -- the sum over all triangles of their 0-1 edges vanishes
  have key : ∑ r in Finset.range m, ∑ q in Finset.range m,
      ((e01 (lab r q) (lab r (q + 1)) + e01 (lab r q) (lab (r + 1) q)
          + e01 (lab r (q + 1)) (lab (r + 1) q))
        + (e01 (lab r (q + 1)) (lab (r + 1) q) + e01 (lab r (q + 1)) (lab (r + 1) (q + 1))
          + e01 (lab (r + 1) q) (lab (r + 1) (q + 1)))) = 0 := by
    apply Finset.sum_eq_zero
    intro r hr
    apply Finset.sum_eq_zero
    intro q hq
    rw [Finset.mem_range] at hr hq
    rw [tri_even _ _ _ (hup r q hr hq), tri_even _ _ _ (hdown r q hr hq), add_zero]
  -- the same sum, edge by edge: interior edges are counted twice
  have rearr : ∑ r in Finset.range m, ∑ q in Finset.range m,
      ((e01 (lab r q) (lab r (q + 1)) + e01 (lab r q) (lab (r + 1) q)
          + e01 (lab r (q + 1)) (lab (r + 1) q))
        + (e01 (lab r (q + 1)) (lab (r + 1) q) + e01 (lab r (q + 1)) (lab (r + 1) (q + 1))
          + e01 (lab (r + 1) q) (lab (r + 1) (q + 1))))
      = (∑ q in Finset.range m, ∑ r in Finset.range m,
          (e01 (lab r q) (lab r (q + 1)) + e01 (lab (r + 1) q) (lab (r + 1) (q + 1))))
        + ∑ r in Finset.range m, ∑ q in Finset.range m,
          (e01 (lab r q) (lab (r + 1) q) + e01 (lab r (q + 1)) (lab (r + 1) (q + 1))) := by
    have hswap : (∑ q in Finset.range m, ∑ r in Finset.range m,
          (e01 (lab r q) (lab r (q + 1)) + e01 (lab (r + 1) q) (lab (r + 1) (q + 1))))
        = ∑ r in Finset.range m, ∑ q in Finset.range m,
          (e01 (lab r q) (lab r (q + 1)) + e01 (lab (r + 1) q) (lab (r + 1) (q + 1))) :=
      Finset.sum_comm
    rw [hswap, ← Finset.sum_add_distrib]
    apply Finset.sum_congr rfl
    intro r _
    rw [← Finset.sum_add_distrib]
    apply Finset.sum_congr rfl
    intro q _
    have := CharTwo.add_self_eq_zero (e01 (lab r (q + 1)) (lab (r + 1) q))
    linear_combination this
  have hrows : ∀ q, q < m → ∑ r in Finset.range m,
      (e01 (lab r q) (lab r (q + 1)) + e01 (lab (r + 1) q) (lab (r + 1) (q + 1)))
      = e01 (lab 0 q) (lab 0 (q + 1)) := by
    intro q hq
    rw [sum_telescope2 (fun r => e01 (lab r q) (lab r (q + 1))) m]
    rw [e01_of_ne_0 _ _ (hbottom q hq.le) (hbottom (q + 1) hq), add_zero]
  have hcols : ∀ r, r < m → ∑ q in Finset.range m,
      (e01 (lab r q) (lab (r + 1) q) + e01 (lab r (q + 1)) (lab (r + 1) (q + 1)))
      = e01 (lab r 0) (lab (r + 1) 0) := by
    intro r hr
    rw [sum_telescope2 (fun q => e01 (lab r q) (lab (r + 1) q)) m]
    rw [e01_of_ne_1 _ _ (hright r hr.le) (hright (r + 1) hr), add_zero]
  have htoprow : ∑ q in Finset.range m, e01 (lab 0 q) (lab 0 (q + 1))
      = is_lab 1 (lab 0 0) := by
    rw [Finset.sum_congr rfl (fun q hq => e01_of_no_12 _ _ (htop q (Finset.mem_range.1 hq))),
      sum_telescope2 (fun q => is_lab 1 (lab 0 q)) m]
    have : is_lab 1 (lab 0 m) = 0 := by simp [is_lab, hright 0 (Nat.zero_le m)]
    rw [this, add_zero]
  have hleftcol : ∑ r in Finset.range m, e01 (lab r 0) (lab (r + 1) 0)
      = is_lab 0 (lab 0 0) := by
    rw [Finset.sum_congr rfl (fun r hr => e01_of_no_02 _ _ (hleft r (Finset.mem_range.1 hr))),
      sum_telescope2 (fun r => is_lab 0 (lab r 0)) m]
    have : is_lab 0 (lab m 0) = 0 := by simp [is_lab, hbottom 0 (Nat.zero_le m)]
    rw [this, add_zero]
  rw [rearr, Finset.sum_congr rfl (fun q hq => hrows q (Finset.mem_range.1 hq)),
    Finset.sum_congr rfl (fun r hr => hcols r (Finset.mem_range.1 hr)), htoprow, hleftcol,
    corner_odd _ hcorner] at key
  exact one_ne_zero key

/-! ### Crossing parity of two walks -/

theorem hex_step_cases {a b : Int × Int} (h : hex_step a b) :
    (b.1 = a.1 ∧ b.2 = a.2 - 1) ∨ (b.1 = a.1 ∧ b.2 = a.2 + 1) ∨ (b.1 = a.1 + 1 ∧ b.2 = a.2 - 1)
    ∨ (b.1 = a.1 + 1 ∧ b.2 = a.2) ∨ (b.1 = a.1 - 1 ∧ b.2 = a.2) ∨ (b.1 = a.1 - 1 ∧ b.2 = a.2 + 1) := by
  unfold hex_step at h
  simp only [offset, List.mem_cons, List.mem_singleton, List.not_mem_nil, or_false,
    Prod.mk.injEq] at h
  omega

theorem wsum_congr (R : Int × Int → Int × Int → Prop) (F G : Int × Int → Int × Int → ZMod 2)
    (h : ∀ a b, R a b → F a b = G a b) :
    ∀ w : List (Int × Int), List.Chain' R w → wsum F w = wsum G w := by
  intro w
  induction w with
  | nil => intro _; rfl
  | cons a w ih =>
    intro hc
    cases w with
    | nil => rfl
    | cons b rest =>
      rw [List.chain'_cons] at hc
      simp only [wsum]
      rw [h a b hc.1, ih hc.2]

theorem wsum_add (F G : Int × Int → Int × Int → ZMod 2) :
    ∀ w : List (Int × Int), wsum (fun a b => F a b + G a b) w = wsum F w + wsum G w := by
  intro w
  induction w with
  | nil => simp [wsum]
  | cons a w ih =>
    cases w with
    | nil => simp [wsum]
    | cons b rest =>
      simp only [wsum]
      rw [ih]
      ring

theorem wsum_cut (S : Int × Int → ZMod 2) :
    ∀ (w : List (Int × Int)) (a : Int × Int),
      wsum (fun x y => S x + S y) (a :: w) = S a + S ((a :: w).getLast (List.cons_ne_nil a w)) := by
  intro w
  induction w with
  | nil =>
    intro a
    simp [wsum, CharTwo.add_self_eq_zero]
  | cons b rest ih =>
    intro a
    simp only [wsum]
    rw [ih b, List.getLast_cons_cons]
    have := CharTwo.add_self_eq_zero (S b)
    linear_combination this

theorem hcross_down {v a b : Int × Int} (h : hex_step a b)
    (hav : ¬ (a.1 = v.1 ∧ a.2 = v.2)) (hbv : ¬ (b.1 = v.1 ∧ b.2 = v.2)) :
    ind (hcross (v.1 + 1, v.2) a b) = ind (hcross v a b) := by
  have hc := hex_step_cases h
  unfold ind hcross
  simp only
  split_ifs <;> first | rfl | (exfalso; omega)

theorem hcross_right {v a b : Int × Int} (h : hex_step a b)
    (hav : ¬ (a.1 = v.1 ∧ a.2 = v.2)) (hbv : ¬ (b.1 = v.1 ∧ b.2 = v.2))
    (haw : ¬ (a.1 = v.1 ∧ a.2 = v.2 + 1)) (hbw : ¬ (b.1 = v.1 ∧ b.2 = v.2 + 1)) :
    ind (hcross v a b) + ind (hcross (v.1, v.2 + 1) a b)
      = ind (above (v.1, v.2 + 1) a) + ind (above (v.1, v.2 + 1) b) := by
  have hc := hex_step_cases h
  unfold ind hcross above
  simp only
  split_ifs <;> first | (exfalso; omega) | decide

theorem hcross_diag {v a b : Int × Int} (h : hex_step a b)
    (hav : ¬ (a.1 = v.1 ∧ a.2 = v.2)) (hbv : ¬ (b.1 = v.1 ∧ b.2 = v.2))
    (haw : ¬ (a.1 = v.1 + 1 ∧ a.2 = v.2 - 1)) (hbw : ¬ (b.1 = v.1 + 1 ∧ b.2 = v.2 - 1)) :
    ind (hcross v a b) + ind (hcross (v.1 + 1, v.2 - 1) a b)
      = ind (above v a) + ind (above v b) := by
  have hc := hex_step_cases h
  unfold ind hcross above
  simp only
  split_ifs <;> first | (exfalso; omega) | decide

theorem hcross_top {v a b : Int × Int} (hv : v.1 = 0) (ha : 0 ≤ a.1) (hb : 0 ≤ b.1) :
    ind (hcross v a b) = 0 := by
  unfold ind hcross
  split_ifs with h
  · exfalso
    omega
  · rfl

theorem hcross_bottom {v a b : Int × Int} (h : hex_step a b)
    (hav : ¬ (a.1 = v.1 ∧ a.2 = v.2)) (hbv : ¬ (b.1 = v.1 ∧ b.2 = v.2))
    (ha : a.1 ≤ v.1) (hb : b.1 ≤ v.1) :
    ind (hcross v a b) = ind (a.2 ≤ v.2) + ind (b.2 ≤ v.2) := by
  have hc := hex_step_cases h
  unfold ind hcross
  split_ifs <;> first | (exfalso; omega) | decide

theorem wsum_zero : ∀ w : List (Int × Int), wsum (fun _ _ => 0) w = 0 := by
  intro w
  induction w with
  | nil => rfl
  | cons a w ih =>
    cases w with
    | nil => rfl
    | cons b rest =>
      simp only [wsum]
      rw [ih, add_zero]

theorem free_ne {N : Int} {mark : Int × Int → Prop} {a v : Int × Int}
    (ha : free_cell N mark a) (hv : mark v) : ¬ (a.1 = v.1 ∧ a.2 = v.2) := by
  intro h
  have : a = v := Prod.ext h.1 h.2
  rw [this] at ha
  exact ha.2.2 hv

theorem hnum_down (N : Int) (mark : Int × Int → Prop) (v : Int × Int) (hv : mark v)
    (w : List (Int × Int)) (hw : List.Chain' (free_step N mark) w) :
    hnum (v.1 + 1, v.2) w = hnum v w := by
  unfold hnum
  apply wsum_congr (free_step N mark) _ _ _ _ hw
  intro x y hxy
  exact hcross_down hxy.1 (free_ne hxy.2.1 hv) (free_ne hxy.2.2 hv)

theorem hnum_right (N : Int) (mark : Int × Int → Prop) (v : Int × Int)
    (hv : mark v) (hd : mark (v.1, v.2 + 1)) (hvc : 0 ≤ v.2 ∧ v.2 + 1 < N)
    (a : Int × Int) (w : List (Int × Int)) (hw : List.Chain' (free_step N mark) (a :: w))
    (hstart : a.2 < 0) (hend : N ≤ ((a :: w).getLast (List.cons_ne_nil a w)).2) :
    hnum (v.1, v.2 + 1) (a :: w) = hnum v (a :: w) := by
  have hpt : ∀ x y, free_step N mark x y →
      ind (hcross v x y) + ind (hcross (v.1, v.2 + 1) x y)
        = ind (above (v.1, v.2 + 1) x) + ind (above (v.1, v.2 + 1) y) := by
    intro x y hxy
    exact hcross_right hxy.1 (free_ne hxy.2.1 hv) (free_ne hxy.2.2 hv)
      (free_ne hxy.2.1 hd) (free_ne hxy.2.2 hd)
  have hsum := wsum_congr (free_step N mark) _ _ hpt _ hw
  rw [wsum_add, wsum_cut] at hsum
  have e1 : ind (above (v.1, v.2 + 1) a) = 0 := by
    unfold ind above
    rw [if_neg]
    simp only
    omega
  have e2 : ind (above (v.1, v.2 + 1) ((a :: w).getLast (List.cons_ne_nil a w))) = 0 := by
    unfold ind above
    rw [if_neg]
    simp only
    omega
  rw [e1, e2, add_zero] at hsum
  unfold hnum
  have := CharTwo.add_self_eq_zero (wsum (fun a b => ind (hcross v a b)) (a :: w))
  linear_combination hsum - this

theorem hnum_diag (N : Int) (mark : Int × Int → Prop) (v : Int × Int)
    (hv : mark v) (hd : mark (v.1 + 1, v.2 - 1)) (hvc : 0 ≤ v.2 ∧ v.2 < N)
    (a : Int × Int) (w : List (Int × Int)) (hw : List.Chain' (free_step N mark) (a :: w))
    (hstart : a.2 < 0) (hend : N ≤ ((a :: w).getLast (List.cons_ne_nil a w)).2) :
    hnum (v.1 + 1, v.2 - 1) (a :: w) = hnum v (a :: w) := by
  have hpt : ∀ x y, free_step N mark x y →
      ind (hcross v x y) + ind (hcross (v.1 + 1, v.2 - 1) x y)
        = ind (above v x) + ind (above v y) := by
    intro x y hxy
    exact hcross_diag hxy.1 (free_ne hxy.2.1 hv) (free_ne hxy.2.2 hv)
      (free_ne hxy.2.1 hd) (free_ne hxy.2.2 hd)
  have hsum := wsum_congr (free_step N mark) _ _ hpt _ hw
  rw [wsum_add, wsum_cut] at hsum
  have e1 : ind (above v a) = 0 := by
    unfold ind above
    rw [if_neg]
    omega
  have e2 : ind (above v ((a :: w).getLast (List.cons_ne_nil a w))) = 0 := by
    unfold ind above
    rw [if_neg]
    omega
  rw [e1, e2, add_zero] at hsum
  unfold hnum
  have := CharTwo.add_self_eq_zero (wsum (fun a b => ind (hcross v a b)) (a :: w))
  linear_combination hsum - this

/-- The crossing number does not change along a step between two marked cells. -/
theorem hnum_step (N : Int) (mark : Int × Int → Prop) (v u : Int × Int) (hvu : hex_step v u)
    (hv : mark v) (hu : mark u) (hvc : 0 ≤ v.2 ∧ v.2 < N) (huc : 0 ≤ u.2 ∧ u.2 < N)
    (a : Int × Int) (w : List (Int × Int)) (hw : List.Chain' (free_step N mark) (a :: w))
    (hstart : a.2 < 0) (hend : N ≤ ((a :: w).getLast (List.cons_ne_nil a w)).2) :
    hnum u (a :: w) = hnum v (a :: w) := by
  rcases hex_step_cases hvu with h | h | h | h | h | h
  · -- u = v + (0, -1)
    have hv2 : v = (u.1, u.2 + 1) := Prod.ext (by simp; omega) (by simp; omega)
    rw [hv2] at hv ⊢
    exact (hnum_right N mark u hu hv ⟨huc.1, by omega⟩ a w hw hstart hend).symm
  · have hu2 : u = (v.1, v.2 + 1) := Prod.ext (by simp; omega) (by simp; omega)
    rw [hu2] at hu ⊢
    exact hnum_right N mark v hv hu ⟨hvc.1, by omega⟩ a w hw hstart hend
  · have hu2 : u = (v.1 + 1, v.2 - 1) := Prod.ext (by simp; omega) (by simp; omega)
    rw [hu2] at hu ⊢
    exact hnum_diag N mark v hv hu hvc a w hw hstart hend
  · have hu2 : u = (v.1 + 1, v.2) := Prod.ext (by simp; omega) (by simp; omega)
    rw [hu2]
    exact hnum_down N mark v hv (a :: w) hw
  · have hv2 : v = (u.1 + 1, u.2) := Prod.ext (by simp; omega) (by simp; omega)
    rw [hv2]
    exact (hnum_down N mark u hu (a :: w) hw).symm
  · have hv2 : v = (u.1 + 1, u.2 - 1) := Prod.ext (by simp; omega) (by simp; omega)
    rw [hv2] at hv ⊢
    exact (hnum_diag N mark u hu hv huc a w hw hstart hend).symm

/-- A walk from a column left of the board to a column right of it, through cells that are
not marked and lie in the rows of the board, meets every chain of marked cells that leads
from row 0 to row `N - 1`: no such chain exists beside it. -/
theorem no_double_crossing (N : Int) (mark : Int × Int → Prop)
    (hcol : ∀ x, mark x → 0 ≤ x.2 ∧ x.2 < N)
    (a : Int × Int) (w : List (Int × Int)) (hw : List.Chain' (free_step N mark) (a :: w))
    (hstart : a.2 < 0) (hend : N ≤ ((a :: w).getLast (List.cons_ne_nil a w)).2)
    (s e : Int × Int) (hs : s.1 = 0) (he : e.1 = N - 1) (hms : mark s)
    (hp : Relation.ReflTransGen (fun x y => hex_step x y ∧ mark y) s e) : False := by
  have hinv : ∀ x, Relation.ReflTransGen (fun x y => hex_step x y ∧ mark y) s x →
      mark x ∧ hnum x (a :: w) = hnum s (a :: w) := by
    intro x hx
    induction hx with
    | refl => exact ⟨hms, rfl⟩
    | tail _ hyz ih =>
      refine ⟨hyz.2, ?_⟩
      rw [← ih.2]
      exact hnum_step N mark _ _ hyz.1 ih.1 hyz.2 (hcol _ ih.1) (hcol _ hyz.2) a w hw hstart hend
  have htop : hnum s (a :: w) = 0 := by
    unfold hnum
    rw [wsum_congr (free_step N mark) _ (fun _ _ => 0) _ _ hw, wsum_zero]
    intro x y hxy
    exact hcross_top hs hxy.2.1.1 hxy.2.2.1
  have hme := (hinv e hp).1
  have hbot : hnum e (a :: w) = 1 := by
    unfold hnum
    have hpt : ∀ x y, free_step N mark x y →
        ind (hcross e x y) = ind (x.2 ≤ e.2) + ind (y.2 ≤ e.2) := by
      intro x y hxy
      have h1 := hxy.2.1.2.1
      have h2 := hxy.2.2.2.1
      exact hcross_bottom hxy.1 (free_ne hxy.2.1 hme) (free_ne hxy.2.2 hme) (by omega) (by omega)
    rw [wsum_congr (free_step N mark) _ _ hpt _ hw, wsum_cut]
    have hec := hcol e hme
    have e1 : ind (a.2 ≤ e.2) = 1 := by
      unfold ind
      rw [if_pos]
      omega
    have e2 : ind (((a :: w).getLast (List.cons_ne_nil a w)).2 ≤ e.2) = 0 := by
      unfold ind
      rw [if_neg]
      omega
    rw [e1, e2, add_zero]
  rw [(hinv e hp).2, htop] at hbot
  exact zero_ne_one hbot

/-! ### The two halves on a board -/

theorem holds_red_or_blue (g : Graph node) (hwf : g.wf) (hfull : ∀ v ∈ g.nodes, v ≠ node.empty)
    {x : Int × Int} (hb : on_board g.size x) : holds g node.red x ∨ holds g node.blue x := by
  obtain ⟨v, hv, hmem⟩ := get_node_value_some hwf (show on_board g.size (x.1, x.2) from hb)
  have hne := hfull v hmem
  cases v with
  | red => exact Or.inl ⟨hb, hv⟩
  | blue => exact Or.inr ⟨hb, hv⟩
  | empty => exact absurd rfl hne

theorem holds_not_both (g : Graph node) {x : Int × Int} (h1 : holds g node.red x)
    (h2 : holds g node.blue x) : False := by
  have := h1.2.symm.trans h2.2
  cases this

theorem reach_holds (g : Graph node) (c : node) {t x : Int × Int} (ht : holds g c t)
    (h : Relation.ReflTransGen (cstep g c) t x) : holds g c x := by
  cases h with
  | refl => exact ht
  | tail _ hyx => exact hyx.2

theorem top_connected_holds (g : Graph node) {x : Int × Int} (h : top_connected g x) :
    holds g node.red x := by
  obtain ⟨t, _, ht, hr⟩ := h
  exact reach_holds g node.red ht hr

theorem left_connected_holds (g : Graph node) {x : Int × Int} (h : left_connected g x) :
    holds g node.blue x := by
  obtain ⟨t, _, ht, hr⟩ := h
  exact reach_holds g node.blue ht hr

/-- A cell next to a cell joined to the top, itself not joined to the top, is Blue. -/
theorem blue_of_next_to_top (g : Graph node) (hwf : g.wf)
    (hfull : ∀ v ∈ g.nodes, v ≠ node.empty) {u v : Int × Int} (hu : top_connected g u)
    (huv : hex_step u v ∨ hex_step v u) (hb : on_board g.size v) (hv : ¬ top_connected g v) :
    holds g node.blue v := by
  rcases holds_red_or_blue g hwf hfull hb with h | h
  · exfalso
    apply hv
    obtain ⟨t, ht0, ht, hr⟩ := hu
    have hstep : hex_step u v := huv.elim id hex_step_symm
    exact ⟨t, ht0, ht, hr.tail ⟨hstep, h⟩⟩
  · exact h

/-- A cell next to a cell joined to the left, itself not joined to the left, is Red. -/
theorem red_of_next_to_left (g : Graph node) (hwf : g.wf)
    (hfull : ∀ v ∈ g.nodes, v ≠ node.empty) {u v : Int × Int} (hu : left_connected g u)
    (huv : hex_step u v ∨ hex_step v u) (hb : on_board g.size v) (hv : ¬ left_connected g v) :
    holds g node.red v := by
  rcases holds_red_or_blue g hwf hfull hb with h | h
  · exact h
  · exfalso
    apply hv
    obtain ⟨t, ht0, ht, hr⟩ := hu
    have hstep : hex_step u v := huv.elim id hex_step_symm
    exact ⟨t, ht0, ht, hr.tail ⟨hstep, h⟩⟩

theorem exists_labels (g : Graph node) : ∃ L, labels_board g L := by
  classical
  refine ⟨fun x => if top_connected g x then 0 else if left_connected g x then 1 else 2, ?_⟩
  intro x
  by_cases h1 : top_connected g x
  · have h2 : ¬ left_connected g x := fun h2 =>
      holds_not_both g (top_connected_holds g h1) (left_connected_holds g h2)
    simp [h1, h2]
  · by_cases h2 : left_connected g x
    · simp [h1, h2]
    · simp [h1, h2]

theorem rainbow_cases : ∀ a b c : Fin 3, rainbow a b c →
    (a = 2 ∧ ((b = 0 ∧ c = 1) ∨ (b = 1 ∧ c = 0)))
    ∨ (b = 2 ∧ ((a = 0 ∧ c = 1) ∨ (a = 1 ∧ c = 0)))
    ∨ (c = 2 ∧ ((a = 0 ∧ b = 1) ∨ (a = 1 ∧ b = 0))) := by
  decide

/-- No cell labelled 2 touches both a cell labelled 0 and a cell labelled 1. -/
theorem no_mixed_corner (g : Graph node) (hwf : g.wf)
    (hfull : ∀ v ∈ g.nodes, v ≠ node.empty) (L : Int × Int → Fin 3) (hL : labels_board g L)
    {c u0 u1 : Int × Int} (hb : on_board g.size c) (hc : L c = 2) (h0 : L u0 = 0)
    (h1 : L u1 = 1) (a0 : hex_step u0 c ∨ hex_step c u0) (a1 : hex_step u1 c ∨ hex_step c u1) :
    False := by
  have hcn := (hL c).2.2.1 hc
  exact holds_not_both g
    (red_of_next_to_left g hwf hfull ((hL u1).2.1.1 h1) a1 hb hcn.2)
    (blue_of_next_to_top g hwf hfull ((hL u0).1.1 h0) a0 hb hcn.1)

theorem no_rainbow_triangle (g : Graph node) (hwf : g.wf)
    (hfull : ∀ v ∈ g.nodes, v ≠ node.empty) (L : Int × Int → Fin 3) (hL : labels_board g L)
    {x y z : Int × Int} (hx : on_board g.size x) (hy : on_board g.size y)
    (hz : on_board g.size z) (hxy : hex_step x y) (hxz : hex_step x z) (hyz : hex_step y z) :
    ¬ rainbow (L x) (L y) (L z) := by
  intro hr
  rcases rainbow_cases _ _ _ hr with ⟨h2, ⟨h0, h1⟩ | ⟨h1, h0⟩⟩ | ⟨h2, ⟨h0, h1⟩ | ⟨h1, h0⟩⟩
    | ⟨h2, ⟨h0, h1⟩ | ⟨h1, h0⟩⟩
  · exact no_mixed_corner g hwf hfull L hL hx h2 h0 h1 (Or.inr hxy) (Or.inr hxz)
  · exact no_mixed_corner g hwf hfull L hL hx h2 h0 h1 (Or.inr hxz) (Or.inr hxy)
  · exact no_mixed_corner g hwf hfull L hL hy h2 h0 h1 (Or.inl hxy) (Or.inr hyz)
  · exact no_mixed_corner g hwf hfull L hL hy h2 h0 h1 (Or.inr hyz) (Or.inl hxy)
  · exact no_mixed_corner g hwf hfull L hL hz h2 h0 h1 (Or.inl hxz) (Or.inl hyz)
  · exact no_mixed_corner g hwf hfull L hL hz h2 h0 h1 (Or.inl hyz) (Or.inl hxz)

/-- On a full board Red joins row 0 to the last row or Blue joins column 0 to the last
column. -/
theorem full_board_has_winner (g : Graph node) (hwf : g.wf)
    (hfull : ∀ v ∈ g.nodes, v ≠ node.empty) :
    (∃ y : Int × Int, y.1 = g.size - 1 ∧ top_connected g y)
    ∨ (∃ y : Int × Int, y.2 = g.size - 1 ∧ left_connected g y) := by
  by_contra hcon
  rw [not_or] at hcon
  obtain ⟨hnr, hnb⟩ := hcon
  obtain ⟨L, hL⟩ := exists_labels g
  have hN : 1 ≤ g.size := hwf.1
  obtain ⟨m, hm⟩ : ∃ m : ℕ, g.size = (m : Int) + 1 := ⟨(g.size - 1).toNat, by omega⟩
  have hon : ∀ r q : ℕ, r ≤ m → q ≤ m → on_board g.size ((r : Int), (q : Int)) := by
    intro r q hr hq
    refine ⟨?_, ?_, ?_, ?_⟩ <;> simp only <;> omega
  have step_h : ∀ r q : ℕ, hex_step ((r : Int), (q : Int)) ((r : Int), ((q + 1 : ℕ) : Int)) := by
    intro r q
    unfold hex_step
    simp [offset]
  have step_v : ∀ r q : ℕ, hex_step ((r : Int), (q : Int)) (((r + 1 : ℕ) : Int), (q : Int)) := by
    intro r q
    unfold hex_step
    simp [offset]
  have step_d : ∀ r q : ℕ,
      hex_step ((r : Int), ((q + 1 : ℕ) : Int)) (((r + 1 : ℕ) : Int), (q : Int)) := by
    intro r q
    unfold hex_step
    simp [offset]
  apply sperner_grid m (fun r q => L ((r : Int), (q : Int)))
  · intro r q hr hq
    exact no_rainbow_triangle g hwf hfull L hL (hon r q hr.le hq.le) (hon r (q + 1) hr.le hq)
      (hon (r + 1) q hr hq.le) (step_h r q) (step_v r q) (step_d r q)
  · intro r q hr hq
    exact no_rainbow_triangle g hwf hfull L hL (hon r (q + 1) hr.le hq) (hon (r + 1) q hr hq.le)
      (hon (r + 1) (q + 1) hr hq) (step_d r q) (step_v r (q + 1)) (step_h (r + 1) q)
  · -- top row: a cell next to one joined to the left is joined to the left or Red
    intro q hq
    have top_red : ∀ q2 : ℕ, holds g node.red (((0 : ℕ) : Int), (q2 : Int)) →
        L (((0 : ℕ) : Int), (q2 : Int)) = 0 := by
      intro q2 h
      exact (hL _).1.2 ⟨_, by simp, h, Relation.ReflTransGen.refl⟩
    rintro (⟨h1, h2⟩ | ⟨h2, h1⟩)
    · have hn := (hL _).2.2.1 h2
      have := top_red (q + 1) (red_of_next_to_left g hwf hfull ((hL _).2.1.1 h1)
        (Or.inl (step_h 0 q)) (hon 0 (q + 1) (Nat.zero_le m) hq) hn.2)
      rw [this] at h2
      exact absurd h2 (by decide)
    · have hn := (hL _).2.2.1 h2
      have := top_red q (red_of_next_to_left g hwf hfull ((hL _).2.1.1 h1)
        (Or.inr (step_h 0 q)) (hon 0 q (Nat.zero_le m) hq.le) hn.2)
      rw [this] at h2
      exact absurd h2 (by decide)
  · intro r hr
    have left_blue : ∀ r2 : ℕ, holds g node.blue ((r2 : Int), ((0 : ℕ) : Int)) →
        L ((r2 : Int), ((0 : ℕ) : Int)) = 1 := by
      intro r2 h
      exact (hL _).2.1.2 ⟨_, by simp, h, Relation.ReflTransGen.refl⟩
    rintro (⟨h0, h2⟩ | ⟨h2, h0⟩)
    · have hn := (hL _).2.2.1 h2
      have := left_blue (r + 1) (blue_of_next_to_top g hwf hfull ((hL _).1.1 h0)
        (Or.inl (step_v r 0)) (hon (r + 1) 0 hr (Nat.zero_le m)) hn.1)
      rw [this] at h2
      exact absurd h2 (by decide)
    · have hn := (hL _).2.2.1 h2
      have := left_blue r (blue_of_next_to_top g hwf hfull ((hL _).1.1 h0)
        (Or.inr (step_v r 0)) (hon r 0 hr.le (Nat.zero_le m)) hn.1)
      rw [this] at h2
      exact absurd h2 (by decide)
  · intro q _ h0
    exact hnr ⟨_, by simp only; omega, (hL _).1.1 h0⟩
  · intro r _ h1
    exact hnb ⟨_, by simp only; omega, (hL _).2.1.1 h1⟩
  · intro h2
    have hn := (hL _).2.2.1 h2
    rcases holds_red_or_blue g hwf hfull (hon 0 0 (Nat.zero_le m) (Nat.zero_le m)) with h | h
    · exact hn.1 ⟨_, by simp, h, Relation.ReflTransGen.refl⟩
    · exact hn.2 ⟨_, by simp, h, Relation.ReflTransGen.refl⟩

theorem chain_free (N : Int) (mark : Int × Int → Prop) :
    ∀ w : List (Int × Int), List.Chain' hex_step w → (∀ x ∈ w, free_cell N mark x) →
      List.Chain' (free_step N mark) w := by
  intro w
  induction w with
  | nil => intro _ _; exact List.chain'_nil
  | cons a w ih =>
    intro hc hf
    cases w with
    | nil => exact List.chain'_singleton a
    | cons b rest =>
      rw [List.chain'_cons] at hc ⊢
      exact ⟨⟨hc.1, hf a (by simp), hf b (by simp)⟩,
        ih hc.2 (fun x hx => hf x (List.mem_cons_of_mem _ hx))⟩

/-- On a board Red does not join row 0 to the last row while Blue joins column 0 to the
last column. -/
theorem not_both_winners (g : Graph node)
    (hr : ∃ y : Int × Int, y.1 = g.size - 1 ∧ top_connected g y)
    (hb : ∃ y : Int × Int, y.2 = g.size - 1 ∧ left_connected g y) : False := by
  obtain ⟨e, he, s, hs, hsr, hse⟩ := hr
  obtain ⟨y, hy, t, ht, htb, hty⟩ := hb
  obtain ⟨p, hhead, hlast, hall, hchain⟩ := (path_connected_iff g node.blue t y).2 ⟨htb, hty⟩
  cases p with
  | nil => simp at hhead
  | cons t2 p =>
    simp only [List.head?_cons, Option.some.injEq] at hhead
    subst hhead
    have hyb : holds g node.blue y := reach_holds g node.blue htb hty
    have hlast2 : (t2 :: p).getLast (List.cons_ne_nil t2 p) = y := by
      rw [List.getLast?_eq_getLast _ (List.cons_ne_nil t2 p)] at hlast
      exact Option.some.inj hlast
    have hfree : ∀ x ∈ (t2.1, (-1 : Int)) :: ((t2 :: p) ++ [(y.1, g.size)]),
        free_cell g.size (holds g node.red) x := by
      intro x hx
      simp only [List.mem_cons, List.mem_append, List.mem_singleton, List.not_mem_nil,
        or_false] at hx
      rcases hx with rfl | (rfl | hx) | rfl
      · refine ⟨htb.1.1, htb.1.2.1, ?_⟩
        intro h
        have := h.1.2.2.1
        simp at this
      · exact ⟨htb.1.1, htb.1.2.1, fun h => holds_not_both g h htb⟩
      · have hxb := hall x (List.mem_cons_of_mem _ hx)
        exact ⟨hxb.1.1, hxb.1.2.1, fun h => holds_not_both g h hxb⟩
      · refine ⟨hyb.1.1, hyb.1.2.1, ?_⟩
        intro h
        have := h.1.2.2.2
        simp at this
    have hsteps : List.Chain' hex_step ((t2.1, (-1 : Int)) :: ((t2 :: p) ++ [(y.1, g.size)])) := by
      rw [List.chain'_cons']
      refine ⟨?_, ?_⟩
      · intro z hz
        simp only [List.cons_append, List.head?_cons, Option.mem_def, Option.some.injEq] at hz
        subst hz
        unfold hex_step
        simp [offset, ht]
      · apply List.Chain'.append hchain (List.chain'_singleton _)
        intro a ha b hb
        rw [List.getLast?_eq_getLast _ (List.cons_ne_nil t2 p), Option.mem_def,
          Option.some.injEq] at ha
        simp only [List.head?_cons, Option.mem_def, Option.some.injEq] at hb
        subst hb
        rw [hlast2] at ha
        subst ha
        unfold hex_step
        simp [offset, hy]
    have hw := chain_free g.size (holds g node.red) _ hsteps hfree
    refine no_double_crossing g.size (holds g node.red) (fun x hx => ⟨hx.1.2.2.1, hx.1.2.2.2⟩)
      (t2.1, (-1 : Int)) ((t2 :: p) ++ [(y.1, g.size)]) hw (by simp) ?_ s e hs he hsr hse
    rw [List.getLast_cons (by simp), List.getLast_append_singleton]

/-- C3: on a board of side `N >= 1` with Red registered as `_players[0]` and Blue as
`_players[1]` and no Empty cell, exactly one of `check_red`, `check_blue` is true. -/
theorem full_board_exactly_one_winner (game : HexBoard) (hwf : game.graph.wf)
    (hred : game.players0.value = node.red) (hblue : game.players1.value = node.blue)
    (hfull : ∀ v ∈ game.graph.nodes, v ≠ node.empty) :
    (game.check_red = true ∧ game.check_blue = false)
    ∨ (game.check_red = false ∧ game.check_blue = true) := by
  have hR : game.check_red = true ↔
      ∃ y : Int × Int, y.1 = game.graph.size - 1 ∧ top_connected game.graph y := by
    rw [check_red_iff game hwf, hred]
    constructor
    · rintro ⟨i, j, _, _, hp⟩
      have := (path_connected_iff _ _ _ _).1 hp
      exact ⟨(game.size - 1, j), rfl, (0, i), rfl, this.1, this.2⟩
    · rintro ⟨y, hy, t, ht, htr, hty⟩
      have hyr := reach_holds game.graph node.red htr hty
      refine ⟨t.2, y.2, ⟨htr.1.2.2.1, htr.1.2.2.2⟩, ⟨hyr.1.2.2.1, hyr.1.2.2.2⟩, ?_⟩
      have e1 : ((0 : Int), t.2) = t := Prod.ext ht.symm rfl
      have e2 : (game.size - 1, y.2) = y := Prod.ext hy.symm rfl
      rw [e1, e2]
      exact (path_connected_iff _ _ _ _).2 ⟨htr, hty⟩
  have hB : game.check_blue = true ↔
      ∃ y : Int × Int, y.2 = game.graph.size - 1 ∧ left_connected game.graph y := by
    rw [check_blue_iff game hwf, hblue]
    constructor
    · rintro ⟨i, j, _, _, hp⟩
      have := (path_connected_iff _ _ _ _).1 hp
      exact ⟨(j, game.size - 1), rfl, (i, 0), rfl, this.1, this.2⟩
    · rintro ⟨y, hy, t, ht, htr, hty⟩
      have hyr := reach_holds game.graph node.blue htr hty
      refine ⟨t.1, y.1, ⟨htr.1.1, htr.1.2.1⟩, ⟨hyr.1.1, hyr.1.2.1⟩, ?_⟩
      have e1 : (t.1, (0 : Int)) = t := Prod.ext rfl ht.symm
      have e2 : (y.1, game.size - 1) = y := Prod.ext rfl hy.symm
      rw [e1, e2]
      exact (path_connected_iff _ _ _ _).2 ⟨htr, hty⟩
  by_cases h1 : game.check_red = true
  · left
    refine ⟨h1, ?_⟩
    rw [← Bool.not_eq_true]
    intro h2
    exact not_both_winners game.graph (hR.1 h1) (hB.1 h2)
  · right
    refine ⟨Bool.not_eq_true _ ▸ h1, ?_⟩
    rcases full_board_has_winner game.graph hwf hfull with h | h
    · exact absurd (hR.2 h) h1
    · exact hB.2 h

theorem full_board_exactly_one_winner_witness :
    ((board2 node.blue node.red node.blue node.red).check_red = true
      ∧ (board2 node.blue node.red node.blue node.red).check_blue = false)
    ∨ ((board2 node.blue node.red node.blue node.red).check_red = false
      ∧ (board2 node.blue node.red node.blue node.red).check_blue = true) :=
  full_board_exactly_one_winner (board2 node.blue node.red node.blue node.red)
    (board2_wf _ _ _ _) rfl rfl (by decide)

/-! ## Writing a cell -/

theorem vec_get_put {A : Type} (v : List A) {k : Int} (hk : 0 ≤ k ∧ k.toNat < v.length) (a : A)
    (j : Int) : vec_get (vec_put v k a) j = if j = k then some a else vec_get v j := by
  unfold vec_get vec_put
  rw [if_pos hk.1]
  by_cases hj : 0 ≤ j
  · simp only [hj, if_true, List.getElem?_set]
    by_cases hjk : j = k
    · subst hjk
      simp [hk.2]
    · have : k.toNat ≠ j.toNat := by omega
      simp [this, hjk]
  · have : j ≠ k := by omega
    simp [hj, this]

theorem set_node_value_wf {T : Type} (g : Graph T) (hwf : g.wf) (x y : Int) (c : T) :
    (g.set_node_value x y c).wf := by
  unfold Graph.set_node_value vec_put
  refine ⟨hwf.1, ?_⟩
  simp only
  split
  · rw [List.length_set]
    exact hwf.2
  · exact hwf.2

theorem flat_in_bounds {T : Type} {g : Graph T} (hwf : g.wf) {k : Int}
    (hk : 0 ≤ k ∧ k < g.size * g.size) : 0 ≤ k ∧ k.toNat < g.nodes.length := by
  refine ⟨hk.1, ?_⟩
  rw [hwf.2]
  have := hk.2
  omega

/-- The value read at a cell after `set_node_value(x, y, c)` whose flat index is a cell of
the board: `c` at the cell with that flat index, the old value elsewhere. -/
theorem get_set_node_value {T : Type} (g : Graph T) (hwf : g.wf) (x y : Int) (c : T)
    (hk : 0 ≤ x * g.size + y ∧ x * g.size + y < g.size * g.size) (a b : Int) :
    (g.set_node_value x y c).get_node_value a b
      = if a * g.size + b = x * g.size + y then some c else g.get_node_value a b := by
  unfold Graph.get_node_value Graph.set_node_value
  simp only
  exact vec_get_put g.nodes (flat_in_bounds hwf hk) c _

/-! ## Straight chains -/

theorem column_chain {T : Type} (g : Graph T) (c : T) (q : Int)
    (hcol : ∀ r : Int, 0 ≤ r → r < g.size → holds g c (r, q)) :
    ∀ k : ℕ, (k : Int) < g.size →
      Relation.ReflTransGen (cstep g c) ((0 : Int), q) ((k : Int), q) := by
  intro k
  induction k with
  | zero => intro _; exact Relation.ReflTransGen.refl
  | succ k ih =>
    intro hk
    have hk2 : (k : Int) < g.size := by push_cast at hk; omega
    refine (ih hk2).tail ⟨?_, ?_⟩
    · unfold hex_step
      simp [offset]
    · exact hcol _ (by positivity) hk

theorem row_chain {T : Type} (g : Graph T) (c : T) (r : Int)
    (hrow : ∀ q : Int, 0 ≤ q → q < g.size → holds g c (r, q)) :
    ∀ k : ℕ, (k : Int) < g.size →
      Relation.ReflTransGen (cstep g c) (r, (0 : Int)) (r, (k : Int)) := by
  intro k
  induction k with
  | zero => intro _; exact Relation.ReflTransGen.refl
  | succ k ih =>
    intro hk
    have hk2 : (k : Int) < g.size := by push_cast at hk; omega
    refine (ih hk2).tail ⟨?_, ?_⟩
    · unfold hex_step
      simp [offset]
    · exact hrow _ (by positivity) hk

/-- C11: on a board of side `N >= 1` with Red registered as `_players[0]` and Blue as
`_players[1]`, if Red holds every cell of some column `q` then `check_red` is true, and if
Blue holds every cell of some row `r` then `check_blue` is true, whatever the other cells
hold. -/
theorem full_line_wins (game : HexBoard) (hwf : game.graph.wf)
    (hred : game.players0.value = node.red) (hblue : game.players1.value = node.blue) :
    (∀ q : Int, 0 ≤ q → q < game.size →
      (∀ r : Int, 0 ≤ r → r < game.size → game.graph.get_node_value r q = some node.red) →
      game.check_red = true)
    ∧ (∀ r : Int, 0 ≤ r → r < game.size →
      (∀ q : Int, 0 ≤ q → q < game.size → game.graph.get_node_value r q = some node.blue) →
      game.check_blue = true) := by
  have hN : 1 ≤ game.graph.size := hwf.1
  obtain ⟨m, hm⟩ : ∃ m : ℕ, game.graph.size - 1 = (m : Int) :=
    ⟨(game.graph.size - 1).toNat, by omega⟩
  constructor
  · intro q hq0 hq hcol
    rw [check_red_iff game hwf, hred]
    have hh : ∀ r : Int, 0 ≤ r → r < game.graph.size → holds game.graph node.red (r, q) :=
      fun r h0 h1 => ⟨⟨h0, h1, hq0, hq⟩, hcol r h0 h1⟩
    refine ⟨q, q, ⟨hq0, hq⟩, ⟨hq0, hq⟩, ?_⟩
    rw [path_connected_iff]
    refine ⟨hh 0 (le_refl 0) (by omega), ?_⟩
    have := column_chain game.graph node.red q hh m (by omega)
    rw [← hm] at this
    exact this
  · intro r hr0 hr hrow
    rw [check_blue_iff game hwf, hblue]
    have hh : ∀ q : Int, 0 ≤ q → q < game.graph.size → holds game.graph node.blue (r, q) :=
      fun q h0 h1 => ⟨⟨hr0, hr, h0, h1⟩, hrow q h0 h1⟩
    refine ⟨r, r, ⟨hr0, hr⟩, ⟨hr0, hr⟩, ?_⟩
    rw [path_connected_iff]
    refine ⟨hh 0 (le_refl 0) (by omega), ?_⟩
    have := row_chain game.graph node.blue r hh m (by omega)
    rw [← hm] at this
    exact this

theorem full_line_wins_witness :
    (HexBoard.mk ⟨3, [node.red, node.empty, node.empty, node.red, node.empty, node.empty,
        node.red, node.empty, node.empty]⟩ true ⟨"red", node.red⟩ ⟨"blue", node.blue⟩).check_red
      = true
    ∧ (HexBoard.mk ⟨3, [node.blue, node.blue, node.blue, node.empty, node.empty, node.empty,
        node.empty, node.empty, node.empty]⟩ true ⟨"red", node.red⟩
        ⟨"blue", node.blue⟩).check_blue = true := by
  constructor
  · refine (full_line_wins _ ⟨by decide, by decide⟩ rfl rfl).1 0 (by decide) (by decide) ?_
    intro r h0 h1
    have h1 : r < 3 := h1
    have : r = 0 ∨ r = 1 ∨ r = 2 := by omega
    rcases this with rfl | rfl | rfl <;> decide
  · refine (full_line_wins _ ⟨by decide, by decide⟩ rfl rfl).2 0 (by decide) (by decide) ?_
    intro q h0 h1
    have h1 : q < 3 := h1
    have : q = 0 ∨ q = 1 ∨ q = 2 := by omega
    rcases this with rfl | rfl | rfl <;> decide

/-! ## `has_any` -/

theorem has_any_iff_mem {T : Type} [DecidableEq T] (g : Graph T) (v : T) :
    g.has_any v = true ↔ v ∈ g.nodes := by
  unfold Graph.has_any
  simp only [List.any_eq_true, decide_eq_true_eq]
  constructor
  · rintro ⟨x, hx, rfl⟩
    exact hx
  · intro h
    exact ⟨v, h, rfl⟩

theorem mem_nodes_iff_cell {T : Type} (g : Graph T) (hwf : g.wf) (v : T) :
    v ∈ g.nodes ↔ ∃ r q : Int, on_board g.size (r, q) ∧ g.get_node_value r q = some v := by
  have hN : 0 < g.size := by have := hwf.1; omega
  constructor
  · intro h
    obtain ⟨k, hk, hv⟩ := List.getElem_of_mem h
    have hk2 : ((k : Int)) < g.size * g.size := by
      rw [hwf.2] at hk
      omega
    have hd := flat_decompose hN (show (0 : Int) ≤ (k : Int) by positivity) hk2
    refine ⟨(k : Int) / g.size, (k : Int) % g.size, ⟨hd.1, hd.2.1, hd.2.2.1, hd.2.2.2.1⟩, ?_⟩
    unfold Graph.get_node_value vec_get
    rw [hd.2.2.2.2, if_pos (by positivity)]
    simp [List.getElem?_eq_getElem hk, hv]
  · rintro ⟨r, q, hb, hv⟩
    obtain ⟨w, hw, hmem⟩ := get_node_value_some hwf hb
    rw [hv] at hw
    cases hw
    exact hmem

/-- C12: on a graph of side `N >= 1`, `has_any(v)` is true exactly when at least one of the
`N * N` cells holds `v`; and `HexBoard::has_any()`, which is `has_any(Empty)` on the graph
of the board, is false exactly when every cell is Red or Blue. -/
theorem has_any_iff {T : Type} [DecidableEq T] (g : Graph T) (hg : g.wf) (game : HexBoard)
    (hwf : game.graph.wf) :
    (∀ v : T, g.has_any v = true ↔
      ∃ r q : Int, on_board g.size (r, q) ∧ g.get_node_value r q = some v)
    ∧ game.has_any = game.graph.has_any node.empty
    ∧ (game.has_any = false ↔
      ∀ r q : Int, on_board game.size (r, q) →
        game.graph.get_node_value r q = some node.red
          ∨ game.graph.get_node_value r q = some node.blue) := by
  refine ⟨?_, rfl, ?_⟩
  · intro v
    rw [has_any_iff_mem]
    exact mem_nodes_iff_cell g hg v
  · unfold HexBoard.has_any
    rw [← Bool.not_eq_true, has_any_iff_mem, mem_nodes_iff_cell game.graph hwf]
    constructor
    · intro h r q hb
      obtain ⟨w, hw, _⟩ := get_node_value_some hwf (show on_board game.graph.size (r, q) from hb)
      cases w with
      | red => exact Or.inl hw
      | blue => exact Or.inr hw
      | empty => exact absurd ⟨r, q, hb, hw⟩ h
    · rintro h ⟨r, q, hb, hv⟩
      rcases h r q hb with h1 | h1
      · rw [hv] at h1
        cases h1
      · rw [hv] at h1
        cases h1

theorem has_any_iff_witness :
    (board2 node.blue node.red node.blue node.empty).has_any = false ↔
      ∀ r q : Int, on_board (board2 node.blue node.red node.blue node.empty).size (r, q) →
        (board2 node.blue node.red node.blue node.empty).graph.get_node_value r q
            = some node.red
          ∨ (board2 node.blue node.red node.blue node.empty).graph.get_node_value r q
            = some node.blue :=
  (has_any_iff (Graph.init 3 node.empty) ⟨by decide, by decide⟩
    (board2 node.blue node.red node.blue node.empty) (board2_wf _ _ _ _)).2.2

/-! ## The active-player flag -/

/-- C14: `next_player` negates the active-player flag and returns the player registered
at the new flag value; the graph and both registered players are as before, and calling it
twice gives back the board it started from.  A freshly constructed board has the flag set
to `true` (index 1, where `main` registers Blue). -/
theorem next_player_flips (game : HexBoard) :
    game.next_player.1.active_player = (!game.active_player)
    ∧ game.next_player.2 = game.players (!game.active_player)
    ∧ game.next_player.2 = game.next_player.1.players game.next_player.1.active_player
    ∧ game.next_player.1.graph = game.graph
    ∧ game.next_player.1.players0 = game.players0
    ∧ game.next_player.1.players1 = game.players1
    ∧ game.next_player.1.next_player.1 = game
    ∧ (∀ (size : Int) (p1 p2 : Player),
        (HexBoard.init size p1 p2).active_player = true
        ∧ (HexBoard.init size p1 p2).players (HexBoard.init size p1 p2).active_player = p2) := by
  refine ⟨rfl, rfl, rfl, rfl, rfl, rfl, ?_, fun _ _ _ => ⟨rfl, rfl⟩⟩
  cases game with
  | mk g a p0 p1 =>
    simp [HexBoard.next_player]

/-! ## Monotonicity of the win checks -/

theorem path_connected_mono {T : Type} (g g2 : Graph T) (c : T)
    (h : ∀ x, holds g c x → holds g2 c x) {a b : Int × Int}
    (hp : path_connected g c a b) : path_connected g2 c a b := by
  obtain ⟨p, h1, h2, hall, hchain⟩ := hp
  exact ⟨p, h1, h2, fun x hx => h x (hall x hx), hchain⟩

theorem check_red_mono (game game2 : HexBoard) (hwf : game.graph.wf) (hwf2 : game2.graph.wf)
    (hsize : game2.graph.size = game.graph.size)
    (hp : game2.players0.value = game.players0.value)
    (h : ∀ x, holds game.graph game.players0.value x → holds game2.graph game.players0.value x)
    (hc : game.check_red = true) : game2.check_red = true := by
  rw [check_red_iff game hwf] at hc
  rw [check_red_iff game2 hwf2, hp]
  obtain ⟨i, j, hi, hj, hpath⟩ := hc
  have e : game2.size = game.size := hsize
  rw [e]
  exact ⟨i, j, hi, hj, path_connected_mono _ _ _ h hpath⟩

theorem check_blue_mono (game game2 : HexBoard) (hwf : game.graph.wf) (hwf2 : game2.graph.wf)
    (hsize : game2.graph.size = game.graph.size)
    (hp : game2.players1.value = game.players1.value)
    (h : ∀ x, holds game.graph game.players1.value x → holds game2.graph game.players1.value x)
    (hc : game.check_blue = true) : game2.check_blue = true := by
  rw [check_blue_iff game hwf] at hc
  rw [check_blue_iff game2 hwf2, hp]
  obtain ⟨i, j, hi, hj, hpath⟩ := hc
  have e : game2.size = game.size := hsize
  rw [e]
  exact ⟨i, j, hi, hj, path_connected_mono _ _ _ h hpath⟩

/-- Writing any value into a cell that holds `e` keeps every cell that holds `c`, `c`
different from `e`. -/
theorem holds_after_set {T : Type} (g : Graph T) (hwf : g.wf) {x y : Int}
    (hb : on_board g.size (x, y)) (e c v : T) (he : g.get_node_value x y = some e)
    (hce : c ≠ e) {a : Int × Int} (ha : holds g c a) :
    holds (g.set_node_value x y v) c a := by
  have hk := flat_compose (show 0 ≤ x from hb.1) (show x < g.size from hb.2.1)
    (show 0 ≤ y from hb.2.2.1) (show y < g.size from hb.2.2.2)
  refine ⟨ha.1, ?_⟩
  rw [get_set_node_value g hwf x y v ⟨hk.1, hk.2.1⟩]
  split
  · rename_i heq
    exfalso
    have := flat_injective ha.1.2.2.1 ha.1.2.2.2 (show 0 ≤ y from hb.2.2.1)
      (show y < g.size from hb.2.2.2) heq
    have h2 := ha.2
    rw [this.1, this.2, he] at h2
    exact hce (Option.some.inj h2).symm
  · exact ha.2

/-- C19: with Red registered as `_players[0]` and Blue as `_players[1]`: if `check_red`
(respectively `check_blue`) is true and an Empty cell is set to any value, the check is
still true on the new board.  More generally each check is monotone in the set of cells
that hold its player's colour: on a second board of the same side on which every cell
holding that colour still holds it, a true check stays true; so two boards with the same
set of cells of that colour get the same answer. -/
theorem win_not_undone (game : HexBoard) (hwf : game.graph.wf)
    (hred : game.players0.value = node.red) (hblue : game.players1.value = node.blue) :
    (∀ (x y : Int) (v : node), on_board game.size (x, y) →
      game.graph.get_node_value x y = some node.empty →
      (game.check_red = true → (game.set_node_value x y v).check_red = true)
      ∧ (game.check_blue = true → (game.set_node_value x y v).check_blue = true))
    ∧ (∀ game2 : HexBoard, game2.graph.wf → game2.graph.size = game.graph.size →
        game2.players0.value = node.red → game2.players1.value = node.blue →
        ((∀ a, holds game.graph node.red a → holds game2.graph node.red a) →
          game.check_red = true → game2.check_red = true)
        ∧ ((∀ a, holds game.graph node.blue a → holds game2.graph node.blue a) →
          game.check_blue = true → game2.check_blue = true)
        ∧ ((∀ a, holds game.graph node.red a ↔ holds game2.graph node.red a) →
          game2.check_red = game.check_red)
        ∧ ((∀ a, holds game.graph node.blue a ↔ holds game2.graph node.blue a) →
          game2.check_blue = game.check_blue)) := by
  constructor
  · intro x y v hb he
    have hwf2 : (game.set_node_value x y v).graph.wf := set_node_value_wf game.graph hwf x y v
    constructor
    · intro hc
      refine check_red_mono game (game.set_node_value x y v) hwf hwf2 rfl rfl ?_ hc
      intro a ha
      rw [hred] at ha ⊢
      exact holds_after_set game.graph hwf hb node.empty node.red v he (by decide) ha
    · intro hc
      refine check_blue_mono game (game.set_node_value x y v) hwf hwf2 rfl rfl ?_ hc
      intro a ha
      rw [hblue] at ha ⊢
      exact holds_after_set game.graph hwf hb node.empty node.blue v he (by decide) ha
  · intro game2 hwf2 hsize hred2 hblue2
    have mr : ∀ (g1 g2 : HexBoard), g1.graph.wf → g2.graph.wf → g2.graph.size = g1.graph.size →
        g1.players0.value = node.red → g2.players0.value = node.red →
        (∀ a, holds g1.graph node.red a → holds g2.graph node.red a) →
        g1.check_red = true → g2.check_red = true := by
      intro g1 g2 w1 w2 hs h1 h2 h hc
      refine check_red_mono g1 g2 w1 w2 hs (by rw [h1, h2]) ?_ hc
      rw [h1]
      exact h
    have mb : ∀ (g1 g2 : HexBoard), g1.graph.wf → g2.graph.wf → g2.graph.size = g1.graph.size →
        g1.players1.value = node.blue → g2.players1.value = node.blue →
        (∀ a, holds g1.graph node.blue a → holds g2.graph node.blue a) →
        g1.check_blue = true → g2.check_blue = true := by
      intro g1 g2 w1 w2 hs h1 h2 h hc
      refine check_blue_mono g1 g2 w1 w2 hs (by rw [h1, h2]) ?_ hc
      rw [h1]
      exact h
    refine ⟨mr game game2 hwf hwf2 hsize hred hred2, mb game game2 hwf hwf2 hsize hblue hblue2,
      ?_, ?_⟩
    · intro h
      rw [Bool.eq_iff_iff]
      exact ⟨mr game2 game hwf2 hwf hsize.symm hred2 hred (fun a => (h a).2),
        mr game game2 hwf hwf2 hsize hred hred2 (fun a => (h a).1)⟩
    · intro h
      rw [Bool.eq_iff_iff]
      exact ⟨mb game2 game hwf2 hwf hsize.symm hblue2 hblue (fun a => (h a).2),
        mb game game2 hwf hwf2 hsize hblue hblue2 (fun a => (h a).1)⟩

/-- Red holds `(0, 1)` and `(1, 1)` of this board, whose cell `(1, 0)` is Empty. -/
theorem check_red_joined_open :
    (board2 node.blue node.red node.empty node.red).check_red = true := by
  rw [check_red_iff _ (board2_wf _ _ _ _)]
  refine ⟨1, 1, by decide, by decide, [(0, 1), (1, 1)], rfl, rfl, ?_, ?_⟩
  · intro a ha
    simp only [List.mem_cons, List.mem_singleton, List.not_mem_nil, or_false] at ha
    rcases ha with rfl | rfl
    · exact ⟨by unfold on_board; decide, by decide⟩
    · exact ⟨by unfold on_board; decide, by decide⟩
  · rw [List.chain'_cons]
    refine ⟨?_, List.chain'_singleton _⟩
    unfold hex_step
    decide

theorem win_not_undone_witness :
    ((board2 node.blue node.red node.empty node.red).set_node_value 1 0 node.blue).check_red
      = true :=
  ((win_not_undone (board2 node.blue node.red node.empty node.red) (board2_wf _ _ _ _)
    rfl rfl).1 1 0 node.blue (by unfold on_board; decide) (by decide)).1 check_red_joined_open

/-! ## `do_move` -/

theorem accepted_index (game : HexBoard) (hwf : game.graph.wf) {x y : Int}
    (h : game.is_valid_move x y = some true) :
    (0 ≤ x * game.graph.size + y ∧ x * game.graph.size + y < game.graph.size * game.graph.size)
      ∧ game.graph.get_node_value x y = some node.empty := by
  unfold HexBoard.is_valid_move at h
  split at h
  · cases h
  · cases hv : game.graph.get_node_value x y with
    | none => rw [hv] at h; cases h
    | some v =>
      rw [hv] at h
      simp only at h
      have hve : v = node.empty := by
        by_contra hne
        rw [if_pos hne] at h
        cases h
      subst hve
      refine ⟨?_, rfl⟩
      unfold Graph.get_node_value vec_get at hv
      split at hv
      · rename_i h0
        refine ⟨h0, ?_⟩
        have hlt : (x * game.graph.size + y).toNat < game.graph.nodes.length := by
          by_contra hge
          rw [List.getElem?_eq_none (not_lt.1 hge)] at hv
          cases hv
        rw [hwf.2] at hlt
        omega
      · cases hv

theorem vec_put_outside {A : Type} (v : List A) (k : Int) (a : A) (h : vec_get v k = none) :
    vec_put v k a = v := by
  unfold vec_get at h
  unfold vec_put
  split
  · rename_i h0
    rw [if_pos h0, List.getElem?_eq_none_iff] at h
    exact List.set_eq_of_length_le h
  · rfl

theorem unread_index (game : HexBoard) {x y : Int} (h : game.is_valid_move x y = none) :
    game.graph.get_node_value x y = none := by
  unfold HexBoard.is_valid_move at h
  split at h
  · cases h
  · cases hv : game.graph.get_node_value x y with
    | none => rfl
    | some v =>
      rw [hv] at h
      simp only at h
      split at h <;> cases h

/-- What `do_move` does when it accepts a pair, with Red registered as `_players[0]` and
Blue as `_players[1]`: the side is kept, the flag is negated, and every cell that held Red
or Blue holds it still.  Either the pair indexes the vector, and then exactly one cell of
the board changes, from Empty to the mover's colour; or the pair indexes past the vector,
where the read found Empty, and then no cell of the board changes.  When no read outside
the vector finds Empty, only the former happens. -/
theorem do_move_effect (game : HexBoard) (hwf : game.graph.wf)
    (hred : game.players0.value = node.red) (hblue : game.players1.value = node.blue)
    (stray : Int → node) (moves : List (Int × Int)) (game2 : HexBoard)
    (h : game.do_move stray moves = some game2) :
    game2.graph.size = game.graph.size
    ∧ game2.active_player = (!game.active_player)
    ∧ (game.players game.active_player).value ≠ node.empty
    ∧ (∀ a b : Int, on_board game.size (a, b) →
        game.graph.get_node_value a b ≠ some node.empty →
        game2.graph.get_node_value a b = game.graph.get_node_value a b)
    ∧ ((∃ r q : Int, on_board game.size (r, q)
          ∧ game.graph.get_node_value r q = some node.empty
          ∧ game2.graph.get_node_value r q = some (game.players game.active_player).value
          ∧ ∀ a b : Int, on_board game.size (a, b) → (a, b) ≠ (r, q) →
              game2.graph.get_node_value a b = game.graph.get_node_value a b)
        ∨ (game2.graph = game.graph ∧ ∃ k : Int, stray k = node.empty))
    ∧ ((∀ k : Int, stray k ≠ node.empty) →
        ∃ r q : Int, on_board game.size (r, q)
          ∧ game.graph.get_node_value r q = some node.empty
          ∧ game2.graph.get_node_value r q = some (game.players game.active_player).value
          ∧ ∀ a b : Int, on_board game.size (a, b) → (a, b) ≠ (r, q) →
              game2.graph.get_node_value a b = game.graph.get_node_value a b) := by
  have hN : 0 < game.graph.size := by have := hwf.1; omega
  have hcol : (game.players game.active_player).value ≠ node.empty := by
    unfold HexBoard.players
    split
    · rw [hblue]
      decide
    · rw [hred]
      decide
  have core : game2.graph.size = game.graph.size
      ∧ game2.active_player = (!game.active_player)
      ∧ ((∃ r q : Int, on_board game.size (r, q)
            ∧ game.graph.get_node_value r q = some node.empty
            ∧ game2.graph.get_node_value r q = some (game.players game.active_player).value
            ∧ ∀ a b : Int, on_board game.size (a, b) → (a, b) ≠ (r, q) →
                game2.graph.get_node_value a b = game.graph.get_node_value a b)
          ∨ (game2.graph = game.graph ∧ ∃ k : Int, stray k = node.empty)) := by
    induction moves with
    | nil => cases h
    | cons xy rest ih =>
      rw [HexBoard.do_move] at h
      cases hv : game.is_valid_move xy.1 xy.2 with
      | none =>
        rw [hv] at h
        simp only at h
        by_cases hs : stray (xy.1 * game.size + xy.2) ≠ node.empty
        · rw [if_pos hs] at h
          exact ih h
        · rw [if_neg hs] at h
          simp only [Option.some.injEq] at h
          subst h
          refine ⟨rfl, rfl, Or.inr ⟨?_, _, not_not.1 hs⟩⟩
          show game.graph.set_node_value xy.1 xy.2 _ = game.graph
          unfold Graph.set_node_value
          rw [vec_put_outside _ _ _ (unread_index game hv)]
      | some b =>
        rw [hv] at h
        cases b with
        | false => exact ih h
        | true =>
          simp only [Option.some.injEq] at h
          subst h
          obtain ⟨hk, hempty⟩ := accepted_index game hwf hv
          have hd := flat_decompose hN hk.1 hk.2
          have hget : ∀ a b : Int,
              (game.graph.set_node_value xy.1 xy.2
                  (game.players game.active_player).value).get_node_value a b
                = if a * game.graph.size + b = xy.1 * game.graph.size + xy.2
                  then some (game.players game.active_player).value
                  else game.graph.get_node_value a b :=
            get_set_node_value game.graph hwf xy.1 xy.2 _ hk
          have hcell : game.graph.get_node_value
              ((xy.1 * game.graph.size + xy.2) / game.graph.size)
              ((xy.1 * game.graph.size + xy.2) % game.graph.size) = some node.empty := by
            rw [get_node_value_cell game.graph hN hk]
            exact hempty
          have hother : ∀ a b : Int, on_board game.size (a, b) →
              a * game.graph.size + b = xy.1 * game.graph.size + xy.2 →
              (a, b) = ((xy.1 * game.graph.size + xy.2) / game.graph.size,
                (xy.1 * game.graph.size + xy.2) % game.graph.size) := by
            intro a b hab heq
            have := flat_injective (show 0 ≤ b from hab.2.2.1)
              (show b < game.graph.size from hab.2.2.2)
              hd.2.2.1 hd.2.2.2.1 (heq.trans hd.2.2.2.2.symm)
            exact Prod.ext this.1 this.2
          refine ⟨rfl, rfl, Or.inl ⟨(xy.1 * game.graph.size + xy.2) / game.graph.size,
            (xy.1 * game.graph.size + xy.2) % game.graph.size,
            ⟨hd.1, hd.2.1, hd.2.2.1, hd.2.2.2.1⟩, hcell, ?_, ?_⟩⟩
          · show (game.graph.set_node_value xy.1 xy.2 _).get_node_value _ _ = _
            rw [hget, if_pos hd.2.2.2.2]
          · intro a b hab hne
            show (game.graph.set_node_value xy.1 xy.2 _).get_node_value _ _ = _
            rw [hget, if_neg (fun heq => hne (hother a b hab heq))]
  obtain ⟨c1, c2, c3⟩ := core
  refine ⟨c1, c2, hcol, ?_, c3, ?_⟩
  · intro a b hab hne
    rcases c3 with ⟨r, q, _, hrq, _, hrest⟩ | ⟨hsame, _⟩
    · apply hrest a b hab
      intro heq
      rw [Prod.mk.injEq] at heq
      rw [heq.1, heq.2] at hne
      exact hne hrq
    · rw [hsame]
  · intro hs
    rcases c3 with hone | ⟨_, k, hk⟩
    · exact hone
    · exact absurd hk (hs k)

/-- C13 (the code at the failing input): on the empty board of side 3 with Blue to move,
the pair `(3, 0)`, whose row is outside `[0, 3)`, passes the range test `x > size()`; its
flat index 9 is one past the nine cells, so `is_valid_move` reads outside the vector; when
it finds Empty there, `do_move` accepts the pair and negates the flag, and all nine cells of
the board are Empty as before: no cell has changed from Empty to Blue. -/
theorem do_move_accepts_row_past_end :
    ¬ ((3 : Int) < 0 ∨ (3 : Int) > (HexBoard.init 3 ⟨"red", node.red⟩ ⟨"blue", node.blue⟩).size
        ∨ (0 : Int) < 0 ∨ (0 : Int) > (HexBoard.init 3 ⟨"red", node.red⟩ ⟨"blue", node.blue⟩).size)
    ∧ (HexBoard.init 3 ⟨"red", node.red⟩ ⟨"blue", node.blue⟩).is_valid_move 3 0 = none
    ∧ ∃ game2 : HexBoard,
        (HexBoard.init 3 ⟨"red", node.red⟩ ⟨"blue", node.blue⟩).do_move (fun _ => node.empty)
            [(3, 0)] = some game2
        ∧ game2.active_player = false
        ∧ game2.graph.nodes = List.replicate 9 node.empty
        ∧ game2.graph.nodes.count node.blue = 0 := by
  refine ⟨by decide, by decide, _, rfl, rfl, ?_, ?_⟩
  · decide
  · decide

/-! ## The column one past the board -/

/-- C20: on a board of side `N >= 2`, for a row `0 <= x < N - 1`, the pair `(x, N)` passes
the range test of `is_valid_move`, and `is_valid_move(x, N)` is true exactly when the cell
`(x + 1, 0)` is Empty; `set_node_value(x, N, colour)` writes `colour` into the cell
`(x + 1, 0)` and changes no other cell; and `do_move`, given the pair `(x, N)` while
`(x + 1, 0)` is Empty, performs that write and negates the flag (whatever lies outside the
vector, which is not read). -/
theorem column_past_end_aliases (game : HexBoard) (hwf : game.graph.wf) (hN : 2 ≤ game.size)
    (x : Int) (hx0 : 0 ≤ x) (hx : x < game.size - 1) :
    game.is_valid_move x game.size
        = some (decide (game.graph.get_node_value (x + 1) 0 = some node.empty))
    ∧ (∀ colour : node,
        (game.set_node_value x game.size colour).graph.get_node_value (x + 1) 0 = some colour
        ∧ ∀ a b : Int, on_board game.size (a, b) → (a, b) ≠ (x + 1, 0) →
            (game.set_node_value x game.size colour).graph.get_node_value a b
              = game.graph.get_node_value a b)
    ∧ (game.graph.get_node_value (x + 1) 0 = some node.empty →
        ∀ (stray : Int → node) (rest : List (Int × Int)),
          game.do_move stray ((x, game.size) :: rest)
          = some { game.set_node_value x game.size (game.players game.active_player).value with
              active_player := !game.active_player }) := by
  have hN2 : 2 ≤ game.graph.size := hN
  have hx2 : x < game.graph.size - 1 := hx
  have hidx : x * game.graph.size + game.graph.size = (x + 1) * game.graph.size + 0 := by ring
  have hb : on_board game.graph.size (x + 1, 0) := ⟨by omega, by omega, le_refl 0, by omega⟩
  have hk := flat_compose hb.1 hb.2.1 hb.2.2.1 hb.2.2.2
  have hread : game.graph.get_node_value x game.graph.size
      = game.graph.get_node_value (x + 1) 0 := by
    unfold Graph.get_node_value
    rw [hidx]
  have hvalid : game.is_valid_move x game.size
      = some (decide (game.graph.get_node_value (x + 1) 0 = some node.empty)) := by
    unfold HexBoard.is_valid_move
    have hrange : ¬ (x < 0 ∨ x > game.size ∨ game.size < 0 ∨ game.size > game.size) := by
      show ¬ (x < 0 ∨ x > game.graph.size ∨ game.graph.size < 0
        ∨ game.graph.size > game.graph.size)
      omega
    rw [if_neg hrange]
    show (match game.graph.get_node_value x game.graph.size with
      | none => none
      | some v => if v ≠ node.empty then some false else some true) = _
    rw [hread]
    obtain ⟨v, hv, _⟩ := get_node_value_some hwf hb
    rw [hv]
    cases v <;> simp
  have hget : ∀ (colour : node) (a b : Int),
      (game.graph.set_node_value x game.graph.size colour).get_node_value a b
        = if a * game.graph.size + b = (x + 1) * game.graph.size + 0 then some colour
          else game.graph.get_node_value a b := by
    intro colour a b
    rw [get_set_node_value game.graph hwf x game.graph.size colour
      (by rw [hidx]; exact ⟨hk.1, hk.2.1⟩), hidx]
  refine ⟨hvalid, ?_, ?_⟩
  · intro colour
    constructor
    · show (game.graph.set_node_value x game.graph.size colour).get_node_value _ _ = _
      rw [hget, if_pos rfl]
    · intro a b hab hne
      show (game.graph.set_node_value x game.graph.size colour).get_node_value _ _ = _
      rw [hget, if_neg]
      intro heq
      have := flat_injective (show 0 ≤ b from hab.2.2.1) (show b < game.graph.size from hab.2.2.2)
        hb.2.2.1 hb.2.2.2 heq
      exact hne (Prod.ext this.1 this.2)
  · intro he stray rest
    rw [HexBoard.do_move]
    simp only
    rw [hvalid, he]
    simp

theorem column_past_end_aliases_witness :
    (HexBoard.init 3 ⟨"red", node.red⟩ ⟨"blue", node.blue⟩).is_valid_move 0
        (HexBoard.init 3 ⟨"red", node.red⟩ ⟨"blue", node.blue⟩).size
      = some (decide ((HexBoard.init 3 ⟨"red", node.red⟩ ⟨"blue", node.blue⟩).graph.get_node_value
          (0 + 1) 0 = some node.empty)) :=
  (column_past_end_aliases (HexBoard.init 3 ⟨"red", node.red⟩ ⟨"blue", node.blue⟩)
    ⟨by decide, by decide⟩ (by decide) 0 (by decide) (by decide)).1

section FrontierFacts

variable {T : Type} [DecidableEq T]

/-! ## The order of the frontier -/

/-- The invariant of the search is kept by a step that takes any stored entry `u`,
whatever the order of the entries `rest` that stay. -/
theorem search_inv_step_rest {g : Graph T} {c : T} {s d : Int} {vis : List Bool}
    {q : List Int} (inv : search_inv g c s d vis q) {u : Int} (hmem : u ∈ q) (hne : u ≠ d)
    (hu : 0 ≤ u ∧ u.toNat < vis.length) (rest : List Int) (h1 : ∀ v ∈ rest, v ∈ q)
    (h2 : ∀ v ∈ q, v ≠ u → v ∈ rest) :
    search_inv g c s d (vis.set u.toNat true)
      (push_unvisited (vis.set u.toNat true) rest (g.neighbors u c)) := by
  have hkeep : ∀ v, v ∈ q → vec_get (vis.set u.toNat true) v = some true ∨
      v ∈ push_unvisited (vis.set u.toNat true) rest (g.neighbors u c) := by
    intro v hv
    by_cases hvu : v = u
    · left
      rw [vec_get_mark vis hu, if_pos hvu]
    · right
      rw [mem_push_unvisited]
      exact Or.inl (h2 v hv hvu)
  have hmono : ∀ v, vec_get vis v = some true → vec_get (vis.set u.toNat true) v = some true := by
    intro v hv
    rw [vec_get_mark vis hu]
    split
    · rfl
    · exact hv
  constructor
  · rw [List.length_set]
    exact inv.len
  · intro v hv
    rw [mem_push_unvisited] at hv
    rcases hv with hv | ⟨hv, _⟩
    · exact inv.queue_ok v (h1 v hv)
    · exact ⟨neighbors_in_range g c u v hv, (inv.queue_ok u hmem).2.tail hv⟩
  · intro w hw
    rw [vec_get_mark vis hu] at hw
    by_cases hwu : w = u
    · subst hwu
      refine ⟨hne, ?_⟩
      intro v hv
      have hr := neighbors_in_range g c w v hv
      have hlen : v.toNat < (vis.set w.toNat true).length := by
        rw [List.length_set, inv.len]
        have h1 := hr.1
        have h2 := hr.2
        omega
      rcases vec_get_in_bounds hr.1 hlen with h | h
      · exact Or.inl h
      · right
        rw [mem_push_unvisited]
        exact Or.inr ⟨hv, h⟩
    · rw [if_neg hwu] at hw
      obtain ⟨h3, h4⟩ := inv.closed w hw
      refine ⟨h3, ?_⟩
      intro v hv
      rcases h4 v hv with h | h
      · exact Or.inl (hmono v h)
      · exact hkeep v h
  · rcases inv.source with h | h
    · exact Or.inl (hmono s h)
    · exact hkeep s h

theorem search_loop_stop (g : Graph T) (pick : List Int → Nat) (d : Int) (c : T)
    (vis : List Bool) (q : List Int) (h : ¬ pick q < q.length) :
    g.search_loop pick d c vis q = false := by
  rw [Graph.search_loop, dif_neg h]

theorem search_loop_found (g : Graph T) (pick : List Int → Nat) (d : Int) (c : T)
    (vis : List Bool) (q : List Int) (h : pick q < q.length) (hd : q[pick q] = d) :
    g.search_loop pick d c vis q = true := by
  rw [Graph.search_loop, dif_pos h, if_pos hd]

theorem search_loop_step (g : Graph T) (pick : List Int → Nat) (d : Int) (c : T)
    (vis : List Bool) (q : List Int) (h : pick q < q.length) (hd : ¬ q[pick q] = d)
    (hu : 0 ≤ q[pick q] ∧ (q[pick q]).toNat < vis.length) :
    g.search_loop pick d c vis q
      = g.search_loop pick d c (vis.set (q[pick q]).toNat true)
          (push_unvisited (vis.set (q[pick q]).toNat true) (q.eraseIdx (pick q))
            (g.neighbors q[pick q] c)) := by
  rw [Graph.search_loop, dif_pos h, if_neg hd, dif_pos hu]

/-- Under the invariant, the search answers whether `d` is reachable from `s`, for every
discipline that takes some stored entry whenever the frontier is not empty. -/
theorem search_loop_correct (g : Graph T) (c : T) (s d : Int) (pick : List Int → Nat)
    (hpick : ∀ q : List Int, q ≠ [] → pick q < q.length) (vis : List Bool) (q : List Int)
    (inv : search_inv g c s d vis q) :
    g.search_loop pick d c vis q = true ↔ Relation.ReflTransGen (edge g c) s d := by
  induction vis, q using Graph.search_loop.induct g pick d c with
  | case1 vis q hq hd =>
    rw [search_loop_found g pick d c vis q hq hd]
    have hmem : d ∈ q := hd ▸ List.getElem_mem hq
    simp [(inv.queue_ok d hmem).2]
  | case2 vis q hq hd hu ih =>
    rw [search_loop_step g pick d c vis q hq hd hu]
    apply ih
    refine search_inv_step_rest inv (List.getElem_mem hq) hd hu _
      (fun v hv => List.mem_of_mem_eraseIdx hv) ?_
    intro v hv hne
    obtain ⟨j, hj, hjv⟩ := List.getElem_of_mem hv
    rw [List.mem_eraseIdx_iff_getElem]
    refine ⟨j, hj, ?_, hjv⟩
    intro hji
    subst hji
    exact hne hjv.symm
  | case3 vis q hq hd hu =>
    exfalso
    have hr := (inv.queue_ok _ (List.getElem_mem hq)).1
    apply hu
    rw [inv.len]
    have h1 := hr.1
    have h2 := hr.2
    omega
  | case4 vis q hq =>
    rw [search_loop_stop g pick d c vis q hq]
    have hq2 : q = [] := by
      by_contra hne
      exact hq (hpick q hne)
    subst hq2
    have hs : vec_get vis s = some true := by
      rcases inv.source with h | h
      · exact h
      · cases h
    have hall : ∀ v, Relation.ReflTransGen (edge g c) s v → vec_get vis v = some true := by
      intro v hv
      induction hv with
      | refl => exact hs
      | tail _ hbc ih =>
        rcases (inv.closed _ ih).2 _ hbc with h | h
        · exact h
        · cases h
    constructor
    · intro h
      cases h
    · intro h
      exact absurd rfl (inv.closed d (hall d h)).1

theorem is_connected_with_eq (g : Graph T) (c : T) (s d : Int) (hwf : g.wf)
    (hs : in_range g s) (pick : List Int → Nat)
    (hpick : ∀ q : List Int, q ≠ [] → pick q < q.length) :
    g.is_connected_with pick s d c = g.is_connected s d c := by
  have hN : 0 < g.size := by have := hwf.1; omega
  rw [Bool.eq_iff_iff, is_connected_iff_reach g c s d hwf hs]
  have hc := flat_cell_of hN hs.1 hs.2
  unfold Graph.is_connected_with
  rw [Int.tdiv_eq_ediv hs.1 hN.le, Int.tmod_eq_emod hs.1 hN.le]
  by_cases hv : g.get_node_value (s / g.size) (s % g.size) = some c
  · rw [if_neg (not_not.2 hv)]
    have inv : search_inv g c s d (List.replicate (g.size * g.size).toNat false) [s] := by
      constructor
      · simp
      · intro v hv
        rw [List.mem_singleton] at hv
        subst hv
        exact ⟨hs, Relation.ReflTransGen.refl⟩
      · intro u hu
        exact absurd hu (vec_get_replicate_false _ u)
      · exact Or.inr (List.mem_singleton.2 rfl)
    rw [search_loop_correct g c s d pick hpick _ _ inv]
    exact ⟨fun h => ⟨⟨hc.1, hv⟩, h⟩, fun h => h.2⟩
  · rw [if_pos hv]
    constructor
    · intro h
      cases h
    · intro h
      exact absurd h.1.2 hv

/-- C15: on a board of side `N >= 1`, for an in-range `source` and any `destination` (in
range or not), the search
as written (largest stored index first, nodes marked visited when popped) returns the same
boolean as the same search run with a plain FIFO queue and as the same search run with a
LIFO stack, and as the search run with any discipline that takes some stored entry
whenever the frontier is not empty. -/
theorem frontier_order_irrelevant (g : Graph T) (c : T) (source destination : Int)
    (hwf : g.wf) (hs : 0 ≤ source ∧ source < g.size * g.size) :
    g.is_connected source destination c = g.is_connected_fifo source destination c
    ∧ g.is_connected source destination c = g.is_connected_lifo source destination c
    ∧ ∀ pick : List Int → Nat, (∀ q : List Int, q ≠ [] → pick q < q.length) →
        g.is_connected source destination c = g.is_connected_with pick source destination c := by
  refine ⟨?_, ?_, ?_⟩
  · unfold Graph.is_connected_fifo
    refine (is_connected_with_eq g c source destination hwf hs _ ?_).symm
    intro q hq
    exact List.length_pos.2 hq
  · unfold Graph.is_connected_lifo
    refine (is_connected_with_eq g c source destination hwf hs _ ?_).symm
    intro q hq
    have := List.length_pos.2 hq
    omega
  · intro pick hpick
    exact (is_connected_with_eq g c source destination hwf hs pick hpick).symm

theorem frontier_order_irrelevant_witness :
    (Graph.init 2 node.red).is_connected 0 3 node.red
      = (Graph.init 2 node.red).is_connected_fifo 0 3 node.red
    ∧ (Graph.init 2 node.red).is_connected 0 3 node.red
      = (Graph.init 2 node.red).is_connected_lifo 0 3 node.red :=
  ⟨(frontier_order_irrelevant (Graph.init 2 node.red) node.red 0 3 ⟨by decide, by decide⟩
      ⟨by decide, by decide⟩).1,
    (frontier_order_irrelevant (Graph.init 2 node.red) node.red 0 3 ⟨by decide, by decide⟩
      ⟨by decide, by decide⟩).2.1⟩

/-! ## Termination of the search loop -/

/-- C18: the `while` loop of `is_connected` ends from every state `visited`, `queue` (in
particular from the start state of an in-range source on a board of side `N >= 1`): there
is a number of iterations after which the loop as written has returned, and what it
returns is the value of the total function `is_connected_loop`, which is defined by
recursion on a measure and takes no iteration bound. -/
theorem is_connected_loop_terminates (g : Graph T) (destination : Int) (color : T)
    (visited : List Bool) (queue : List Int) :
    ∃ n : Nat, ∀ fuel : Nat, n ≤ fuel →
      g.is_connected_loop_fuel destination color fuel visited queue
        = some (g.is_connected_loop destination color visited queue) := by
  induction visited, queue using Graph.is_connected_loop.induct g destination color with
  | case1 vis q h =>
    refine ⟨1, fun fuel hf => ?_⟩
    obtain ⟨k, rfl⟩ : ∃ k, fuel = k + 1 := ⟨fuel - 1, by omega⟩
    rw [Graph.is_connected_loop_fuel, h, loop_empty g destination color vis q h]
  | case2 vis q h =>
    refine ⟨1, fun fuel hf => ?_⟩
    obtain ⟨k, rfl⟩ : ∃ k, fuel = k + 1 := ⟨fuel - 1, by omega⟩
    rw [Graph.is_connected_loop_fuel, h, loop_found g destination color vis q h]
    simp
  | case3 vis q u h hne hu ih =>
    obtain ⟨n, hn⟩ := ih
    refine ⟨n + 1, fun fuel hf => ?_⟩
    obtain ⟨k, rfl⟩ : ∃ k, fuel = k + 1 := ⟨fuel - 1, by omega⟩
    rw [Graph.is_connected_loop_fuel, h, loop_step g destination color vis q u h hne hu]
    simp only [hne, if_false, hu, and_self, if_true]
    exact hn k (by omega)
  | case4 vis q u h hne hu =>
    refine ⟨1, fun fuel hf => ?_⟩
    obtain ⟨k, rfl⟩ : ∃ k, fuel = k + 1 := ⟨fuel - 1, by omega⟩
    rw [Graph.is_connected_loop_fuel, h]
    simp only [hne, if_false, hu]
    rw [Graph.is_connected_loop]
    split
    · rename_i h2
      simp [h] at h2
    · rename_i u2 h2
      rw [h] at h2
      cases h2
      simp [hne, hu]

end FrontierFacts

/-! ## `fill_board` -/

theorem fill_board_step (game : HexBoard) (draws : List Int) (h : game.has_any = true)
    (xy : Int × Int) (rest : List Int) (hs : sample_valid game draws = some (xy, rest)) :
    MonteCarloComputerPlayer.fill_board game draws
      = MonteCarloComputerPlayer.fill_board
          (game.next_player.1.set_node_value xy.1 xy.2 game.next_player.2.value) rest := by
  rw [MonteCarloComputerPlayer.fill_board, if_pos h]
  split
  · rename_i h2
    rw [hs] at h2
    cases h2
  · rename_i xy2 rest2 h2
    rw [hs] at h2
    cases h2
    rfl

theorem fill_board_starved (game : HexBoard) (draws : List Int) (h : game.has_any = true)
    (hs : sample_valid game draws = none) :
    MonteCarloComputerPlayer.fill_board game draws = none := by
  rw [MonteCarloComputerPlayer.fill_board, if_pos h]
  split
  · rfl
  · rename_i xy2 rest2 h2
    rw [hs] at h2
    cases h2

theorem sample_valid_rest (game : HexBoard) :
    ∀ (n : Nat) (draws : List Int), draws.length ≤ n →
      ∀ (xy : Int × Int) (rest : List Int), sample_valid game draws = some (xy, rest) →
        rest.length < draws.length ∧ ∀ d ∈ rest, d ∈ draws := by
  intro n
  induction n with
  | zero =>
    intro draws hn xy rest h
    cases draws with
    | nil => simp [sample_valid] at h
    | cons a t => simp at hn
  | succ n ih =>
    intro draws hn xy rest h
    rcases draws with _ | ⟨a, _ | ⟨b, t⟩⟩
    · simp [sample_valid] at h
    · simp [sample_valid] at h
    · rw [sample_valid] at h
      split at h
      · cases h
        exact ⟨by simp; omega, fun d hd => by simp [hd]⟩
      · have := ih t (by simp at hn; omega) xy rest h
        exact ⟨by simp; omega, fun d hd => by simp [this.2 d hd]⟩
      · cases h

/-- The effect on the cell counts of writing a colour into an Empty cell of the board. -/
theorem place_counts (g : Graph node) (hwf : g.wf) {x y : Int} (hb : on_board g.size (x, y))
    (he : g.get_node_value x y = some node.empty) (c : node) (hc : c ≠ node.empty) :
    (g.set_node_value x y c).nodes.count node.empty + 1 = g.nodes.count node.empty
    ∧ (g.set_node_value x y c).nodes.count c = g.nodes.count c + 1
    ∧ (∀ c2 : node, c2 ≠ c → c2 ≠ node.empty →
        (g.set_node_value x y c).nodes.count c2 = g.nodes.count c2)
    ∧ (∀ (i : Nat) (v : node), g.nodes[i]? = some v → v ≠ node.empty →
        (g.set_node_value x y c).nodes[i]? = some v) := by
  have hk := flat_compose (show 0 ≤ x from hb.1) (show x < g.size from hb.2.1)
    (show 0 ≤ y from hb.2.2.1) (show y < g.size from hb.2.2.2)
  have hlt : (x * g.size + y).toNat < g.nodes.length := (flat_in_bounds hwf ⟨hk.1, hk.2.1⟩).2
  have hold : g.nodes[(x * g.size + y).toNat] = node.empty := by
    unfold Graph.get_node_value vec_get at he
    rw [if_pos hk.1, List.getElem?_eq_getElem hlt] at he
    exact Option.some.inj he
  have hpos : 0 < g.nodes.count node.empty := by
    rw [List.count_pos_iff, ← hold]
    exact List.getElem_mem hlt
  have hnodes : (g.set_node_value x y c).nodes = g.nodes.set (x * g.size + y).toNat c := by
    unfold Graph.set_node_value vec_put
    simp [hk.1]
  rw [hnodes]
  refine ⟨?_, ?_, ?_, ?_⟩
  · rw [List.count_set _ _ _ _ hlt, hold]
    have : (c == node.empty) = false := by simpa using hc
    simp [this]
    omega
  · rw [List.count_set _ _ _ _ hlt, hold]
    have : (node.empty == c) = false := by simpa using hc.symm
    simp [this]
  · intro c2 h1 h2
    rw [List.count_set _ _ _ _ hlt, hold]
    have e1 : (node.empty == c2) = false := by simpa using h2.symm
    have e2 : (c == c2) = false := by simpa using h1.symm
    simp [e1, e2]
  · intro i v hi hv
    rw [List.getElem?_set]
    split
    · rename_i heq
      subst heq
      rw [List.getElem?_eq_getElem hlt, hold] at hi
      exact absurd (Option.some.inj hi).symm hv
    · exact hi

theorem players_values (game : HexBoard) (hred : game.players0.value = node.red)
    (hblue : game.players1.value = node.blue) (a : Bool) :
    (game.players a).value ≠ node.empty
    ∧ (game.players a).value ≠ (game.players (!a)).value := by
  cases a <;> simp [HexBoard.players, hred, hblue]

/-- What `fill_board` leaves behind when it returns: no Empty cell, the cells that were not
Empty as they were, and the colours counted as alternate placements that start with the
player who was not active. -/
theorem fill_board_result :
    ∀ (n : Nat) (game : HexBoard) (draws : List Int), draws.length ≤ n → game.graph.wf →
      game.players0.value = node.red → game.players1.value = node.blue →
      (∀ d ∈ draws, 0 ≤ d ∧ d ≤ game.size - 1) →
      ∀ (game2 : HexBoard) (rest : List Int),
        MonteCarloComputerPlayer.fill_board game draws = some (game2, rest) →
        game2.graph.size = game.graph.size
        ∧ game2.players0 = game.players0 ∧ game2.players1 = game.players1
        ∧ game2.graph.nodes.length = game.graph.nodes.length
        ∧ game2.graph.nodes.count node.empty = 0
        ∧ game2.graph.nodes.count (game.players (!game.active_player)).value
            = game.graph.nodes.count (game.players (!game.active_player)).value
              + (game.graph.nodes.count node.empty + 1) / 2
        ∧ game2.graph.nodes.count (game.players game.active_player).value
            = game.graph.nodes.count (game.players game.active_player).value
              + game.graph.nodes.count node.empty / 2
        ∧ game2.active_player
            = (if game.graph.nodes.count node.empty % 2 = 0 then game.active_player
               else !game.active_player)
        ∧ (∀ (i : Nat) (v : node), game.graph.nodes[i]? = some v → v ≠ node.empty →
            game2.graph.nodes[i]? = some v)
        ∧ (∀ d ∈ rest, d ∈ draws) := by
  intro n
  induction n with
  | zero =>
    intro game draws hn hwf hred hblue hd game2 rest h
    have hnil : draws = [] := List.length_eq_zero.1 (Nat.le_zero.1 hn)
    subst hnil
    by_cases hany : game.has_any = true
    · rw [fill_board_starved game [] hany rfl] at h
      cases h
    · have hany2 : game.has_any = false := by simpa using hany
      rw [fill_board_full game [] hany2] at h
      cases h
      have hc : game.graph.nodes.count node.empty = 0 := by
        rw [List.count_eq_zero]
        intro hmem
        exact hany ((has_any_iff_mem game.graph node.empty).2 hmem)
      refine ⟨rfl, rfl, rfl, rfl, hc, ?_, ?_, ?_, fun _ _ h _ => h, fun _ h => h⟩
      · rw [hc]
        rfl
      · rw [hc]
        rfl
      · rw [hc]
        rfl
  | succ n ih =>
    intro game draws hn hwf hred hblue hd game2 rest h
    by_cases hany : game.has_any = true
    · cases hs : sample_valid game draws with
      | none =>
        rw [fill_board_starved game draws hany hs] at h
        cases h
      | some r =>
        obtain ⟨xy, rest1⟩ := r
        rw [fill_board_step game draws hany xy rest1 hs] at h
        have hsound := sample_valid_sound game hwf draws.length draws (le_refl _) hd xy rest1 hs
        have hrest := sample_valid_rest game draws.length draws (le_refl _) xy rest1 hs
        have hpv := players_values game hred hblue
        have hcnt := place_counts game.graph hwf
          (show on_board game.graph.size (xy.1, xy.2) from hsound.1) hsound.2
          (game.players (!game.active_player)).value (hpv (!game.active_player)).1
        have hwf1 := set_node_value_wf game.graph hwf xy.1 xy.2
          (game.players (!game.active_player)).value
        have key := ih (game.next_player.1.set_node_value xy.1 xy.2 game.next_player.2.value)
          rest1 (by have := hrest.1; omega) hwf1 hred hblue
          (fun d hdm => hd d (hrest.2 d hdm)) game2 rest h
        obtain ⟨k1, k2, k3, k4, k5, k6, k7, k8, k9, k10⟩ := key
        have hlen : (game.graph.set_node_value xy.1 xy.2
            (game.players (!game.active_player)).value).nodes.length
            = game.graph.nodes.length := by
          rw [hwf1.2, hwf.2]
          rfl
        have e1 : (game.next_player.1.set_node_value xy.1 xy.2
            game.next_player.2.value).graph
            = game.graph.set_node_value xy.1 xy.2 (game.players (!game.active_player)).value :=
          rfl
        have e2 : (game.next_player.1.set_node_value xy.1 xy.2
            game.next_player.2.value).active_player = !game.active_player := rfl
        have e3 : ∀ b, (game.next_player.1.set_node_value xy.1 xy.2
            game.next_player.2.value).players b = game.players b := fun _ => rfl
        rw [e1] at k4 k6 k7 k8 k9
        rw [e2] at k6 k7 k8
        rw [e3] at k6 k7
        rw [Bool.not_not] at k6
        have hsame := hcnt.2.2.1 (game.players game.active_player).value
          (hpv game.active_player).2 (hpv game.active_player).1
        refine ⟨k1, k2, k3, k4.trans hlen, k5, ?_, ?_, ?_, ?_, fun d hdm => hrest.2 d (k10 d hdm)⟩
        · rw [k7, hcnt.2.1]
          have := hcnt.1
          omega
        · rw [k6, hsame]
          have := hcnt.1
          omega
        · rw [k8]
          have := hcnt.1
          have hk : game.graph.nodes.count node.empty
              = (game.graph.set_node_value xy.1 xy.2
                  (game.players (!game.active_player)).value).nodes.count node.empty + 1 := by
            omega
          rw [hk]
          by_cases hpar : (game.graph.set_node_value xy.1 xy.2
              (game.players (!game.active_player)).value).nodes.count node.empty % 2 = 0
          · have h2 : ¬ ((game.graph.set_node_value xy.1 xy.2
                (game.players (!game.active_player)).value).nodes.count node.empty + 1) % 2 = 0 := by
              omega
            rw [if_pos hpar, if_neg h2]
          · have h2 : ((game.graph.set_node_value xy.1 xy.2
                (game.players (!game.active_player)).value).nodes.count node.empty + 1) % 2 = 0 := by
              omega
            rw [if_neg hpar, if_pos h2, Bool.not_not]
        · intro i v hi hv
          exact k9 i v (hcnt.2.2.2 i v hi hv) hv
    · have hany2 : game.has_any = false := by simpa using hany
      rw [fill_board_full game draws hany2] at h
      cases h
      have hc : game.graph.nodes.count node.empty = 0 := by
        rw [List.count_eq_zero]
        intro hmem
        exact hany ((has_any_iff_mem game.graph node.empty).2 hmem)
      refine ⟨rfl, rfl, rfl, rfl, hc, ?_, ?_, ?_, fun _ _ h _ => h, fun _ h => h⟩
      · rw [hc]
        rfl
      · rw [hc]
        rfl
      · rw [hc]
        rfl

theorem sample_valid_append (game : HexBoard) (more : List Int) :
    ∀ (n : Nat) (draws : List Int), draws.length ≤ n →
      ∀ (xy : Int × Int) (rest : List Int), sample_valid game draws = some (xy, rest) →
        sample_valid game (draws ++ more) = some (xy, rest ++ more) := by
  intro n
  induction n with
  | zero =>
    intro draws hn xy rest h
    cases draws with
    | nil => simp [sample_valid] at h
    | cons a t => simp at hn
  | succ n ih =>
    intro draws hn xy rest h
    rcases draws with _ | ⟨a, _ | ⟨b, t⟩⟩
    · simp [sample_valid] at h
    · simp [sample_valid] at h
    · rw [sample_valid] at h
      rw [List.cons_append, List.cons_append, sample_valid]
      cases hv : game.is_valid_move a b with
      | none => rw [hv] at h; cases h
      | some v =>
        rw [hv] at h
        cases v with
        | true =>
          simp only [Option.some.injEq, Prod.mk.injEq] at h
          obtain ⟨h1, h2⟩ := h
          subst h1
          subst h2
          rfl
        | false =>
          exact ih t (by simp at hn; omega) xy rest h

theorem fill_board_append (more : List Int) :
    ∀ (n : Nat) (game : HexBoard) (draws : List Int), draws.length ≤ n →
      ∀ (game2 : HexBoard) (rest : List Int),
        MonteCarloComputerPlayer.fill_board game draws = some (game2, rest) →
        MonteCarloComputerPlayer.fill_board game (draws ++ more) = some (game2, rest ++ more) := by
  intro n
  induction n with
  | zero =>
    intro game draws hn game2 rest h
    have hnil : draws = [] := List.length_eq_zero.1 (Nat.le_zero.1 hn)
    subst hnil
    by_cases hany : game.has_any = true
    · rw [fill_board_starved game [] hany rfl] at h
      cases h
    · have hany2 : game.has_any = false := by simpa using hany
      rw [fill_board_full game [] hany2] at h
      cases h
      exact fill_board_full game _ hany2
  | succ n ih =>
    intro game draws hn game2 rest h
    by_cases hany : game.has_any = true
    · cases hs : sample_valid game draws with
      | none =>
        rw [fill_board_starved game draws hany hs] at h
        cases h
      | some r =>
        obtain ⟨xy, rest1⟩ := r
        rw [fill_board_step game draws hany xy rest1 hs] at h
        have hrest := sample_valid_rest game draws.length draws (le_refl _) xy rest1 hs
        rw [fill_board_step game (draws ++ more) hany xy (rest1 ++ more)
          (sample_valid_append game more draws.length draws (le_refl _) xy rest1 hs)]
        exact ih _ rest1 (by have := hrest.1; omega) game2 rest h
    · have hany2 : game.has_any = false := by simpa using hany
      rw [fill_board_full game draws hany2] at h
      cases h
      exact fill_board_full game _ hany2

/-- Progress of `fill_board`: on every board there are draws from `[0, N - 1]` on which the
loop finishes, having used all of them. -/
theorem fill_board_returns :
    ∀ (k : Nat) (game : HexBoard), game.graph.wf →
      game.players0.value = node.red → game.players1.value = node.blue →
      game.graph.nodes.count node.empty = k →
      ∃ draws : List Int, (∀ d ∈ draws, 0 ≤ d ∧ d ≤ game.size - 1) ∧ draws.length = 2 * k
        ∧ ∃ game2 : HexBoard, MonteCarloComputerPlayer.fill_board game draws = some (game2, []) := by
  intro k
  induction k with
  | zero =>
    intro game hwf hred hblue hk
    have hany2 : game.has_any = false := by
      rw [← Bool.not_eq_true]
      intro hany
      exact (List.count_eq_zero.1 hk) ((has_any_iff_mem game.graph node.empty).1 hany)
    exact ⟨[], fun d hd => absurd hd (List.not_mem_nil d), rfl, game, fill_board_full game [] hany2⟩
  | succ k ih =>
    intro game hwf hred hblue hk
    have hmem : node.empty ∈ game.graph.nodes := by
      rw [← List.count_pos_iff]
      omega
    have hany : game.has_any = true := (has_any_iff_mem game.graph node.empty).2 hmem
    obtain ⟨x, y, hb, he⟩ := (mem_nodes_iff_cell game.graph hwf node.empty).1 hmem
    have hv : game.is_valid_move x y = some true := by
      rw [is_valid_move_on_board game hwf hb]
      simp [he]
    have hpv := players_values game hred hblue
    have hcnt := place_counts game.graph hwf hb he
      (game.players (!game.active_player)).value (hpv (!game.active_player)).1
    have hwf1 := set_node_value_wf game.graph hwf x y (game.players (!game.active_player)).value
    obtain ⟨draws, hd, hlen, game2, hf⟩ :=
      ih (game.next_player.1.set_node_value x y game.next_player.2.value) hwf1 hred hblue
        (by have := hcnt.1
            show (game.graph.set_node_value x y
              (game.players (!game.active_player)).value).nodes.count node.empty = k
            omega)
    refine ⟨x :: y :: draws, ?_, by simp [hlen]; omega, game2, ?_⟩
    · intro d hdm
      have hx0 : 0 ≤ x := hb.1
      have hx : x < game.graph.size := hb.2.1
      have hy0 : 0 ≤ y := hb.2.2.1
      have hy : y < game.graph.size := hb.2.2.2
      have hsz : game.size = game.graph.size := rfl
      rcases List.mem_cons.1 hdm with rfl | hdm
      · omega
      · rcases List.mem_cons.1 hdm with rfl | hdm
        · omega
        · exact hd d hdm
    · have hs : sample_valid game (x :: y :: draws) = some ((x, y), draws) := by
        rw [sample_valid, hv]
      rw [fill_board_step game (x :: y :: draws) hany (x, y) draws hs]
      exact hf

theorem trials_count (value : node) (game : HexBoard) (x y : Int) :
    ∀ (k wins : Nat) (draws : List Int),
      MonteCarloComputerPlayer.trials value game x y k wins draws
        = match MonteCarloComputerPlayer.filled_clones value game x y k draws with
          | none => none
          | some (clones, rest) =>
            some (wins + clones.countP (fun c => c.is_over value), rest) := by
  intro k
  induction k with
  | zero =>
    intro wins draws
    simp [MonteCarloComputerPlayer.trials, MonteCarloComputerPlayer.filled_clones]
  | succ k ih =>
    intro wins draws
    rw [MonteCarloComputerPlayer.trials, MonteCarloComputerPlayer.filled_clones]
    cases hf : MonteCarloComputerPlayer.fill_board (game.set_node_value x y value) draws with
    | none => rfl
    | some r =>
      obtain ⟨copy, rest⟩ := r
      simp only
      rw [ih]
      cases hc : MonteCarloComputerPlayer.filled_clones value game x y k rest with
      | none => rfl
      | some r2 =>
        obtain ⟨clones, rest2⟩ := r2
        simp only [List.countP_cons]
        by_cases ho : copy.is_over value = true
        · simp only [ho, if_true]
          congr 2
          omega
        · simp only [ho]
          simp

theorem filled_clones_spec (value : node) (game : HexBoard) (x y : Int) (hwf : game.graph.wf)
    (hred : game.players0.value = node.red) (hblue : game.players1.value = node.blue) :
    ∀ (k : Nat) (draws : List Int), (∀ d ∈ draws, 0 ≤ d ∧ d ≤ game.size - 1) →
      ∀ (clones : List HexBoard) (rest : List Int),
        MonteCarloComputerPlayer.filled_clones value game x y k draws = some (clones, rest) →
        clones.length = k ∧ (∀ c ∈ clones, c.has_any = false) ∧ (∀ d ∈ rest, d ∈ draws) := by
  intro k
  induction k with
  | zero =>
    intro draws _ clones rest h
    simp only [MonteCarloComputerPlayer.filled_clones, Option.some.injEq, Prod.mk.injEq] at h
    obtain ⟨h1, h2⟩ := h
    subst h1
    subst h2
    exact ⟨rfl, fun c hc => absurd hc (List.not_mem_nil c), fun d hd => hd⟩
  | succ k ih =>
    intro draws hd clones rest h
    rw [MonteCarloComputerPlayer.filled_clones] at h
    cases hf : MonteCarloComputerPlayer.fill_board (game.set_node_value x y value) draws with
    | none => rw [hf] at h; cases h
    | some r =>
      obtain ⟨copy, rest1⟩ := r
      rw [hf] at h
      simp only at h
      cases hc : MonteCarloComputerPlayer.filled_clones value game x y k rest1 with
      | none => rw [hc] at h; cases h
      | some r2 =>
        obtain ⟨clones1, rest2⟩ := r2
        rw [hc] at h
        simp only [Option.some.injEq, Prod.mk.injEq] at h
        obtain ⟨h1, h2⟩ := h
        subst h1
        subst h2
        have hfr := fill_board_result draws.length (game.set_node_value x y value) draws
          (le_refl _) (set_node_value_wf game.graph hwf x y value) hred hblue hd copy rest1 hf
        obtain ⟨_, _, _, _, k5, _, _, _, _, k10⟩ := hfr
        have hrec := ih rest1 (fun d hdm => hd d (k10 d hdm)) clones1 rest2 hc
        refine ⟨by simp [hrec.1], ?_, fun d hdm => k10 d (hrec.2.2 d hdm)⟩
        intro c hcm
        rcases List.mem_cons.1 hcm with rfl | hcm
        · rw [← Bool.not_eq_true]
          intro hany
          exact (List.count_eq_zero.1 k5) ((has_any_iff_mem c.graph node.empty).1 hany)
        · exact hrec.2.1 c hcm

/-- Progress of the trials: there are draws from `[0, N - 1]` on which all `k` trials finish. -/
theorem filled_clones_returns (value : node) (game : HexBoard) (x y : Int) (hwf : game.graph.wf)
    (hred : game.players0.value = node.red) (hblue : game.players1.value = node.blue) :
    ∀ k : Nat, ∃ draws : List Int, (∀ d ∈ draws, 0 ≤ d ∧ d ≤ game.size - 1)
      ∧ ∃ clones : List HexBoard,
        MonteCarloComputerPlayer.filled_clones value game x y k draws = some (clones, []) := by
  obtain ⟨d0, hd0, _, copy, hf⟩ := fill_board_returns _ (game.set_node_value x y value)
    (set_node_value_wf game.graph hwf x y value) hred hblue rfl
  intro k
  induction k with
  | zero =>
    exact ⟨[], fun d hd => absurd hd (List.not_mem_nil d), [], rfl⟩
  | succ k ih =>
    obtain ⟨draws, hd, clones, hc⟩ := ih
    refine ⟨d0 ++ draws, ?_, copy :: clones, ?_⟩
    · intro d hdm
      rcases List.mem_append.1 hdm with h | h
      · exact hd0 d h
      · exact hd d h
    · rw [MonteCarloComputerPlayer.filled_clones,
        fill_board_append draws d0.length _ d0 (le_refl _) copy [] hf]
      simp only [List.nil_append]
      rw [hc]

/-- Each filled clone is `game` with `value` written at `(x, y)` and the Empty cells filled:
the cells of that board that were not Empty are as they were. -/
theorem filled_clones_cells (value : node) (game : HexBoard) (x y : Int) (hwf : game.graph.wf)
    (hred : game.players0.value = node.red) (hblue : game.players1.value = node.blue) :
    ∀ (k : Nat) (draws : List Int), (∀ d ∈ draws, 0 ≤ d ∧ d ≤ game.size - 1) →
      ∀ (clones : List HexBoard) (rest : List Int),
        MonteCarloComputerPlayer.filled_clones value game x y k draws = some (clones, rest) →
        ∀ c ∈ clones, c.graph.size = game.graph.size
          ∧ ∀ (i : Nat) (v : node), (game.graph.set_node_value x y value).nodes[i]? = some v →
              v ≠ node.empty → c.graph.nodes[i]? = some v := by
  intro k
  induction k with
  | zero =>
    intro draws _ clones rest h
    simp only [MonteCarloComputerPlayer.filled_clones, Option.some.injEq, Prod.mk.injEq] at h
    obtain ⟨h1, h2⟩ := h
    subst h1
    intro c hc
    exact absurd hc (List.not_mem_nil c)
  | succ k ih =>
    intro draws hd clones rest h
    rw [MonteCarloComputerPlayer.filled_clones] at h
    cases hf : MonteCarloComputerPlayer.fill_board (game.set_node_value x y value) draws with
    | none => rw [hf] at h; cases h
    | some r =>
      obtain ⟨copy, rest1⟩ := r
      rw [hf] at h
      simp only at h
      cases hc : MonteCarloComputerPlayer.filled_clones value game x y k rest1 with
      | none => rw [hc] at h; cases h
      | some r2 =>
        obtain ⟨clones1, rest2⟩ := r2
        rw [hc] at h
        simp only [Option.some.injEq, Prod.mk.injEq] at h
        obtain ⟨h1, h2⟩ := h
        subst h1
        subst h2
        have hfr := fill_board_result draws.length (game.set_node_value x y value) draws
          (le_refl _) (set_node_value_wf game.graph hwf x y value) hred hblue hd copy rest1 hf
        obtain ⟨k1, _, _, _, _, _, _, _, k9, k10⟩ := hfr
        intro c hcm
        rcases List.mem_cons.1 hcm with rfl | hcm
        · exact ⟨k1, k9⟩
        · exact ih rest1 (fun d hdm => hd d (k10 d hdm)) clones1 rest2 hc c hcm

/-- C16 (as amended): with Red registered as `_players[0]` and Blue as `_players[1]`, on a
board of side `N >= 1` and a candidate cell `(x, y)` of the board: there are draws from
`[0, N - 1]` on which `do_monte_carlo` returns; and for all draws from `[0, N - 1]`,
whenever `do_monte_carlo` returns, it returns `wins / TRIALS` with `TRIALS = 1000`, where
`wins` is the number of the 1000 trials whose filled clone satisfies `is_over(value)`;
`wins <= 1000` and the returned probability lies in `[0, 1]`.  A filled clone has no Empty
cell, holds `value` at `(x, y)` and the values of `game` at the other cells that were not
Empty.  Every trial starts from the same `game`, which the call does not change. -/
theorem do_monte_carlo_value (value : node) (game : HexBoard) (x y : Int)
    (hwf : game.graph.wf) (hred : game.players0.value = node.red)
    (hblue : game.players1.value = node.blue) (hxy : on_board game.size (x, y)) :
    TRIALS = 1000
    ∧ (∃ draws : List Int, (∀ d ∈ draws, 0 ≤ d ∧ d ≤ game.size - 1)
        ∧ MonteCarloComputerPlayer.do_monte_carlo value game x y draws ≠ none)
    ∧ ∀ (draws : List Int), (∀ d ∈ draws, 0 ≤ d ∧ d ≤ game.size - 1) →
      ∀ (p : ℚ) (rest : List Int),
        MonteCarloComputerPlayer.do_monte_carlo value game x y draws = some (p, rest) →
        ∃ clones : List HexBoard,
          MonteCarloComputerPlayer.filled_clones value game x y TRIALS draws = some (clones, rest)
          ∧ clones.length = 1000
          ∧ (∀ c ∈ clones, c.has_any = false
              ∧ (value ≠ node.empty → c.graph.get_node_value x y = some value)
              ∧ ∀ (r q : Int) (v : node), on_board game.size (r, q) → (r, q) ≠ (x, y) →
                  game.graph.get_node_value r q = some v → v ≠ node.empty →
                  c.graph.get_node_value r q = some v)
          ∧ clones.countP (fun c => c.is_over value) ≤ 1000
          ∧ p = (clones.countP (fun c => c.is_over value) : ℚ) / 1000
          ∧ 0 ≤ p ∧ p ≤ 1 := by
  refine ⟨rfl, ?_, ?_⟩
  · obtain ⟨draws, hd, clones, hc⟩ := filled_clones_returns value game x y hwf hred hblue TRIALS
    refine ⟨draws, hd, ?_⟩
    unfold MonteCarloComputerPlayer.do_monte_carlo
    rw [trials_count, hc]
    simp
  intro draws hdraws p rest h
  unfold MonteCarloComputerPlayer.do_monte_carlo at h
  rw [trials_count] at h
  cases hc : MonteCarloComputerPlayer.filled_clones value game x y TRIALS draws with
  | none => rw [hc] at h; cases h
  | some r =>
    obtain ⟨clones, rest1⟩ := r
    rw [hc] at h
    simp only [Option.some.injEq, Prod.mk.injEq] at h
    obtain ⟨h1, h2⟩ := h
    subst h2
    have hspec := filled_clones_spec value game x y hwf hred hblue TRIALS draws hdraws clones
      rest1 hc
    have hcells := filled_clones_cells value game x y hwf hred hblue TRIALS draws hdraws clones
      rest1 hc
    have hlen : clones.length = 1000 := hspec.1
    have hle : clones.countP (fun c => c.is_over value) ≤ 1000 := by
      rw [← hlen]
      exact List.countP_le_length _
    have hp : p = (clones.countP (fun c => c.is_over value) : ℚ) / 1000 := by
      rw [← h1]
      simp [TRIALS]
    have hkxy := flat_compose (show 0 ≤ x from hxy.1) (show x < game.graph.size from hxy.2.1)
      (show 0 ≤ y from hxy.2.2.1) (show y < game.graph.size from hxy.2.2.2)
    have hread : ∀ (c : HexBoard), c ∈ clones → ∀ (r q : Int) (v : node),
        on_board game.size (r, q) →
        (game.graph.set_node_value x y value).get_node_value r q = some v → v ≠ node.empty →
        c.graph.get_node_value r q = some v := by
      intro c hcm r q v hb hv hne
      have hk := flat_compose (show 0 ≤ r from hb.1) (show r < game.graph.size from hb.2.1)
        (show 0 ≤ q from hb.2.2.1) (show q < game.graph.size from hb.2.2.2)
      unfold Graph.get_node_value vec_get at hv ⊢
      rw [(hcells c hcm).1, if_pos hk.1]
      have hsz : (game.graph.set_node_value x y value).size = game.graph.size := rfl
      rw [hsz, if_pos hk.1] at hv
      exact (hcells c hcm).2 _ v hv hne
    refine ⟨clones, rfl, hlen, ?_, hle, hp, ?_, ?_⟩
    · intro c hcm
      refine ⟨hspec.2.1 c hcm, ?_, ?_⟩
      · intro hval
        apply hread c hcm x y value hxy _ hval
        rw [get_set_node_value game.graph hwf x y value ⟨hkxy.1, hkxy.2.1⟩, if_pos rfl]
      · intro r q v hb hne hv hve
        apply hread c hcm r q v hb _ hve
        rw [get_set_node_value game.graph hwf x y value ⟨hkxy.1, hkxy.2.1⟩, if_neg, hv]
        intro heq
        have := flat_injective (show 0 ≤ q from hb.2.2.1) (show q < game.graph.size from hb.2.2.2)
          (show 0 ≤ y from hxy.2.2.1) (show y < game.graph.size from hxy.2.2.2) heq
        exact hne (Prod.ext this.1 this.2)
    · rw [hp]
      positivity
    · rw [hp, div_le_one (by norm_num)]
      exact_mod_cast hle

theorem do_monte_carlo_value_witness :
    on_board (board2 node.blue node.red node.blue node.empty).size (1, 1)
    ∧ ∃ clones : List HexBoard,
      MonteCarloComputerPlayer.filled_clones node.red
          (board2 node.blue node.red node.blue node.empty) 1 1 TRIALS [] = some (clones, [])
      ∧ clones.length = 1000
      ∧ clones.countP (fun c => c.is_over node.red) ≤ 1000
      ∧ (if (board2 node.blue node.red node.blue node.red).is_over node.red then (1 : ℚ) else 0)
          = (clones.countP (fun c => c.is_over node.red) : ℚ) / 1000 := by
  have hb : on_board (board2 node.blue node.red node.blue node.empty).size (1, 1) := by
    unfold on_board
    decide
  obtain ⟨clones, h1, h2, _, h4, h5, _⟩ :=
    (do_monte_carlo_value node.red (board2 node.blue node.red node.blue node.empty) 1 1
      (board2_wf _ _ _ _) rfl rfl hb).2.2 [] (by decide) _ []
      (do_monte_carlo_full node.red (board2 node.blue node.red node.blue node.empty) 1 1 []
        (by decide))
  exact ⟨hb, clones, h1, h2, h4, h5⟩

/-- C16 (counterexample): the rejection loop does not return on draws that never hit an
Empty cell.  On the board of side 2 with rows `. .` / `O X`, candidate `(0, 0)` for Red,
every draw equal to 1 (the occupied cell `(1, 1)`): there is no number of draws after which
`do_monte_carlo` has returned. -/
theorem do_monte_carlo_starved :
    ¬ ∃ n : Nat, MonteCarloComputerPlayer.do_monte_carlo node.red
      (board2 node.empty node.empty node.blue node.red) 0 0 (List.replicate n 1) ≠ none := by
  rintro ⟨n, hn⟩
  apply hn
  have hsv : ∀ (m n : Nat), n ≤ m →
      sample_valid ((board2 node.empty node.empty node.blue node.red).set_node_value 0 0 node.red)
        (List.replicate n 1) = none := by
    intro m
    induction m with
    | zero =>
      intro n hn
      have : n = 0 := by omega
      subst this
      rfl
    | succ m ih =>
      intro n hn
      rcases n with _ | _ | n
      · rfl
      · rfl
      · rw [List.replicate_succ, List.replicate_succ, sample_valid]
        have hv : ((board2 node.empty node.empty node.blue node.red).set_node_value 0 0
            node.red).is_valid_move 1 1 = some false := by decide
        rw [hv]
        exact ih n (by omega)
  unfold MonteCarloComputerPlayer.do_monte_carlo
  have ht : MonteCarloComputerPlayer.trials node.red
      (board2 node.empty node.empty node.blue node.red) 0 0 TRIALS 0 (List.replicate n 1)
      = none := by
    show MonteCarloComputerPlayer.trials node.red
      (board2 node.empty node.empty node.blue node.red) 0 0 (999 + 1) 0 (List.replicate n 1) = none
    rw [MonteCarloComputerPlayer.trials, fill_board_starved _ _ (by decide) (hsv n n (le_refl n))]
  rw [ht]

/-! ## The Monte Carlo selector at the last Empty cell -/

theorem vec_put_put {A : Type} (v : List A) (k : Int) (a : A) :
    vec_put (vec_put v k a) k a = vec_put v k a := by
  unfold vec_put
  split
  · rw [List.set_set]
  · rfl

theorem check_red_iff_top (game : HexBoard) (hwf : game.graph.wf)
    (hred : game.players0.value = node.red) :
    game.check_red = true ↔
      ∃ y : Int × Int, y.1 = game.graph.size - 1 ∧ top_connected game.graph y := by
  rw [check_red_iff game hwf, hred]
  constructor
  · rintro ⟨i, j, _, _, hp⟩
    have := (path_connected_iff _ _ _ _).1 hp
    exact ⟨(game.size - 1, j), rfl, (0, i), rfl, this.1, this.2⟩
  · rintro ⟨y, hy, t, ht, htr, hty⟩
    have hyr := reach_holds game.graph node.red htr hty
    refine ⟨t.2, y.2, ⟨htr.1.2.2.1, htr.1.2.2.2⟩, ⟨hyr.1.2.2.1, hyr.1.2.2.2⟩, ?_⟩
    have e1 : ((0 : Int), t.2) = t := Prod.ext ht.symm rfl
    have e2 : (game.size - 1, y.2) = y := Prod.ext hy.symm rfl
    rw [e1, e2]
    exact (path_connected_iff _ _ _ _).2 ⟨htr, hty⟩

theorem check_blue_iff_left (game : HexBoard) (hwf : game.graph.wf)
    (hblue : game.players1.value = node.blue) :
    game.check_blue = true ↔
      ∃ y : Int × Int, y.2 = game.graph.size - 1 ∧ left_connected game.graph y := by
  rw [check_blue_iff game hwf, hblue]
  constructor
  · rintro ⟨i, j, _, _, hp⟩
    have := (path_connected_iff _ _ _ _).1 hp
    exact ⟨(j, game.size - 1), rfl, (i, 0), rfl, this.1, this.2⟩
  · rintro ⟨y, hy, t, ht, htr, hty⟩
    have hyr := reach_holds game.graph node.blue htr hty
    refine ⟨t.1, y.1, ⟨htr.1.1, htr.1.2.1⟩, ⟨hyr.1.1, hyr.1.2.1⟩, ?_⟩
    have e1 : (t.1, (0 : Int)) = t := Prod.ext rfl ht.symm
    have e2 : (y.1, game.size - 1) = y := Prod.ext rfl hy.symm
    rw [e1, e2]
    exact (path_connected_iff _ _ _ _).2 ⟨htr, hty⟩

/-- Writing a colour into the only Empty cell of a board leaves no Empty cell. -/
theorem single_empty_filled (g : Graph node) (hwf : g.wf) {r q : Int}
    (hb : on_board g.size (r, q))
    (hone : ∀ a b : Int, on_board g.size (a, b) → g.get_node_value a b = some node.empty →
      a = r ∧ b = q)
    (value : node) (hv : value ≠ node.empty) :
    ∀ v ∈ (g.set_node_value r q value).nodes, v ≠ node.empty := by
  intro v hmem hve
  subst hve
  have hk := flat_compose (show 0 ≤ r from hb.1) (show r < g.size from hb.2.1)
    (show 0 ≤ q from hb.2.2.1) (show q < g.size from hb.2.2.2)
  obtain ⟨a, b, hab, hget⟩ :=
    (mem_nodes_iff_cell _ (set_node_value_wf g hwf r q value) node.empty).1 hmem
  rw [get_set_node_value g hwf r q value ⟨hk.1, hk.2.1⟩] at hget
  split at hget
  · exact hv (Option.some.inj hget)
  · rename_i hne
    have := hone a b hab hget
    exact hne (by rw [this.1, this.2])

/-- A cell that holds `c` after `value` was written at `(r, q)`, `c` another value, held `c`
before. -/
theorem holds_before_set (g : Graph node) (hwf : g.wf) {r q : Int} (hb : on_board g.size (r, q))
    (value c : node) (hc : c ≠ value) {a : Int × Int}
    (ha : holds (g.set_node_value r q value) c a) : holds g c a := by
  have hk := flat_compose (show 0 ≤ r from hb.1) (show r < g.size from hb.2.1)
    (show 0 ≤ q from hb.2.2.1) (show q < g.size from hb.2.2.2)
  refine ⟨ha.1, ?_⟩
  have h2 := ha.2
  rw [get_set_node_value g hwf r q value ⟨hk.1, hk.2.1⟩] at h2
  split at h2
  · exact absurd (Option.some.inj h2).symm hc
  · exact h2

/-- On a board with no Empty cell `check_red` is the negation of `check_blue`. -/
theorem full_board_check_red (game : HexBoard) (hwf : game.graph.wf)
    (hred : game.players0.value = node.red) (hblue : game.players1.value = node.blue)
    (hfull : ∀ v ∈ game.graph.nodes, v ≠ node.empty) :
    game.check_red = !game.check_blue := by
  have hR := check_red_iff_top game hwf hred
  have hB := check_blue_iff_left game hwf hblue
  rw [Bool.eq_iff_iff, Bool.not_eq_true', ← Bool.not_eq_true]
  constructor
  · intro h1 h2
    exact not_both_winners game.graph (hR.1 h1) (hB.1 h2)
  · intro h2
    rcases full_board_has_winner game.graph hwf hfull with h | h
    · exact hR.2 h
    · exact absurd (hB.2 h) h2

/-- The last Empty cell, for Red: after Red is written there `check_red` is true exactly
when `check_blue` was false; for Blue likewise. -/
theorem last_cell_checks (game : HexBoard) (hwf : game.graph.wf)
    (hred : game.players0.value = node.red) (hblue : game.players1.value = node.blue)
    {r q : Int} (hb : on_board game.size (r, q))
    (he : game.graph.get_node_value r q = some node.empty)
    (hone : ∀ a b : Int, on_board game.size (a, b) →
      game.graph.get_node_value a b = some node.empty → a = r ∧ b = q) :
    (game.set_node_value r q node.red).check_red = (!game.check_blue)
    ∧ (game.set_node_value r q node.blue).check_blue = (!game.check_red) := by
  have hwfr := set_node_value_wf game.graph hwf r q node.red
  have hwfb := set_node_value_wf game.graph hwf r q node.blue
  constructor
  · rw [full_board_check_red (game.set_node_value r q node.red) hwfr hred hblue
      (single_empty_filled game.graph hwf hb hone node.red (by decide))]
    congr 1
    rw [Bool.eq_iff_iff]
    constructor
    · intro h
      refine check_blue_mono (game.set_node_value r q node.red) game hwfr hwf rfl rfl ?_ h
      intro a ha
      have e : (game.set_node_value r q node.red).players1.value = node.blue := hblue
      rw [e] at ha ⊢
      exact holds_before_set game.graph hwf hb node.red node.blue (by decide) ha
    · intro h
      refine check_blue_mono game (game.set_node_value r q node.red) hwf hwfr rfl rfl ?_ h
      intro a ha
      rw [hblue] at ha ⊢
      exact holds_after_set game.graph hwf hb node.empty node.blue node.red he (by decide) ha
  · have hfull := full_board_check_red (game.set_node_value r q node.blue) hwfb hred hblue
      (single_empty_filled game.graph hwf hb hone node.blue (by decide))
    have hsame : (game.set_node_value r q node.blue).check_red = game.check_red := by
      rw [Bool.eq_iff_iff]
      constructor
      · intro h
        refine check_red_mono (game.set_node_value r q node.blue) game hwfb hwf rfl rfl ?_ h
        intro a ha
        have e : (game.set_node_value r q node.blue).players0.value = node.red := hred
        rw [e] at ha ⊢
        exact holds_before_set game.graph hwf hb node.blue node.red (by decide) ha
      · intro h
        refine check_red_mono game (game.set_node_value r q node.blue) hwf hwfb rfl rfl ?_ h
        intro a ha
        rw [hred] at ha ⊢
        exact holds_after_set game.graph hwf hb node.empty node.red node.blue he (by decide) ha
    rw [← hsame, hfull]
    simp

/-- The trials at the last Empty cell: all 1000 are won when the opponent `other` has no
winning chain on the board, none otherwise, and no draw is consumed. -/
theorem do_monte_carlo_last_cell (value other : node) (game : HexBoard) (hwf : game.graph.wf)
    (hred : game.players0.value = node.red) (hblue : game.players1.value = node.blue)
    (hvo : (value = node.red ∧ other = node.blue) ∨ (value = node.blue ∧ other = node.red))
    {r q : Int} (hb : on_board game.size (r, q))
    (he : game.graph.get_node_value r q = some node.empty)
    (hone : ∀ a b : Int, on_board game.size (a, b) →
      game.graph.get_node_value a b = some node.empty → a = r ∧ b = q)
    (draws : List Int) :
    MonteCarloComputerPlayer.do_monte_carlo value game r q draws
      = some (if game.is_over other then 0 else 1, draws) := by
  have hv : value ≠ node.empty := by
    rcases hvo with ⟨h, _⟩ | ⟨h, _⟩ <;> rw [h] <;> decide
  have hfull := single_empty_filled game.graph hwf hb hone value hv
  have hany : (game.set_node_value r q value).has_any = false := by
    rw [← Bool.not_eq_true]
    intro h
    have hm := (has_any_iff_mem (game.set_node_value r q value).graph node.empty).1 h
    exact hfull node.empty hm rfl
  rw [do_monte_carlo_full value game r q draws hany]
  have hchk := last_cell_checks game hwf hred hblue hb he hone
  have hover : (game.set_node_value r q value).is_over value = !game.is_over other := by
    rcases hvo with ⟨h1, h2⟩ | ⟨h1, h2⟩
    · subst h1
      subst h2
      simp only [HexBoard.is_over, if_true]
      rw [hchk.1]
      simp
    · subst h1
      subst h2
      simp only [HexBoard.is_over, if_true]
      rw [hchk.2]
      simp
  rw [hover]
  cases game.is_over other <;> simp

/-- The inner loop of `make_move` on a board whose only Empty cell is `(r, q)`, where the
trials at that cell give `p` and use no draw: the entry of `(r, q)` is written when the loop
visits it, nothing else is. -/
theorem fill_row_single (value : node) (game : HexBoard) (hwf : game.graph.wf) {r q : Int}
    (he : game.graph.get_node_value r q = some node.empty)
    (hone : ∀ a b : Int, on_board game.size (a, b) →
      game.graph.get_node_value a b = some node.empty → a = r ∧ b = q)
    (p : ℚ)
    (hmc : ∀ draws, MonteCarloComputerPlayer.do_monte_carlo value game r q draws = some (p, draws))
    (i : Int) (hi : 0 ≤ i ∧ i < game.size) :
    ∀ (js : List Int) (probs : List ℚ) (draws : List Int),
      (∀ j ∈ js, 0 ≤ j ∧ j < game.size) →
      MonteCarloComputerPlayer.fill_row value game i js probs draws
        = some (if i = r ∧ q ∈ js then vec_put probs (r * game.size + q) p else probs, draws) := by
  intro js
  induction js with
  | nil =>
    intro probs draws _
    simp [MonteCarloComputerPlayer.fill_row]
  | cons j js ih =>
    intro probs draws hjs
    have hj := hjs j (List.mem_cons_self _ _)
    have hb : on_board game.size (i, j) := ⟨hi.1, hi.2, hj.1, hj.2⟩
    have hjs2 : ∀ j2 ∈ js, 0 ≤ j2 ∧ j2 < game.size :=
      fun j2 h2 => hjs j2 (List.mem_cons_of_mem _ h2)
    rw [MonteCarloComputerPlayer.fill_row, is_valid_move_on_board game hwf hb]
    by_cases hemp : game.graph.get_node_value i j = some node.empty
    · obtain ⟨hir, hjq⟩ := hone i j hb hemp
      simp only [hemp, decide_True]
      subst hir
      subst hjq
      rw [hmc]
      simp only
      rw [ih _ _ hjs2, vec_put_put]
      simp
    · simp only [hemp, decide_False]
      rw [ih _ _ hjs2]
      by_cases hc : i = r ∧ q ∈ js
      · rw [if_pos hc, if_pos ⟨hc.1, List.mem_cons_of_mem _ hc.2⟩]
      · rw [if_neg hc, if_neg]
        rintro ⟨h1, h2⟩
        rcases List.mem_cons.1 h2 with h3 | h3
        · apply hemp
          rw [h1, ← h3]
          exact he
        · exact hc ⟨h1, h3⟩

theorem fill_rows_single (value : node) (game : HexBoard) (hwf : game.graph.wf) {r q : Int}
    (hb : on_board game.size (r, q))
    (he : game.graph.get_node_value r q = some node.empty)
    (hone : ∀ a b : Int, on_board game.size (a, b) →
      game.graph.get_node_value a b = some node.empty → a = r ∧ b = q)
    (p : ℚ)
    (hmc : ∀ draws, MonteCarloComputerPlayer.do_monte_carlo value game r q draws = some (p, draws)) :
    ∀ (rows : List Int) (probs : List ℚ) (draws : List Int),
      (∀ i ∈ rows, 0 ≤ i ∧ i < game.size) →
      MonteCarloComputerPlayer.fill_rows value game rows probs draws
        = some (if r ∈ rows then vec_put probs (r * game.size + q) p else probs, draws) := by
  intro rows
  induction rows with
  | nil =>
    intro probs draws _
    simp [MonteCarloComputerPlayer.fill_rows]
  | cons i rows ih =>
    intro probs draws hrows
    have hi := hrows i (List.mem_cons_self _ _)
    have hrows2 : ∀ i2 ∈ rows, 0 ≤ i2 ∧ i2 < game.size :=
      fun i2 h2 => hrows i2 (List.mem_cons_of_mem _ h2)
    have hq : q ∈ upto game.size := (mem_upto _ _).2 ⟨hb.2.2.1, hb.2.2.2⟩
    have hrow := fill_row_single value game hwf he hone p hmc i hi (upto game.size) probs draws
      (fun j hj => (mem_upto _ _).1 hj)
    by_cases hir : i = r
    · rw [if_pos ⟨hir, hq⟩] at hrow
      rw [MonteCarloComputerPlayer.fill_rows, hrow]
      simp only
      rw [ih _ _ hrows2, vec_put_put]
      simp [hir]
    · rw [if_neg (fun h => hir h.1)] at hrow
      rw [MonteCarloComputerPlayer.fill_rows, hrow]
      simp only
      rw [ih _ _ hrows2]
      by_cases hr : r ∈ rows
      · rw [if_pos hr, if_pos (List.mem_cons_of_mem _ hr)]
      · rw [if_neg hr, if_neg]
        intro h
        rcases List.mem_cons.1 h with h3 | h3
        · exact hir h3.symm
        · exact hr h3

/-- The selector on a board whose only Empty cell is `(r, q)`, where the trials at that cell
give `p` and use no draw: it returns `(r, q)` when `p` is positive and the `x`, `y` it was
called with when `p` is 0. -/
theorem make_move_single (value : node) (game : HexBoard) (hwf : game.graph.wf) {r q : Int}
    (hb : on_board game.size (r, q))
    (he : game.graph.get_node_value r q = some node.empty)
    (hone : ∀ a b : Int, on_board game.size (a, b) →
      game.graph.get_node_value a b = some node.empty → a = r ∧ b = q)
    (p : ℚ)
    (hmc : ∀ draws, MonteCarloComputerPlayer.do_monte_carlo value game r q draws = some (p, draws))
    (x y : Int) (draws : List Int) :
    MonteCarloComputerPlayer.make_move value game x y draws
      = some (if 0 < p then (r, q) else (x, y), draws) := by
  have hN : 0 < game.graph.size := by have := hwf.1; omega
  have hk := flat_compose (show 0 ≤ r from hb.1) (show r < game.graph.size from hb.2.1)
    (show 0 ≤ q from hb.2.2.1) (show q < game.graph.size from hb.2.2.2)
  have hprobs : MonteCarloComputerPlayer.probabilities value game draws
      = some (vec_put (List.replicate (game.size * game.size).toNat 0) (r * game.size + q) p,
          draws) := by
    unfold MonteCarloComputerPlayer.probabilities
    rw [fill_rows_single value game hwf hb he hone p hmc (upto game.size) _ draws
      (fun i hi => (mem_upto _ _).1 hi), if_pos ((mem_upto _ _).2 ⟨hb.1, hb.2.1⟩)]
  unfold MonteCarloComputerPlayer.make_move
  rw [hprobs]
  simp only
  have hsz : game.size = game.graph.size := rfl
  have hlen : (vec_put (List.replicate (game.size * game.size).toNat (0 : ℚ))
      (r * game.size + q) p).length = (game.graph.size * game.graph.size).toNat := by
    unfold vec_put
    split <;> simp [hsz]
  have hget : ∀ k : Nat, (vec_put (List.replicate (game.size * game.size).toNat (0 : ℚ))
      (r * game.size + q) p).getD k 0
        = if k = (r * game.graph.size + q).toNat then p else 0 := by
    intro k
    unfold vec_put
    rw [hsz, if_pos hk.1, List.getD_eq_getElem?_getD, List.getElem?_set]
    by_cases hkk : (r * game.graph.size + q).toNat = k
    · rw [if_pos hkk, if_pos hkk.symm]
      have hlt : (r * game.graph.size + q).toNat
          < (List.replicate (game.graph.size * game.graph.size).toNat (0 : ℚ)).length := by
        rw [List.length_replicate]
        have := hk.2.1
        omega
      rw [if_pos hlt]
      rfl
    · rw [if_neg hkk, if_neg (fun h => hkk h.symm), List.getElem?_replicate]
      split <;> rfl
  congr 2
  unfold MonteCarloComputerPlayer.scan
  rcases scan_prefix game.size
    (vec_put (List.replicate (game.size * game.size).toNat (0 : ℚ)) (r * game.size + q) p) x y
    (vec_put (List.replicate (game.size * game.size).toNat (0 : ℚ))
      (r * game.size + q) p).length with ⟨hall, hst⟩ | ⟨i, hi, hst, hipos, _, _⟩
  · rw [hst]
    have h1 := hall (r * game.graph.size + q).toNat (by rw [hlen]; have := hk.2.1; omega)
    rw [hget, if_pos rfl] at h1
    rw [if_neg (not_lt.2 h1)]
  · rw [hst]
    rw [hget] at hipos
    by_cases hii : i = (r * game.graph.size + q).toNat
    · rw [if_pos hii] at hipos
      rw [if_pos hipos]
      have hcast : (i : Int) = r * game.graph.size + q := by
        rw [hii]
        exact Int.toNat_of_nonneg hk.1
      show ((i : Int) / game.graph.size, (i : Int) % game.graph.size) = (r, q)
      rw [hcast, hk.2.2.1, hk.2.2.2]
    · rw [if_neg hii] at hipos
      exact absurd hipos (lt_irrefl 0)

/-- C8 (as amended): with Red registered as `_players[0]` and Blue as `_players[1]`, on a
board of side `N >= 1` whose only Empty cell is `(r, q)`, for the Monte Carlo selector of
colour `value` (Red or Blue) with opponent `other`: on a board on which `is_over()` is
false, the only boards on which `main` asks for a move, `make_move` returns `x = r`,
`y = q` whatever `x`, `y` and the draws were.  More precisely, when the opponent has no
winning chain, all 1000 trials at `(r, q)` are won (probability 1, no draw consumed) and
`make_move` returns `(r, q)`; when the opponent has a winning chain, all trials are lost and
`make_move` returns the `x`, `y` it was called with. -/
theorem mc_make_move_single_empty (value other : node) (game : HexBoard) (hwf : game.graph.wf)
    (hred : game.players0.value = node.red) (hblue : game.players1.value = node.blue)
    (hvo : (value = node.red ∧ other = node.blue) ∨ (value = node.blue ∧ other = node.red))
    (r q : Int) (hb : on_board game.size (r, q))
    (he : game.graph.get_node_value r q = some node.empty)
    (hone : ∀ a b : Int, on_board game.size (a, b) →
      game.graph.get_node_value a b = some node.empty → a = r ∧ b = q) :
    (game.is_over_any = false → ∀ (x y : Int) (draws : List Int),
        MonteCarloComputerPlayer.make_move value game x y draws = some ((r, q), draws))
    ∧ (game.is_over other = false → ∀ (x y : Int) (draws : List Int),
        MonteCarloComputerPlayer.do_monte_carlo value game r q draws = some (1, draws)
        ∧ MonteCarloComputerPlayer.make_move value game x y draws = some ((r, q), draws))
    ∧ (game.is_over other = true → ∀ (x y : Int) (draws : List Int),
        MonteCarloComputerPlayer.do_monte_carlo value game r q draws = some (0, draws)
        ∧ MonteCarloComputerPlayer.make_move value game x y draws = some ((x, y), draws)) := by
  have hmc := do_monte_carlo_last_cell value other game hwf hred hblue hvo hb he hone
  have hwin : game.is_over other = false → ∀ (x y : Int) (draws : List Int),
      MonteCarloComputerPlayer.do_monte_carlo value game r q draws = some (1, draws)
      ∧ MonteCarloComputerPlayer.make_move value game x y draws = some ((r, q), draws) := by
    intro hopp x y draws
    have hmc1 : ∀ draws, MonteCarloComputerPlayer.do_monte_carlo value game r q draws
        = some (1, draws) := by
      intro ds
      rw [hmc ds, hopp]
      rfl
    refine ⟨hmc1 draws, ?_⟩
    rw [make_move_single value game hwf hb he hone 1 hmc1 x y draws, if_pos one_pos]
  refine ⟨?_, hwin, ?_⟩
  · intro hnot x y draws
    refine (hwin ?_ x y draws).2
    unfold HexBoard.is_over_any at hnot
    rw [Bool.or_eq_false_iff] at hnot
    rcases hvo with ⟨_, h2⟩ | ⟨_, h2⟩
    · rw [h2]
      simp only [HexBoard.is_over, if_true]
      exact hnot.2
    · rw [h2]
      simp only [HexBoard.is_over, if_true]
      exact hnot.1
  · intro hopp x y draws
    have hmc0 : ∀ draws, MonteCarloComputerPlayer.do_monte_carlo value game r q draws
        = some (0, draws) := by
      intro ds
      rw [hmc ds, hopp]
      rfl
    refine ⟨hmc0 draws, ?_⟩
    rw [make_move_single value game hwf hb he hone 0 hmc0 x y draws, if_neg (lt_irrefl 0)]

/-- Blue has no cell in column 1 of this board, so `check_blue` is false. -/
theorem check_blue_open :
    (board2 node.blue node.red node.blue node.empty).check_blue = false := by
  rw [← Bool.not_eq_true, check_blue_iff _ (board2_wf _ _ _ _)]
  rintro ⟨i, j, _, hj, hpath⟩
  have hp := (path_connected_iff _ _ _ _).1 hpath
  have hh := (reach_holds _ _ hp.1 hp.2).2
  have hj2 : 0 ≤ j ∧ j < 2 := hj
  have : j = 0 ∨ j = 1 := by omega
  rcases this with rfl | rfl
  · revert hh
    decide
  · revert hh
    decide

/-- Red has no cell in row 1 of this board, so `check_red` is false. -/
theorem check_red_open :
    (board2 node.blue node.red node.blue node.empty).check_red = false := by
  rw [← Bool.not_eq_true, check_red_iff _ (board2_wf _ _ _ _)]
  rintro ⟨i, j, _, hj, hpath⟩
  have hp := (path_connected_iff _ _ _ _).1 hpath
  have hh := (reach_holds _ _ hp.1 hp.2).2
  have hj2 : 0 ≤ j ∧ j < 2 := hj
  have : j = 0 ∨ j = 1 := by omega
  rcases this with rfl | rfl
  · revert hh
    decide
  · revert hh
    decide

theorem mc_make_move_single_empty_witness :
    (board2 node.blue node.red node.blue node.empty).is_over_any = false
    ∧ MonteCarloComputerPlayer.make_move node.red
        (board2 node.blue node.red node.blue node.empty) 5 5 [1, 0] = some ((1, 1), [1, 0]) := by
  have hone : ∀ a b : Int, on_board (board2 node.blue node.red node.blue node.empty).size (a, b) →
      (board2 node.blue node.red node.blue node.empty).graph.get_node_value a b
        = some node.empty → a = 1 ∧ b = 1 := by
    intro a b hab
    have h1 : 0 ≤ a ∧ a < 2 := ⟨hab.1, hab.2.1⟩
    have h2 : 0 ≤ b ∧ b < 2 := ⟨hab.2.2.1, hab.2.2.2⟩
    have ha : a = 0 ∨ a = 1 := by omega
    have hb : b = 0 ∨ b = 1 := by omega
    rcases ha with rfl | rfl <;> rcases hb with rfl | rfl <;> decide
  have hnot : (board2 node.blue node.red node.blue node.empty).is_over_any = false := by
    unfold HexBoard.is_over_any
    rw [check_red_open, check_blue_open]
    rfl
  exact ⟨hnot, (mc_make_move_single_empty node.red node.blue
    (board2 node.blue node.red node.blue node.empty) (board2_wf _ _ _ _) rfl rfl
    (Or.inl ⟨rfl, rfl⟩) 1 1 (by unfold on_board; decide) (by decide) hone).1 hnot 5 5 [1, 0]⟩

end Hex
